import Mathlib

/-!
# FAO_DAG: traversal scheduler, forward/adjoint evaluation, boundary copies

A shallow embedding of `src/FAO_DAG.hpp`.

* A pointer `FAO*` is a natural number (the address); the memory holding the
  `FAO` objects is a function from addresses to node records (`Heap`).
* `std::map<FAO*, size_t>` is a partial function `Nat → Option Nat`; `m[k]`
  reads the value (0 for a missing key) and inserts the missing key.
* `gsl::vector<double>` is a list of elements of an arbitrary type `α`; every
  node record owns two of them, `input_data` and `output_data`, which are
  distinct buffers.
* The `while` loop of `traverse_graph` is run with a bound on the number of
  iterations (`fuel`); running out of fuel is `none`.
* `size_t` counters are natural numbers: a counter of `eval_map` is incremented
  once per visit of its node and once per edge into its node at each visit of the
  source of the edge, and a node is visited at most twice: far below `2^64`.
* `FAO.hpp` is not part of the sources: the member functions of `FAO` that are
  called are parameters (`FAOOps` for the evaluators, `FAOAlloc` for the constructor
  and the destructor).
* The `printf` calls only read the state and are left out.
* An `assert` is active unless the code is compiled with `NDEBUG` defined; the
  boundary copies take the build as a parameter `ndebug`. A failing active `assert`
  aborts the program: the call yields an error and the state it found.
-/

namespace FAODAG

/-! ## Data model -/

/-- A `std::map<FAO*, size_t>`: the keys present and their values. -/
abbrev PtrMap := Nat → Option Nat

/-- The map after `clear()`. -/
def map_clear : PtrMap := fun _ => none

/-- The value read by `m[k]`: a missing key is value-initialised to 0. -/
def map_get (m : PtrMap) (k : Nat) : Nat := (m k).getD 0

/-- The map left behind by evaluating `m[k]`: a missing key is inserted with value 0. -/
def map_touch (m : PtrMap) (k : Nat) : PtrMap :=
  fun j => if j = k then some (map_get m k) else m j

/-- The map after `m[k]++`. -/
def map_incr (m : PtrMap) (k : Nat) : PtrMap :=
  fun j => if j = k then some (map_get m k + 1) else m j

/-- The fields of an `FAO` node that `FAO_DAG` reads and writes. Pointers to
neighbours are addresses; an element of `input_sizes`/`output_sizes` is the
list of dimensions of one edge. -/
structure FAO (α : Type) where
  input_nodes : List Nat
  output_nodes : List Nat
  input_sizes : List (List Nat)
  output_sizes : List (List Nat)
  input_offsets : PtrMap
  output_offsets : PtrMap
  input_data : List α
  output_data : List α

/-- The memory holding the `FAO` objects, by address. -/
abbrev Heap (α : Type) := Nat → FAO α

/-- Store a node record at an address. -/
def heap_set {α : Type} (h : Heap α) (p : Nat) (n : FAO α) : Heap α :=
  fun q => if q = p then n else h q

/-- The member functions of `FAO` that the evaluators call; `FAO.hpp` is not
part of the sources, so they are parameters. `forward_eval node input output`
is the content of the output buffer after `node->forward_eval(input, output)`,
`adjoint_eval node output input` the content of the input buffer after
`node->adjoint_eval(output, input)`. -/
structure FAOOps (α : Type) where
  forward_eval : Nat → List α → List α → List α
  adjoint_eval : Nat → List α → List α → List α
  get_elem_length : Nat → List Nat → Nat

/-- The class `FAO_DAG` together with the memory its pointers refer to. -/
structure FAO_DAG (α : Type) where
  start_node : Nat
  end_node : Nat
  ready_queue : List Nat
  eval_map : PtrMap
  heap : Heap α

/-! ## Graph traversal -/

/-- One iteration of `for (auto node : child_nodes)`: count the edge, and push the
node when the counter equals its number of inputs in the traversal direction.
The flag tells whether the node was pushed. -/
def traverse_child {α : Type} (forward : Bool) (s : FAO_DAG α) (node : Nat) :
    FAO_DAG α × Bool :=
  let s1 : FAO_DAG α := { s with eval_map := map_incr s.eval_map node }
  let node_inputs_count :=
    if forward then (s1.heap node).input_nodes.length
    else (s1.heap node).output_nodes.length
  if map_get s1.eval_map node = node_inputs_count then
    ({ s1 with ready_queue := s1.ready_queue ++ [node] }, true)
  else (s1, false)

/-- The loop `for (auto node : child_nodes)`; also returns the nodes it pushed, in order. -/
def traverse_children {α : Type} (forward : Bool) :
    List Nat → FAO_DAG α → FAO_DAG α × List Nat
  | [], s => (s, [])
  | node :: rest, s =>
    let r := traverse_child forward s node
    let r2 := traverse_children forward rest r.1
    (r2.1, if r.2 then node :: r2.2 else r2.2)

/-- The body of the `while` loop for the node `curr` taken from the front of the
queue (`rest` is the queue after `pop`). -/
def traverse_visit {α : Type} (node_fn : Nat → Heap α → Heap α) (forward : Bool)
    (s : FAO_DAG α) (curr : Nat) (rest : List Nat) : FAO_DAG α × List Nat :=
  let s1 : FAO_DAG α := { s with ready_queue := rest }
  let s2 : FAO_DAG α := { s1 with heap := node_fn curr s1.heap }
  let s3 : FAO_DAG α := { s2 with eval_map := map_incr s2.eval_map curr }
  let child_nodes :=
    if forward then (s3.heap curr).output_nodes else (s3.heap curr).input_nodes
  traverse_children forward child_nodes s3

/-- The loop `while (!ready_queue.empty())`. The second component of the result is
the log of the calls of `node_fn`: the node visited, with the nodes pushed on
`ready_queue` during that visit. -/
def traverse_loop {α : Type} (node_fn : Nat → Heap α → Heap α) (forward : Bool) :
    Nat → FAO_DAG α → Option (FAO_DAG α × List (Nat × List Nat))
  | 0, _ => none
  | fuel + 1, s =>
    match s.ready_queue with
    | [] => some (s, [])
    | curr :: rest =>
      let r := traverse_visit node_fn forward s curr rest
      match traverse_loop node_fn forward fuel r.1 with
      | none => none
      | some (s', log) => some (s', (curr, r.2) :: log)

/-- `FAO_DAG::traverse_graph`. -/
def traverse_graph {α : Type} (node_fn : Nat → Heap α → Heap α) (forward : Bool)
    (fuel : Nat) (s : FAO_DAG α) : Option (FAO_DAG α × List (Nat × List Nat)) :=
  let start := if forward then s.start_node else s.end_node
  let s1 : FAO_DAG α := { s with ready_queue := s.ready_queue ++ [start] }
  match traverse_loop node_fn forward fuel s1 with
  | none => none
  | some (s2, log) => some ({ s2 with eval_map := map_clear }, log)

/-- The nodes on which `node_fn` was called, in call order. -/
def visited (log : List (Nat × List Nat)) : List Nat := log.map Prod.fst

/-- The nodes pushed on `ready_queue` by the loop, in push order. -/
def pushed (log : List (Nat × List Nat)) : List Nat := (log.map Prod.snd).flatten

/-! ## Boundary accessors and copies -/

/-- A `gsl::vector<double>*` pointing into a node. -/
inductive VecPtr where
  | input_data (node : Nat)
  | output_data (node : Nat)
deriving DecidableEq

/-- The vector a pointer refers to. -/
def vec_read {α : Type} (h : Heap α) : VecPtr → List α
  | .input_data p => (h p).input_data
  | .output_data p => (h p).output_data

/-- Overwrite the vector a pointer refers to. -/
def vec_write {α : Type} (h : Heap α) (r : VecPtr) (v : List α) : Heap α :=
  match r with
  | .input_data p => heap_set h p { h p with input_data := v }
  | .output_data p => heap_set h p { h p with output_data := v }

/-- `FAO_DAG::get_forward_input`. -/
def get_forward_input {α : Type} (s : FAO_DAG α) : VecPtr := .input_data s.start_node

/-- `FAO_DAG::get_forward_output`. -/
def get_forward_output {α : Type} (s : FAO_DAG α) : VecPtr := .output_data s.end_node

/-- `FAO_DAG::get_adjoint_input`. -/
def get_adjoint_input {α : Type} (s : FAO_DAG α) : VecPtr := get_forward_output s

/-- `FAO_DAG::get_adjoint_output`. -/
def get_adjoint_output {α : Type} (s : FAO_DAG α) : VecPtr := get_forward_input s

/-- Modelled from the spec: `gsl::vector_memcpy` is declared in `gsl/gsl_vector.h`,
which is not part of the sources. It is a plain element-wise copy of as many
elements as the vector has; the destination keeps its size, and where the source
has no element the destination keeps its own. -/
def vector_memcpy {α : Type} (dst src : List α) : List α :=
  dst.mapIdx (fun j x => (src[j]?).getD x)

/-- Modelled from the spec: `gsl::vector_subvec_memcpy` is declared in
`gsl/gsl_vector.h`, which is not part of the sources. It copies the `len`
contiguous elements of `src` starting at `src_offset` over the elements of `dst`
starting at `dst_offset`, a plain element-wise copy. The destination keeps its
size; positions outside either buffer are left alone. -/
def vector_subvec_memcpy {α : Type} (dst : List α) (dst_offset : Nat) (src : List α)
    (src_offset len : Nat) : List α :=
  dst.mapIdx (fun j x =>
    if dst_offset ≤ j ∧ j < dst_offset + len then
      (src[src_offset + (j - dst_offset)]?).getD x
    else x)

/-- The failure of the `assert` of a boundary copy: the program is aborted. -/
inductive CopyError where
  | size_mismatch
deriving DecidableEq

/-- `FAO_DAG::copy_input`: the outcome and the state left behind. `ndebug` tells
whether the code is compiled with `NDEBUG` defined. Without it the `assert` on the
sizes is active and, when it fails, aborts the call before the copy. With it the
`assert` is compiled out and the copy is made whatever the sizes: `vector_memcpy`
copies as many elements as the target buffer has. (A sequence shorter than the
buffer is then read past its end, which is undefined; the model leaves the
remaining elements of the buffer alone, and nothing is proved about that case.) -/
def copy_input {α : Type} (ndebug : Bool) (s : FAO_DAG α) (input : List α)
    (forward : Bool) : Except CopyError Unit × FAO_DAG α :=
  let input_vec := if forward then get_forward_input s else get_adjoint_input s
  if ndebug = false ∧ input.length ≠ (vec_read s.heap input_vec).length then
    (.error .size_mismatch, s)
  else
    let h := vec_write s.heap input_vec (vector_memcpy (vec_read s.heap input_vec) input)
    (.ok (), { s with heap := h })

/-- `FAO_DAG::copy_output`: the outcome, the content of `output` afterwards and the
state left behind. `ndebug` tells whether the code is compiled with `NDEBUG` defined.
Without it the `assert` on the sizes is active and, when it fails, aborts the call
before the copy. With it the `assert` is compiled out and the copy is made whatever
the sizes: `vector_memcpy` copies as many elements as the boundary buffer has over
the first elements of `output`. (A sequence shorter than the buffer is then written
past its end, which is undefined; the model writes the elements it has, and nothing
is proved about that case.) -/
def copy_output {α : Type} (ndebug : Bool) (s : FAO_DAG α) (output : List α)
    (forward : Bool) : Except CopyError Unit × List α × FAO_DAG α :=
  let output_vec := if forward then get_forward_output s else get_adjoint_output s
  if ndebug = false ∧ output.length ≠ (vec_read s.heap output_vec).length then
    (.error .size_mismatch, output, s)
  else (.ok (), vector_memcpy output (vec_read s.heap output_vec), s)

/-! ## Forward and adjoint evaluation -/

/-- One iteration of the copy loop of the `node_eval` of `forward_eval`. -/
def forward_copy {α : Type} (ops : FAOOps α) (node : Nat) (h : Heap α) (i : Nat) :
    Heap α :=
  let target := (h node).output_nodes.getD i 0
  let len := ops.get_elem_length node ((h node).output_sizes.getD i [])
  let node_offset := map_get (h node).output_offsets target
  let h1 := heap_set h node
    { h node with output_offsets := map_touch (h node).output_offsets target }
  let target_offset := map_get (h1 target).input_offsets node
  let h2 := heap_set h1 target
    { h1 target with input_offsets := map_touch (h1 target).input_offsets node }
  let data := vector_subvec_memcpy (h2 target).input_data target_offset
    (h2 node).output_data node_offset len
  heap_set h2 target { h2 target with input_data := data }

/-- The `node_eval` of `forward_eval`. The copy loop never changes
`node->output_nodes`, so its bound is the length at loop entry. -/
def forward_node_eval {α : Type} (ops : FAOOps α) (node : Nat) (h : Heap α) : Heap α :=
  let out := ops.forward_eval node (h node).input_data (h node).output_data
  let h1 := heap_set h node { h node with output_data := out }
  (List.range (h1 node).output_nodes.length).foldl (forward_copy ops node) h1

/-- `FAO_DAG::forward_eval`. -/
def forward_eval {α : Type} (ops : FAOOps α) (fuel : Nat) (s : FAO_DAG α) :
    Option (FAO_DAG α) :=
  (traverse_graph (forward_node_eval ops) true fuel s).map Prod.fst

/-- One iteration of the copy loop of the `node_eval` of `adjoint_eval`. -/
def adjoint_copy {α : Type} (ops : FAOOps α) (node : Nat) (h : Heap α) (i : Nat) :
    Heap α :=
  let target := (h node).input_nodes.getD i 0
  let len := ops.get_elem_length node ((h node).input_sizes.getD i [])
  let node_offset := map_get (h node).input_offsets target
  let h1 := heap_set h node
    { h node with input_offsets := map_touch (h node).input_offsets target }
  let target_offset := map_get (h1 target).output_offsets node
  let h2 := heap_set h1 target
    { h1 target with output_offsets := map_touch (h1 target).output_offsets node }
  let data := vector_subvec_memcpy (h2 target).output_data target_offset
    (h2 node).input_data node_offset len
  heap_set h2 target { h2 target with output_data := data }

/-- The `node_eval` of `adjoint_eval`. -/
def adjoint_node_eval {α : Type} (ops : FAOOps α) (node : Nat) (h : Heap α) : Heap α :=
  let inp := ops.adjoint_eval node (h node).output_data (h node).input_data
  let h1 := heap_set h node { h node with input_data := inp }
  (List.range (h1 node).input_nodes.length).foldl (adjoint_copy ops node) h1

/-- `FAO_DAG::adjoint_eval`. -/
def adjoint_eval {α : Type} (ops : FAOOps α) (fuel : Nat) (s : FAO_DAG α) :
    Option (FAO_DAG α) :=
  (traverse_graph (adjoint_node_eval ops) false fuel s).map Prod.fst

/-! ## Construction and destruction -/

/-- The member functions of `FAO` that the constructor and the destructor of `FAO_DAG`
call on a node; `FAO.hpp` is not part of the sources, so they are parameters: the
memory after the call on the node at the given address. -/
structure FAOAlloc (α : Type) where
  alloc_data : Nat → Heap α → Heap α
  init_offset_maps : Nat → Heap α → Heap α
  free_data : Nat → Heap α → Heap α

/-- `FAO_DAG::FAO_DAG`: the instance constructed over the graph in the memory `h`,
with the log of the traversal. Its `node_fn` calls `alloc_data` and then
`init_offset_maps` on the node. -/
def construct {α : Type} (mem : FAOAlloc α) (fuel : Nat) (start end_node : Nat)
    (h : Heap α) : Option (FAO_DAG α × List (Nat × List Nat)) :=
  let s : FAO_DAG α :=
    { start_node := start, end_node := end_node, ready_queue := [], eval_map := map_clear,
      heap := h }
  let node_fn := fun (node : Nat) (h : Heap α) =>
    mem.init_offset_maps node (mem.alloc_data node h)
  traverse_graph node_fn true fuel s

/-- `FAO_DAG::~FAO_DAG`: the state left behind, with the log of the traversal. Its
`node_fn` calls `free_data` on the node. -/
def destruct {α : Type} (mem : FAOAlloc α) (fuel : Nat) (s : FAO_DAG α) :
    Option (FAO_DAG α × List (Nat × List Nat)) :=
  let node_fn := fun (node : Nat) (h : Heap α) => mem.free_data node h
  traverse_graph node_fn true fuel s

/-! ## Notions used to state and prove the properties -/

/-! ### The scheduler: loop invariant -/

/-- The neighbour list a traversal follows from a node. -/
def children {α : Type} (forward : Bool) (n : FAO α) : List Nat :=
  if forward then n.output_nodes else n.input_nodes

/-- The neighbour list whose length is the threshold of a node in a traversal. -/
def parents {α : Type} (forward : Bool) (n : FAO α) : List Nat :=
  if forward then n.input_nodes else n.output_nodes

/-- Hypotheses of the scheduling argument for one traversal direction, over a fixed
topology: `ch u` is the list a traversal follows from `u`, `pa v` the list whose
length is the threshold of `v`. -/
structure Sched (ch pa : Nat → List Nat) (nodes : List Nat) (start : Nat) : Prop where
  nodup : nodes.Nodup
  start_mem : start ∈ nodes
  closed : ∀ u ∈ nodes, ∀ v ∈ ch u, v ∈ nodes
  pa_closed : ∀ v ∈ nodes, ∀ p ∈ pa v, p ∈ nodes
  consistent : ∀ u ∈ nodes, ∀ v ∈ nodes, (ch u).count v = (pa v).count u
  start_pa : pa start = []
  other_pa : ∀ v ∈ nodes, v ≠ start → pa v ≠ []
  minimal : ∀ V : List Nat, (∃ v ∈ nodes, v ∉ V) → ∃ v ∈ nodes, v ∉ V ∧ ∀ p ∈ pa v, p ∈ V

/-- Loop invariant of the scheduler: `V` are the nodes visited so far, `Pd` the
nodes pushed by the loop so far, `q` the queue and `c` the counters. -/
structure Inv (pa : Nat → List Nat) (nodes : List Nat) (start : Nat)
    (V Pd q : List Nat) (c : Nat → Nat) : Prop where
  nodup : (V ++ q).Nodup
  mem : ∀ x ∈ V ++ q, x ∈ nodes
  count : ∀ v ∈ nodes, c v = (pa v).countP (fun p => decide (p ∈ V)) + (if v ∈ V then 1 else 0)
  ready : ∀ v ∈ nodes, v ∈ V ++ q ↔ ∀ p ∈ pa v, p ∈ V
  fifo : start :: Pd = V ++ q

/-- The log of a traversal respects the dependencies, given the nodes `V` visited
before it: a node is visited only when all its parents have been, and a node is
pushed only during the visit of one of its parents, by which all its parents have
been visited; a visited node is new, and so are its children. -/
def LogOK (ch pa : Nat → List Nat) : List Nat → List (Nat × List Nat) → Prop
  | _, [] => True
  | V, e :: log =>
    (∀ p ∈ pa e.1, p ∈ V) ∧ (∀ w ∈ e.2, w ∈ ch e.1 ∧ ∀ p ∈ pa w, p ∈ V ++ [e.1]) ∧
      e.1 ∉ V ∧ (∀ t ∈ ch e.1, t ∉ V ++ [e.1]) ∧ LogOK ch pa (V ++ [e.1]) log

/-- A `node_fn` that leaves the neighbour lists of every node alone. -/
def PreservesTopology {α : Type} (node_fn : Nat → Heap α → Heap α) : Prop :=
  ∀ u h v, (node_fn u h v).input_nodes = (h v).input_nodes ∧
    (node_fn u h v).output_nodes = (h v).output_nodes

/-! ### Graphs -/

/-- Successor edges: `b` is in the `output_nodes` of `a`. -/
def succ_edge {α : Type} (G : Heap α) (a b : Nat) : Prop := b ∈ (G a).output_nodes

/-- There is a path from `a` to `b` along successor edges. -/
def Reach {α : Type} (G : Heap α) (a b : Nat) : Prop :=
  Relation.ReflTransGen (succ_edge G) a b

/-- The nodes `nodes` form a finite acyclic graph whose predecessor and successor
lists are mutually consistent: an edge is listed as often in the `output_nodes`
of its source as in the `input_nodes` of its target. -/
structure WellFormed {α : Type} (G : Heap α) (nodes : List Nat) : Prop where
  nodup : nodes.Nodup
  closed_out : ∀ u ∈ nodes, ∀ v ∈ (G u).output_nodes, v ∈ nodes
  closed_in : ∀ v ∈ nodes, ∀ u ∈ (G v).input_nodes, u ∈ nodes
  consistent : ∀ u ∈ nodes, ∀ v ∈ nodes,
    (G u).output_nodes.count v = (G v).input_nodes.count u
  acyclic : ∀ u ∈ nodes, ¬ Relation.TransGen (succ_edge G) u u

/-- The start node of a traversal. -/
def start_of {α : Type} (forward : Bool) (s : FAO_DAG α) : Nat :=
  if forward then s.start_node else s.end_node

/-- The hypotheses on the graph for a traversal in one direction: every node is
reachable from the entry (forward), the exit is reachable from every node (reverse). -/
def Reachable {α : Type} (forward : Bool) (s : FAO_DAG α) (nodes : List Nat) : Prop :=
  if forward then s.start_node ∈ nodes ∧ ∀ v ∈ nodes, Reach s.heap s.start_node v
  else s.end_node ∈ nodes ∧ ∀ v ∈ nodes, Reach s.heap v s.end_node

/-! ### The scheduler on valid graphs -/

/-- A valid two-terminal DAG on the nodes `nodes`: a finite acyclic graph with
consistent neighbour lists in which every node is reachable from the entry node
and the exit node is reachable from every node. -/
def TwoTerminalDAG {α : Type} (s : FAO_DAG α) (nodes : List Nat) : Prop :=
  WellFormed s.heap nodes ∧ Reachable true s nodes ∧ Reachable false s nodes

/-! ### Slice copies -/

/-- The `len` elements of a buffer starting at `off`. -/
def subvec {α : Type} (l : List α) (off len : Nat) : List α := (l.drop off).take len

/-! ### Forward evaluation -/

/-- The target of the `i`-th successor edge of `u`. -/
def edge_target {α : Type} (h : Heap α) (u i : Nat) : Nat := (h u).output_nodes.getD i 0

/-- The number of elements the `i`-th successor edge of `u` carries. -/
def edge_len {α : Type} (ops : FAOOps α) (h : Heap α) (u i : Nat) : Nat :=
  ops.get_elem_length u ((h u).output_sizes.getD i [])

/-- The offset of the `i`-th successor edge of `u` in the output buffer of `u`. -/
def edge_src_offset {α : Type} (h : Heap α) (u i : Nat) : Nat :=
  map_get (h u).output_offsets (edge_target h u i)

/-- The offset of the `i`-th successor edge of `u` in the input buffer of its target. -/
def edge_dst_offset {α : Type} (h : Heap α) (u i : Nat) : Nat :=
  map_get (h (edge_target h u i)).input_offsets u

/-- Two heaps agree on everything but the buffer contents and the set of keys of
the offset maps: neighbour lists, edge sizes and the offsets read from the maps. -/
def SameStatic {α : Type} (h h' : Heap α) : Prop :=
  ∀ v, (h' v).input_nodes = (h v).input_nodes ∧ (h' v).output_nodes = (h v).output_nodes ∧
    (h' v).input_sizes = (h v).input_sizes ∧ (h' v).output_sizes = (h v).output_sizes ∧
    (∀ k, map_get (h' v).input_offsets k = map_get (h v).input_offsets k) ∧
    (∀ k, map_get (h' v).output_offsets k = map_get (h v).output_offsets k)

/-- The buffers of every node have the same sizes in both heaps. -/
def SameLengths {α : Type} (h h' : Heap α) : Prop :=
  ∀ v, (h' v).input_data.length = (h v).input_data.length ∧
    (h' v).output_data.length = (h v).output_data.length

/-- The slices of every successor edge lie within the buffers at both ends. -/
def SlicesInBounds {α : Type} (ops : FAOOps α) (h : Heap α) (nodes : List Nat) : Prop :=
  ∀ u ∈ nodes, ∀ i, i < (h u).output_nodes.length →
    edge_src_offset h u i + edge_len ops h u i ≤ (h u).output_data.length ∧
    edge_dst_offset h u i + edge_len ops h u i
      ≤ (h (edge_target h u i)).input_data.length

/-- The slices that two different edges into the same node occupy in its input
buffer are disjoint. -/
def IncomingDisjoint {α : Type} (ops : FAOOps α) (h : Heap α) (nodes : List Nat) : Prop :=
  ∀ u ∈ nodes, ∀ i, i < (h u).output_nodes.length →
    ∀ u' ∈ nodes, ∀ i', i' < (h u').output_nodes.length →
      (u, i) ≠ (u', i') → edge_target h u i = edge_target h u' i' →
        edge_dst_offset h u i + edge_len ops h u i ≤ edge_dst_offset h u' i' ∨
        edge_dst_offset h u' i' + edge_len ops h u' i' ≤ edge_dst_offset h u i ∨
        edge_len ops h u i = 0 ∨ edge_len ops h u' i' = 0

/-- The slice of the `i`-th successor edge of `u` reads the same at both ends in
the heap `h`; the edge is located by the heap `h0`. -/
def EdgeOK {α : Type} (ops : FAOOps α) (h0 h : Heap α) (u i : Nat) : Prop :=
  subvec (h (edge_target h0 u i)).input_data (edge_dst_offset h0 u i) (edge_len ops h0 u i)
    = subvec (h u).output_data (edge_src_offset h0 u i) (edge_len ops h0 u i)

/-- Invariant of forward evaluation: the heap has the static part and the buffer
sizes of `h0`, and every node of `P` has been evaluated: its output is `F` of its
input and the slices of its successor edges have been copied. -/
def EvalInv {α : Type} (ops : FAOOps α) (F : Nat → List α → List α) (h0 : Heap α)
    (P : List Nat) (h : Heap α) : Prop :=
  SameStatic h0 h ∧ SameLengths h0 h ∧
  (∀ u ∈ P, (h u).output_data = F u (h u).input_data) ∧
  (∀ u ∈ P, ∀ i, i < (h0 u).output_nodes.length → EdgeOK ops h0 h u i)

/-! ### Adjoint evaluation, by transposition -/

/-- A node with the roles of inputs and outputs exchanged. -/
def FAO.transpose {α : Type} (n : FAO α) : FAO α :=
  { input_nodes := n.output_nodes, output_nodes := n.input_nodes,
    input_sizes := n.output_sizes, output_sizes := n.input_sizes,
    input_offsets := n.output_offsets, output_offsets := n.input_offsets,
    input_data := n.output_data, output_data := n.input_data }

/-- The heap in which every node is transposed. -/
def transpose_heap {α : Type} (h : Heap α) : Heap α := fun p => (h p).transpose

/-- The node operations with forward and adjoint exchanged. -/
def FAOOps.transpose {α : Type} (ops : FAOOps α) : FAOOps α :=
  { forward_eval := ops.adjoint_eval, adjoint_eval := ops.forward_eval,
    get_elem_length := ops.get_elem_length }

/-- The target of the `i`-th predecessor edge of `u`. -/
def pred_target {α : Type} (h : Heap α) (u i : Nat) : Nat := (h u).input_nodes.getD i 0

/-- The number of elements the `i`-th predecessor edge of `u` carries. -/
def pred_len {α : Type} (ops : FAOOps α) (h : Heap α) (u i : Nat) : Nat :=
  ops.get_elem_length u ((h u).input_sizes.getD i [])

/-- The offset of the `i`-th predecessor edge of `u` in the input buffer of `u`. -/
def pred_src_offset {α : Type} (h : Heap α) (u i : Nat) : Nat :=
  map_get (h u).input_offsets (pred_target h u i)

/-- The offset of the `i`-th predecessor edge of `u` in the output buffer of its target. -/
def pred_dst_offset {α : Type} (h : Heap α) (u i : Nat) : Nat :=
  map_get (h (pred_target h u i)).output_offsets u

/-- The slices of every predecessor edge lie within the buffers at both ends. -/
def AdjointSlicesInBounds {α : Type} (ops : FAOOps α) (h : Heap α) (nodes : List Nat) :
    Prop :=
  ∀ u ∈ nodes, ∀ i, i < (h u).input_nodes.length →
    pred_src_offset h u i + pred_len ops h u i ≤ (h u).input_data.length ∧
    pred_dst_offset h u i + pred_len ops h u i
      ≤ (h (pred_target h u i)).output_data.length

/-- The slices that two different predecessor edges with the same target occupy in
the output buffer of that target are disjoint. -/
def OutgoingDisjoint {α : Type} (ops : FAOOps α) (h : Heap α) (nodes : List Nat) : Prop :=
  ∀ u ∈ nodes, ∀ i, i < (h u).input_nodes.length →
    ∀ u' ∈ nodes, ∀ i', i' < (h u').input_nodes.length →
      (u, i) ≠ (u', i') → pred_target h u i = pred_target h u' i' →
        pred_dst_offset h u i + pred_len ops h u i ≤ pred_dst_offset h u' i' ∨
        pred_dst_offset h u' i' + pred_len ops h u' i' ≤ pred_dst_offset h u i ∨
        pred_len ops h u i = 0 ∨ pred_len ops h u' i' = 0

/-! ### Determinism of the traversal, idempotence of forward evaluation -/

/-- Two states of the scheduler that the traversal cannot tell apart: same queue,
same counters, same neighbour lists. -/
def Sim {α : Type} (s t : FAO_DAG α) : Prop :=
  s.ready_queue = t.ready_queue ∧ (∀ k, map_get s.eval_map k = map_get t.eval_map k) ∧
  (∀ v, (s.heap v).input_nodes = (t.heap v).input_nodes ∧
    (s.heap v).output_nodes = (t.heap v).output_nodes)

/-! ### Linear chains -/

/-- The edge `a -> b` of a linear chain: `b` is the only successor of `a` and `a` the
only predecessor of `b`, and the edge carries the whole output buffer of `a`, at
offset 0, into the whole input buffer of `b`, at offset 0, as declared at both ends. -/
def ChainLink {α : Type} (ops : FAOOps α) (h : Heap α) (a b : Nat) : Prop :=
  (h a).output_nodes = [b] ∧ (h b).input_nodes = [a] ∧
  map_get (h a).output_offsets b = 0 ∧ map_get (h b).input_offsets a = 0 ∧
  ops.get_elem_length a ((h a).output_sizes.getD 0 []) = (h a).output_data.length ∧
  ops.get_elem_length b ((h b).input_sizes.getD 0 []) = (h b).input_data.length ∧
  (h b).input_data.length = (h a).output_data.length

/-- The state `s` holds a linear chain of `n >= 1` nodes `a 0 -> a 1 -> ... -> a (n-1)`
at pairwise different addresses, from the entry node to the exit node. -/
structure IsChain {α : Type} (ops : FAOOps α) (s : FAO_DAG α) (a : Nat → Nat) (n : Nat) :
    Prop where
  pos : 0 < n
  inj : ∀ i j, i < n → j < n → a i = a j → i = j
  entry : s.start_node = a 0
  exit : s.end_node = a (n - 1)
  entry_in : (s.heap (a 0)).input_nodes = []
  exit_out : (s.heap (a (n - 1))).output_nodes = []
  link : ∀ i, i + 1 < n → ChainLink ops s.heap (a i) (a (i + 1))

/-- The nodes of a chain. -/
def chain_nodes (a : Nat → Nat) (n : Nat) : List Nat := (List.range n).map a

/-! ### The scheduler on arbitrary finite graphs -/

/-- The nodes `nodes` are a finite graph around the entry and the exit node: a list
without duplicates that contains both and, with each of its members, all its
predecessors and successors. Nothing else is asked: the graph may have cycles and
the predecessor and successor lists need not agree. -/
structure FiniteGraph {α : Type} (s : FAO_DAG α) (nodes : List Nat) : Prop where
  nodup : nodes.Nodup
  start_mem : s.start_node ∈ nodes
  end_mem : s.end_node ∈ nodes
  closed_out : ∀ u ∈ nodes, ∀ v ∈ (s.heap u).output_nodes, v ∈ nodes
  closed_in : ∀ v ∈ nodes, ∀ u ∈ (s.heap v).input_nodes, u ∈ nodes

/-- Loop invariant of the scheduler on an arbitrary graph: `V` are the nodes visited
so far, `Pd` the nodes pushed by the loop so far, `q` the queue and `c` the counters.
A node pushed by the loop has a counter that has reached its threshold, which is why
it is pushed only once. -/
structure GenInv (pa : Nat → List Nat) (nodes : List Nat) (start : Nat)
    (V Pd q : List Nat) (c : Nat → Nat) : Prop where
  fifo : start :: Pd = V ++ q
  nodup : Pd.Nodup
  mem : ∀ v ∈ Pd, v ∈ nodes
  reached : ∀ v ∈ Pd, (pa v).length ≤ c v
  started : V ≠ [] → 1 ≤ c start
  twice : start ∈ Pd → 2 ≤ (pa start).length

/-- Calls of `traverse_graph` made one after the other on the same instance; an
element of the list is the `node_fn` and the direction of one call. -/
def run_traversals {α : Type} (fuel : Nat) :
    List ((Nat → Heap α → Heap α) × Bool) → FAO_DAG α → Option (FAO_DAG α)
  | [], s => some s
  | p :: rest, s =>
    match traverse_graph p.1 p.2 fuel s with
    | none => none
    | some r => run_traversals fuel rest r.1

/-! ### Graphs on which the scheduler stalls -/

/-- The set `S` of nodes is stuck: every member has threshold 0, which a counter
never equals after an increment, or a threshold larger than the number of edges into
it from any set `L` of nodes of the graph outside `S`. -/
def Stuck (ch pa : Nat → List Nat) (nodes : List Nat) (S : Nat → Prop) : Prop :=
  ∀ v, S v → (pa v).length = 0 ∨
    ∀ L : List Nat, L.Nodup → (∀ u ∈ L, u ∈ nodes ∧ ¬ S u) →
      (L.map (fun u => (ch u).count v)).sum < (pa v).length

/-- Loop invariant of the scheduler on a graph whose start node lies on no cycle, for
a stuck set `S`: the counters count visits and incoming edges from visited nodes,
every pushed node is reachable from the start node, and no member of `S` is pushed. -/
structure StallInv (ch pa : Nat → List Nat) (nodes : List Nat) (start : Nat)
    (S : Nat → Prop) (V Pd q : List Nat) (c : Nat → Nat) : Prop where
  gen : GenInv pa nodes start V Pd q c
  reach : ∀ v ∈ Pd, Relation.TransGen (fun a b => b ∈ ch a) start v
  cnt : ∀ v, c v = V.count v + (V.map (fun u => (ch u).count v)).sum
  avoid : ∀ v ∈ Pd, ¬ S v

/-! ### The scheduler without the increment of the visited node's own counter -/

/-- The body of the `while` loop of `traverse_graph` with the statement
`eval_map[curr]++` removed. -/
def traverse_visit_noself {α : Type} (node_fn : Nat → Heap α → Heap α) (forward : Bool)
    (s : FAO_DAG α) (curr : Nat) (rest : List Nat) : FAO_DAG α × List Nat :=
  let s1 : FAO_DAG α := { s with ready_queue := rest }
  let s2 : FAO_DAG α := { s1 with heap := node_fn curr s1.heap }
  let child_nodes :=
    if forward then (s2.heap curr).output_nodes else (s2.heap curr).input_nodes
  traverse_children forward child_nodes s2

/-- The loop `while (!ready_queue.empty())` with the body `traverse_visit_noself`. -/
def traverse_loop_noself {α : Type} (node_fn : Nat → Heap α → Heap α) (forward : Bool) :
    Nat → FAO_DAG α → Option (FAO_DAG α × List (Nat × List Nat))
  | 0, _ => none
  | fuel + 1, s =>
    match s.ready_queue with
    | [] => some (s, [])
    | curr :: rest =>
      let r := traverse_visit_noself node_fn forward s curr rest
      match traverse_loop_noself node_fn forward fuel r.1 with
      | none => none
      | some (s', log) => some (s', (curr, r.2) :: log)

/-- The variant of `traverse_graph` in which the visited node's own counter is not
incremented. -/
def traverse_graph_noself {α : Type} (node_fn : Nat → Heap α → Heap α) (forward : Bool)
    (fuel : Nat) (s : FAO_DAG α) : Option (FAO_DAG α × List (Nat × List Nat)) :=
  let start := if forward then s.start_node else s.end_node
  let s1 : FAO_DAG α := { s with ready_queue := s.ready_queue ++ [start] }
  match traverse_loop_noself node_fn forward fuel s1 with
  | none => none
  | some (s2, log) => some ({ s2 with eval_map := map_clear }, log)

/-- Two states of the scheduler that differ in the counters of the nodes of `A` only. -/
def AgreeOff {α : Type} (A : List Nat) (s t : FAO_DAG α) : Prop :=
  t.heap = s.heap ∧ t.ready_queue = s.ready_queue ∧ t.start_node = s.start_node ∧
  t.end_node = s.end_node ∧ ∀ w, w ∉ A → map_get t.eval_map w = map_get s.eval_map w

/-! ### Duality of the evaluators -/

/-- The transposed graph state: entry and exit exchanged, and every node transposed;
the scheduler's queue and counters are kept. -/
def FAO_DAG.transpose {α : Type} (s : FAO_DAG α) : FAO_DAG α :=
  { start_node := s.end_node, end_node := s.start_node, ready_queue := s.ready_queue,
    eval_map := s.eval_map, heap := transpose_heap s.heap }

/-! ### The frame of forward evaluation -/

/-- The offset maps hold an entry for every neighbour: `output_offsets` of a node for
each of its successors, `input_offsets` for each of its predecessors. -/
def OffsetsComplete {α : Type} (h : Heap α) (nodes : List Nat) : Prop :=
  ∀ u ∈ nodes, (∀ t ∈ (h u).output_nodes, (h u).output_offsets t ≠ none) ∧
    (∀ p ∈ (h u).input_nodes, (h u).input_offsets p ≠ none)

/-- Two heaps differ in the contents of the buffers only: neighbour lists, edge sizes,
offset maps and buffer sizes are the same. -/
def SameButData {α : Type} (h h' : Heap α) : Prop :=
  ∀ v, (h' v).input_nodes = (h v).input_nodes ∧ (h' v).output_nodes = (h v).output_nodes ∧
    (h' v).input_sizes = (h v).input_sizes ∧ (h' v).output_sizes = (h v).output_sizes ∧
    (h' v).input_offsets = (h v).input_offsets ∧
    (h' v).output_offsets = (h v).output_offsets ∧
    (h' v).input_data.length = (h v).input_data.length ∧
    (h' v).output_data.length = (h v).output_data.length

/-! ### Construction, evaluations, destruction -/

/-- Calls of `forward_eval` (`true`) and `adjoint_eval` (`false`) made one after the
other on the same instance. -/
def run_evals {α : Type} (ops : FAOOps α) (fuel : Nat) :
    List Bool → FAO_DAG α → Option (FAO_DAG α)
  | [], s => some s
  | dir :: rest, s =>
    match (if dir then forward_eval ops fuel s else adjoint_eval ops fuel s) with
    | none => none
    | some s1 => run_evals ops fuel rest s1

/-! ### Example graphs -/

/-- A node with the given neighbour lists, edges of one element at offset 0 and
buffers of one element. -/
def unit_node (ins outs : List Nat) : FAO Int :=
  { input_nodes := ins, output_nodes := outs,
    input_sizes := ins.map (fun _ => [1]), output_sizes := outs.map (fun _ => [1]),
    input_offsets := map_clear, output_offsets := map_clear,
    input_data := [0], output_data := [0] }

/-- An entry node 0 feeding two leaf nodes 1 and 2. -/
def fanout_heap : Heap Int := fun p =>
  match p with
  | 0 => unit_node [] [1, 2]
  | 1 => unit_node [0] []
  | 2 => unit_node [0] []
  | _ => unit_node [] []

/-- The fan-out graph with entry 0. -/
def fanout_dag : FAO_DAG Int :=
  { start_node := 0, end_node := 1, ready_queue := [], eval_map := map_clear,
    heap := fanout_heap }

/-- An offset map given by its entries. -/
def offsets_of (l : List (Nat × Nat)) : PtrMap := fun k => l.lookup k

/-- The diamond A -> B, A -> C, B -> D, C -> D with A = 0, B = 1, C = 2, D = 3. Every
edge carries one element; A has an output buffer of two elements, one per successor,
and D an input buffer of two elements, one per predecessor. -/
def diamond_heap : Heap Int := fun p =>
  match p with
  | 0 => { input_nodes := [], output_nodes := [1, 2],
           input_sizes := [], output_sizes := [[1], [1]],
           input_offsets := map_clear, output_offsets := offsets_of [(1, 0), (2, 1)],
           input_data := [0], output_data := [0, 0] }
  | 1 => { input_nodes := [0], output_nodes := [3],
           input_sizes := [[1]], output_sizes := [[1]],
           input_offsets := offsets_of [(0, 0)], output_offsets := offsets_of [(3, 0)],
           input_data := [0], output_data := [0] }
  | 2 => { input_nodes := [0], output_nodes := [3],
           input_sizes := [[1]], output_sizes := [[1]],
           input_offsets := offsets_of [(0, 0)], output_offsets := offsets_of [(3, 0)],
           input_data := [0], output_data := [0] }
  | 3 => { input_nodes := [1, 2], output_nodes := [],
           input_sizes := [[1], [1]], output_sizes := [],
           input_offsets := offsets_of [(1, 0), (2, 1)], output_offsets := map_clear,
           input_data := [0, 0], output_data := [0] }
  | _ => unit_node [] []

/-- Operations for the diamond: A duplicates its input, D adds its two inputs, B and
C are the identity; the adjoint operations are the transposes. -/
def diamond_ops : FAOOps Int :=
  { forward_eval := fun u inp _ => if u = 0 then [inp.sum, inp.sum] else [inp.sum],
    adjoint_eval := fun u out _ => if u = 3 then [out.sum, out.sum] else [out.sum],
    get_elem_length := fun _ dims => dims.prod }

/-- The diamond with entry 0 and exit 3. -/
def diamond_dag : FAO_DAG Int :=
  { start_node := 0, end_node := 3, ready_queue := [], eval_map := map_clear,
    heap := diamond_heap }

/-- A `node_fn` that does nothing. -/
def skip_fn : Nat → Heap Int → Heap Int := fun _ h => h

/-- Scaling nodes: node `u` multiplies every element by the factor `k u`, forward and
adjoint alike; the length of an edge is the product of its dimensions. -/
def scale_ops {α : Type} [Mul α] (k : Nat → α) : FAOOps α :=
  { forward_eval := fun u inp _ => inp.map (fun x => k u * x),
    adjoint_eval := fun u out _ => out.map (fun x => k u * x),
    get_elem_length := fun _ dims => dims.prod }

/-- Three chained nodes 0 -> 1 -> 2 with buffers of one element. -/
def chain3_heap : Heap Int := fun p =>
  match p with
  | 0 => unit_node [] [1]
  | 1 => unit_node [0] [2]
  | 2 => unit_node [1] []
  | _ => unit_node [] []

/-- The chain 0 -> 1 -> 2 with entry 0 and exit 2. -/
def chain3_dag : FAO_DAG Int :=
  { start_node := 0, end_node := 2, ready_queue := [], eval_map := map_clear,
    heap := chain3_heap }

/-- Two nodes that list each other as predecessor and as successor: the cycle
0 -> 1 -> 0. -/
def two_cycle_heap : Heap Int := fun p =>
  match p with
  | 0 => unit_node [1] [1]
  | 1 => unit_node [0] [0]
  | _ => unit_node [] []

/-- The cycle 0 -> 1 -> 0 with entry 0 and exit 1. -/
def two_cycle_dag : FAO_DAG Int :=
  { start_node := 0, end_node := 1, ready_queue := [], eval_map := map_clear,
    heap := two_cycle_heap }

/-- Node 0 with a self-loop and the cycle 0 -> 1 -> 0: node 0 lists the predecessors
0 and 1 and the successors 0 and 1, node 1 the predecessor 0 and the successor 0. -/
def loop_heap : Heap Int := fun p =>
  match p with
  | 0 => unit_node [0, 1] [0, 1]
  | 1 => unit_node [0] [0]
  | _ => unit_node [] []

/-- The graph with the self-loop, entry 0 and exit 1. -/
def loop_dag : FAO_DAG Int :=
  { start_node := 0, end_node := 1, ready_queue := [], eval_map := map_clear,
    heap := loop_heap }

/-- The lasso 0 -> 1 -> 2 -> 1: a cycle between the nodes 1 and 2, entered from the
node 0; the predecessor and successor lists are consistent. -/
def lasso_heap : Heap Int := fun p =>
  match p with
  | 0 => unit_node [] [1]
  | 1 => unit_node [0, 2] [2]
  | 2 => unit_node [1] [1]
  | _ => unit_node [] []

/-- The lasso with entry 0 and exit 2. -/
def lasso_dag : FAO_DAG Int :=
  { start_node := 0, end_node := 2, ready_queue := [], eval_map := map_clear,
    heap := lasso_heap }

/-- Allocation functions for the examples: `alloc_data` zeroes both buffers of the
node, `init_offset_maps` finds the offset maps filled in, `free_data` empties both
buffers. -/
def zero_alloc : FAOAlloc Int :=
  { alloc_data := fun u h =>
      heap_set h u { h u with input_data := (h u).input_data.map (fun _ => 0),
                              output_data := (h u).output_data.map (fun _ => 0) },
    init_offset_maps := fun _ h => h,
    free_data := fun u h => heap_set h u { h u with input_data := [], output_data := [] } }

/-! ## Lemmas -/

/-! ### The scheduler: loop invariant -/

theorem map_get_incr (m : PtrMap) (k w : Nat) :
    map_get (map_incr m k) w = map_get m w + (if w = k then 1 else 0) := by
  by_cases h : w = k
  · subst h; simp [map_get, map_incr]
  · simp [map_get, map_incr, h]

theorem traverse_child_eq {α : Type} (forward : Bool) (s : FAO_DAG α) (v : Nat) :
    traverse_child forward s v =
      ({ s with
          eval_map := map_incr s.eval_map v
          ready_queue := s.ready_queue ++
            (if map_get s.eval_map v + 1 = (parents forward (s.heap v)).length
              then [v] else []) },
        decide (map_get s.eval_map v + 1 = (parents forward (s.heap v)).length)) := by
  cases forward
  · unfold traverse_child parents
    simp only [map_get_incr, if_true, Bool.false_eq_true, if_false]
    by_cases hq : map_get s.eval_map v + 1 = (s.heap v).output_nodes.length <;> simp [hq]
  · unfold traverse_child parents
    simp only [map_get_incr, if_true]
    by_cases hq : map_get s.eval_map v + 1 = (s.heap v).input_nodes.length <;> simp [hq]

theorem traverse_children_spec {α : Type} (forward : Bool) (l : List Nat) :
    ∀ s : FAO_DAG α,
      (traverse_children forward l s).1.heap = s.heap ∧
      (traverse_children forward l s).1.start_node = s.start_node ∧
      (traverse_children forward l s).1.end_node = s.end_node ∧
      (traverse_children forward l s).1.ready_queue
        = s.ready_queue ++ (traverse_children forward l s).2 ∧
      (∀ w, map_get (traverse_children forward l s).1.eval_map w
        = map_get s.eval_map w + l.count w) ∧
      (traverse_children forward l s).2.Nodup ∧
      (∀ w, w ∈ (traverse_children forward l s).2 ↔
        map_get s.eval_map w < (parents forward (s.heap w)).length ∧
        (parents forward (s.heap w)).length ≤ map_get s.eval_map w + l.count w) := by
  induction l with
  | nil =>
    intro s
    simp [traverse_children]
  | cons v l ih =>
    intro s
    simp only [traverse_children]
    rw [traverse_child_eq]
    obtain ⟨h1, h2, h3, h4, h5, h6, h7⟩ := ih
      { s with
          eval_map := map_incr s.eval_map v
          ready_queue := s.ready_queue ++
            (if map_get s.eval_map v + 1 = (parents forward (s.heap v)).length
              then [v] else []) }
    generalize traverse_children forward l
      { s with
          eval_map := map_incr s.eval_map v
          ready_queue := s.ready_queue ++
            (if map_get s.eval_map v + 1 = (parents forward (s.heap v)).length
              then [v] else []) } = r2 at h1 h2 h3 h4 h5 h6 h7 ⊢
    simp only [map_get_incr] at h1 h2 h3 h4 h5 h7
    have hcount : ∀ w, List.count w (v :: l) = List.count w l + (if w = v then 1 else 0) := by
      intro w
      rw [List.count_cons]
      by_cases hw : w = v
      · subst hw; simp
      · have : ¬ (v == w) = true := by simpa using Ne.symm hw
        simp [hw, this]
    by_cases hp : map_get s.eval_map v + 1 = (parents forward (s.heap v)).length
    · simp only [hp, decide_True, if_true] at h4 ⊢
      refine ⟨h1, h2, h3, ?_, ?_, ?_, ?_⟩
      · rw [h4]; simp
      · intro w; rw [h5, hcount]; omega
      · refine List.nodup_cons.mpr ⟨?_, h6⟩
        rw [h7]; simp; omega
      · intro w
        rw [List.mem_cons, h7, hcount]
        by_cases hw : w = v
        · subst hw; simp; omega
        · simp [hw]
    · simp only [hp, decide_False, if_false, Bool.false_eq_true] at h4 ⊢
      refine ⟨h1, h2, h3, ?_, ?_, h6, ?_⟩
      · rw [h4]; simp
      · intro w; rw [h5, hcount]; omega
      · intro w
        rw [h7, hcount]
        by_cases hw : w = v
        · subst hw; simp; omega
        · simp [hw]

theorem countP_mem_snoc (l V : List Nat) (x : Nat) (hx : x ∉ V) :
    l.countP (fun p => decide (p ∈ V ++ [x])) = l.countP (fun p => decide (p ∈ V)) + l.count x := by
  induction l with
  | nil => simp
  | cons a l ih =>
    rw [List.countP_cons, List.countP_cons, List.count_cons, ih]
    by_cases ha : a = x
    · subst ha; simp [hx]; omega
    · have h2 : ¬ (a == x) = true := by simpa using ha
      by_cases hV : a ∈ V
      · simp [hV, ha]; omega
      · simp [hV, ha]

theorem countP_mem_eq_length (l V : List Nat) :
    l.countP (fun p => decide (p ∈ V)) = l.length ↔ ∀ p ∈ l, p ∈ V := by
  rw [List.countP_eq_length]; simp

theorem Inv.init {ch pa : Nat → List Nat} {nodes : List Nat} {start : Nat}
    (hs : Sched ch pa nodes start) (c : Nat → Nat) (hc : ∀ v, c v = 0) :
    Inv pa nodes start [] [] [start] c := by
  refine ⟨by simp, by simpa using hs.start_mem, ?_, ?_, by simp⟩
  · intro v _; simp [hc]
  · intro v hv
    simp only [List.nil_append, List.mem_singleton, List.not_mem_nil]
    constructor
    · rintro rfl p hp; rw [hs.start_pa] at hp; simp at hp
    · intro h
      by_contra hne
      have := hs.other_pa v hv hne
      cases hpa : pa v with
      | nil => exact this hpa
      | cons p l => exact h p (by rw [hpa]; simp)

theorem Inv.step {ch pa : Nat → List Nat} {nodes : List Nat} {start : Nat}
    (hs : Sched ch pa nodes start) {V Pd rest P : List Nat} {x : Nat} {c c1 : Nat → Nat}
    (hI : Inv pa nodes start V Pd (x :: rest) c)
    (hP : P.Nodup)
    (hmem : ∀ w, w ∈ P ↔ c w + (if w = x then 1 else 0) < (pa w).length ∧
      (pa w).length ≤ c w + (if w = x then 1 else 0) + (ch x).count w)
    (hc1 : ∀ w, c1 w = c w + (if w = x then 1 else 0) + (ch x).count w) :
    Inv pa nodes start (V ++ [x]) (Pd ++ P) (rest ++ P) c1 ∧
      (∀ p ∈ pa x, p ∈ V) ∧ (∀ w ∈ P, w ∈ ch x ∧ ∀ p ∈ pa w, p ∈ V ++ [x]) ∧
      x ∉ V ∧ (∀ t ∈ ch x, t ∉ V ++ [x]) := by
  have hxn : x ∈ nodes := hI.mem x (by simp)
  have hxV : x ∉ V := by
    have := hI.nodup
    rw [List.nodup_append] at this
    intro h
    exact this.2.2 h (List.mem_cons_self _ _)
  have hxpa : ∀ p ∈ pa x, p ∈ V := (hI.ready x hxn).mp (by simp)
  -- characterisation of the nodes pushed during the visit
  have hchar : ∀ w, w ∈ P ↔ w ∈ nodes ∧ w ∉ V ++ x :: rest ∧ ∀ p ∈ pa w, p ∈ V ++ [x] := by
    intro w
    rw [hmem]
    by_cases hwn : w ∈ nodes
    · have hcw := hI.count w hwn
      have hcons := hs.consistent x hxn w hwn
      have hsnoc := countP_mem_snoc (pa w) V x hxV
      have hle := List.countP_le_length (fun p => decide (p ∈ V)) (l := pa w)
      have hle1 := List.countP_le_length (fun p => decide (p ∈ V ++ [x])) (l := pa w)
      have hall := countP_mem_eq_length (pa w) V
      have hall1 := countP_mem_eq_length (pa w) (V ++ [x])
      have hready := hI.ready w hwn
      by_cases hwx : w = x
      · subst hwx
        have h1 : (pa w).countP (fun p => decide (p ∈ V)) = (pa w).length := hall.mpr hxpa
        simp [hwn]
        intro h; omega
      · by_cases hwV : w ∈ V
        · have h1 : (pa w).countP (fun p => decide (p ∈ V)) = (pa w).length :=
            hall.mpr (hready.mp (by simp [hwV]))
          simp only [hwx, if_false, hwV, if_true] at hcw ⊢
          simp [hwn, hwV]
          intro h; omega
        · simp only [hwx, if_false, hwV] at hcw ⊢
          rw [← hall1, hready, ← hall]
          constructor
          · rintro ⟨h1, h2⟩
            exact ⟨hwn, by omega, by omega⟩
          · rintro ⟨_, h1, h2⟩
            omega
    · have h0 : (ch x).count w = 0 := by
        rw [List.count_eq_zero]
        intro h
        exact hwn (hs.closed x hxn w h)
      simp [hwn, h0]
  have hchild : ∀ w ∈ P, w ∈ ch x := by
    intro w hw
    have := (hmem w).mp hw
    rw [← List.count_pos_iff]
    omega
  have hfresh : ∀ t ∈ ch x, t ∉ V ++ [x] := by
    intro t ht hmemt
    have htn : t ∈ nodes := hs.closed x hxn t ht
    have hxt : x ∈ pa t := by
      rw [← List.count_pos_iff, ← hs.consistent x hxn t htn, List.count_pos_iff]
      exact ht
    have : t ∈ V ++ x :: rest := by
      simp only [List.mem_append, List.mem_cons, List.mem_singleton, List.not_mem_nil] at hmemt ⊢
      tauto
    exact hxV ((hI.ready t htn).mp this x hxt)
  refine ⟨⟨?_, ?_, ?_, ?_, ?_⟩, hxpa, fun w hw => ⟨hchild w hw, ((hchar w).mp hw).2.2⟩,
    hxV, hfresh⟩
  · -- nodup
    have h0 := hI.nodup
    have : (V ++ [x] ++ (rest ++ P)) = (V ++ x :: rest) ++ P := by simp
    rw [this, List.nodup_append]
    refine ⟨h0, hP, ?_⟩
    intro a ha haP
    exact ((hchar a).mp haP).2.1 ha
  · intro a ha
    have : a ∈ V ++ x :: rest ∨ a ∈ P := by
      simp only [List.mem_append, List.mem_cons, List.mem_singleton, List.not_mem_nil] at ha ⊢
      tauto
    rcases this with h | h
    · exact hI.mem a h
    · exact ((hchar a).mp h).1
  · intro w hwn
    rw [hc1, hI.count w hwn, countP_mem_snoc (pa w) V x hxV, hs.consistent x hxn w hwn]
    by_cases hwx : w = x
    · subst hwx; simp [hxV]; omega
    · by_cases hwV : w ∈ V
      · simp [hwx, hwV]; omega
      · simp [hwx, hwV]
  · intro w hwn
    have hready := hI.ready w hwn
    have hc := hchar w
    constructor
    · intro h
      have : w ∈ V ++ x :: rest ∨ w ∈ P := by
        simp only [List.mem_append, List.mem_cons, List.mem_singleton, List.not_mem_nil] at h ⊢
        tauto
      rcases this with h | h
      · intro p hp
        exact List.mem_append_left _ (hready.mp h p hp)
      · exact (hc.mp h).2.2
    · intro h
      by_cases hold : w ∈ V ++ x :: rest
      · simp only [List.mem_append, List.mem_cons, List.mem_singleton, List.not_mem_nil] at hold ⊢
        tauto
      · have : w ∈ P := hc.mpr ⟨hwn, hold, h⟩
        simp [this]
  · have := hI.fifo
    calc start :: (Pd ++ P) = (start :: Pd) ++ P := by simp
      _ = (V ++ x :: rest) ++ P := by rw [this]
      _ = V ++ [x] ++ (rest ++ P) := by simp

theorem traverse_visit_spec {α : Type} (node_fn : Nat → Heap α → Heap α) (forward : Bool)
    (s : FAO_DAG α) (x : Nat) (rest : List Nat) (hfn : PreservesTopology node_fn) :
    (traverse_visit node_fn forward s x rest).1.heap = node_fn x s.heap ∧
    (traverse_visit node_fn forward s x rest).1.start_node = s.start_node ∧
    (traverse_visit node_fn forward s x rest).1.end_node = s.end_node ∧
    (traverse_visit node_fn forward s x rest).1.ready_queue
      = rest ++ (traverse_visit node_fn forward s x rest).2 ∧
    (∀ w, map_get (traverse_visit node_fn forward s x rest).1.eval_map w
      = map_get s.eval_map w + (if w = x then 1 else 0)
        + (children forward (s.heap x)).count w) ∧
    (traverse_visit node_fn forward s x rest).2.Nodup ∧
    (∀ w, w ∈ (traverse_visit node_fn forward s x rest).2 ↔
      map_get s.eval_map w + (if w = x then 1 else 0) < (parents forward (s.heap w)).length ∧
      (parents forward (s.heap w)).length
        ≤ map_get s.eval_map w + (if w = x then 1 else 0)
          + (children forward (s.heap x)).count w) := by
  have hch : ∀ v, children forward (node_fn x s.heap v) = children forward (s.heap v) := by
    intro v; unfold children; rw [(hfn x s.heap v).1, (hfn x s.heap v).2]
  have hpa : ∀ v, parents forward (node_fn x s.heap v) = parents forward (s.heap v) := by
    intro v; unfold parents; rw [(hfn x s.heap v).1, (hfn x s.heap v).2]
  unfold traverse_visit
  dsimp only
  obtain ⟨h1, h2, h3, h4, h5, h6, h7⟩ := traverse_children_spec forward
    (if forward = true then (node_fn x s.heap x).output_nodes
      else (node_fn x s.heap x).input_nodes)
    ({ start_node := s.start_node, end_node := s.end_node, ready_queue := rest,
       eval_map := map_incr s.eval_map x, heap := node_fn x s.heap } : FAO_DAG α)
  have hl : (if forward = true then (node_fn x s.heap x).output_nodes
      else (node_fn x s.heap x).input_nodes) = children forward (s.heap x) := by
    rw [← hch x]; rfl
  rw [hl] at h1 h2 h3 h4 h5 h6 h7 ⊢
  simp only [map_get_incr, hpa] at h1 h2 h3 h4 h5 h6 h7
  exact ⟨h1, h2, h3, h4, h5, h6, h7⟩

theorem Inv.length_le {pa : Nat → List Nat} {nodes : List Nat} {start : Nat}
    {V Pd q : List Nat} {c : Nat → Nat} (hI : Inv pa nodes start V Pd q c) :
    (V ++ q).length ≤ nodes.length :=
  (List.subperm_of_subset hI.nodup hI.mem).length_le

theorem traverse_loop_spec {α : Type} (node_fn : Nat → Heap α → Heap α) (forward : Bool)
    {ch pa : Nat → List Nat} {nodes : List Nat} {start : Nat}
    (hs : Sched ch pa nodes start) (hfn : PreservesTopology node_fn) :
    ∀ (fuel : Nat) (V Pd : List Nat) (s : FAO_DAG α),
      (∀ v, children forward (s.heap v) = ch v ∧ parents forward (s.heap v) = pa v) →
      Inv pa nodes start V Pd s.ready_queue (map_get s.eval_map) →
      nodes.length < fuel + V.length →
      ∃ s' log, traverse_loop node_fn forward fuel s = some (s', log) ∧
        Inv pa nodes start (V ++ visited log) (Pd ++ pushed log) [] (map_get s'.eval_map) ∧
        s'.ready_queue = [] ∧ s'.start_node = s.start_node ∧ s'.end_node = s.end_node ∧
        s'.heap = (visited log).foldl (fun h u => node_fn u h) s.heap ∧
        LogOK ch pa V log := by
  intro fuel
  induction fuel with
  | zero =>
    intro V Pd s _ hI hlt
    have := hI.length_le
    simp at this hlt
    omega
  | succ fuel ih =>
    intro V Pd s htopo hI hlt
    cases hq : s.ready_queue with
    | nil =>
      refine ⟨s, [], ?_, ?_, hq, rfl, rfl, rfl, trivial⟩
      · simp [traverse_loop, hq]
      · rw [hq] at hI
        simpa [visited, pushed] using hI
    | cons x rest =>
      rw [hq] at hI
      obtain ⟨h1, h2, h3, h4, h5, h6, h7⟩ := traverse_visit_spec node_fn forward s x rest hfn
      simp only [(htopo _).1, (htopo _).2] at h5 h7
      obtain ⟨hI1, hxpa, hPpa, hxV, hfresh⟩ := Inv.step hs hI h6 h7 h5
      have htopo1 : ∀ v, children forward ((traverse_visit node_fn forward s x rest).1.heap v)
          = ch v ∧ parents forward ((traverse_visit node_fn forward s x rest).1.heap v) = pa v := by
        intro v
        rw [h1]
        unfold children parents
        rw [(hfn x s.heap v).1, (hfn x s.heap v).2]
        exact htopo v
      rw [← h4] at hI1
      obtain ⟨s', log, e1, e2, e3, e4, e5, e6, e7⟩ :=
        ih (V ++ [x]) (Pd ++ (traverse_visit node_fn forward s x rest).2)
          (traverse_visit node_fn forward s x rest).1 htopo1 hI1 (by simp; omega)
      refine ⟨s', (x, (traverse_visit node_fn forward s x rest).2) :: log, ?_, ?_, e3,
        by rw [e4, h2], by rw [e5, h3], ?_, ?_⟩
      · simp [traverse_loop, hq, e1]
      · simpa [visited, pushed] using e2
      · rw [e6, h1]; simp [visited]
      · exact ⟨hxpa, hPpa, hxV, hfresh, e7⟩

/-! ### Graphs -/

theorem exists_minimal_of_acyclic (E : Nat → Nat → Prop) (nodes : List Nat)
    (hac : ∀ u ∈ nodes, ¬ Relation.TransGen E u u) (V : List Nat)
    (h : ∃ v ∈ nodes, v ∉ V) :
    ∃ v ∈ nodes, v ∉ V ∧ ∀ p ∈ nodes, E p v → p ∈ V := by
  let r : {x // x ∈ nodes} → {x // x ∈ nodes} → Prop :=
    fun a b => Relation.TransGen E a.1 b.1
  haveI : IsTrans {x // x ∈ nodes} r := ⟨fun _ _ _ h1 h2 => Relation.TransGen.trans h1 h2⟩
  haveI : IsIrrefl {x // x ∈ nodes} r := ⟨fun a => hac a.1 a.2⟩
  have wf : WellFounded r := Finite.wellFounded_of_trans_of_irrefl r
  obtain ⟨v, hv, hvV⟩ := h
  obtain ⟨m, hm, hmin⟩ := wf.has_min {a : {x // x ∈ nodes} | a.1 ∉ V} ⟨⟨v, hv⟩, hvV⟩
  refine ⟨m.1, m.2, hm, fun p hp hE => ?_⟩
  by_contra hpV
  exact hmin ⟨p, hp⟩ hpV (Relation.TransGen.single hE)

theorem WellFormed.edge_iff {α : Type} {G : Heap α} {nodes : List Nat}
    (hwf : WellFormed G nodes) {u v : Nat} (hu : u ∈ nodes) (hv : v ∈ nodes) :
    v ∈ (G u).output_nodes ↔ u ∈ (G v).input_nodes := by
  rw [← List.count_pos_iff, ← List.count_pos_iff (a := u), hwf.consistent u hu v hv]

theorem WellFormed.reach_mem {α : Type} {G : Heap α} {nodes : List Nat}
    (hwf : WellFormed G nodes) {a b : Nat} (ha : a ∈ nodes) (h : Reach G a b) :
    b ∈ nodes := by
  induction h with
  | refl => exact ha
  | tail _ hbc ih => exact hwf.closed_out _ ih _ hbc

theorem sched_forward {α : Type} {G : Heap α} {nodes : List Nat} {start : Nat}
    (hwf : WellFormed G nodes) (hstart : start ∈ nodes)
    (hreach : ∀ v ∈ nodes, Reach G start v) :
    Sched (fun u => (G u).output_nodes) (fun u => (G u).input_nodes) nodes start := by
  refine ⟨hwf.nodup, hstart, hwf.closed_out, hwf.closed_in, hwf.consistent, ?_, ?_, ?_⟩
  · cases hpa : (G start).input_nodes with
    | nil => rfl
    | cons p l =>
      exfalso
      have hp : p ∈ (G start).input_nodes := by rw [hpa]; simp
      have hpn := hwf.closed_in start hstart p hp
      have hedge : succ_edge G p start := (hwf.edge_iff hpn hstart).mpr hp
      exact hwf.acyclic start hstart (Relation.TransGen.tail' (hreach p hpn) hedge)
  · intro v hv hne
    have hr := hreach v hv
    cases hr with
    | refl => exact absurd rfl hne
    | tail hab hbc =>
      rename_i b
      have hb := hwf.reach_mem hstart hab
      have : b ∈ (G v).input_nodes := (hwf.edge_iff hb hv).mp hbc
      intro h
      rw [h] at this
      simp at this
  · intro V h
    obtain ⟨v, hv, hvV, hmin⟩ := exists_minimal_of_acyclic (succ_edge G) nodes hwf.acyclic V h
    refine ⟨v, hv, hvV, fun p hp => ?_⟩
    have hpn := hwf.closed_in v hv p hp
    exact hmin p hpn ((hwf.edge_iff hpn hv).mpr hp)

theorem sched_reverse {α : Type} {G : Heap α} {nodes : List Nat} {e : Nat}
    (hwf : WellFormed G nodes) (hend : e ∈ nodes)
    (hreach : ∀ v ∈ nodes, Reach G v e) :
    Sched (fun u => (G u).input_nodes) (fun u => (G u).output_nodes) nodes e := by
  refine ⟨hwf.nodup, hend, hwf.closed_in, hwf.closed_out,
    fun u hu v hv => (hwf.consistent v hv u hu).symm, ?_, ?_, ?_⟩
  · cases hpa : (G e).output_nodes with
    | nil => rfl
    | cons p l =>
      exfalso
      have hp : p ∈ (G e).output_nodes := by rw [hpa]; simp
      have hpn := hwf.closed_out e hend p hp
      exact hwf.acyclic e hend (Relation.TransGen.head' hp (hreach p hpn))
  · intro v hv hne
    have hr := hreach v hv
    cases hr using Relation.ReflTransGen.head_induction_on with
    | refl => exact absurd rfl hne
    | head hab _ _ =>
      intro h
      unfold succ_edge at hab
      rw [h] at hab
      simp at hab
  · intro V h
    have hac : ∀ u ∈ nodes, ¬ Relation.TransGen (Function.swap (succ_edge G)) u u := by
      intro u hu hc
      exact hwf.acyclic u hu (Relation.transGen_swap.mp hc)
    obtain ⟨v, hv, hvV, hmin⟩ :=
      exists_minimal_of_acyclic (Function.swap (succ_edge G)) nodes hac V h
    refine ⟨v, hv, hvV, fun p hp => ?_⟩
    exact hmin p (hwf.closed_out v hv p hp) hp

theorem sched_of_wellFormed {α : Type} (forward : Bool) (s : FAO_DAG α) (nodes : List Nat)
    (hwf : WellFormed s.heap nodes) (hr : Reachable forward s nodes) :
    Sched (fun u => children forward (s.heap u)) (fun u => parents forward (s.heap u))
      nodes (start_of forward s) := by
  cases forward
  · exact sched_reverse hwf hr.1 hr.2
  · exact sched_forward hwf hr.1 hr.2

/-! ### The scheduler on valid graphs -/

theorem LogOK.split {ch pa : Nat → List Nat} :
    ∀ (pre : List (Nat × List Nat)) (V : List Nat) (e : Nat × List Nat)
      (post : List (Nat × List Nat)), LogOK ch pa V (pre ++ e :: post) →
      (∀ p ∈ pa e.1, p ∈ V ++ visited pre) ∧
      (∀ w ∈ e.2, w ∈ ch e.1 ∧ ∀ p ∈ pa w, p ∈ V ++ visited pre ∨ p = e.1) := by
  intro pre
  induction pre with
  | nil =>
    intro V e post h
    simp only [List.nil_append, LogOK, visited, List.map_nil, List.append_nil] at h ⊢
    refine ⟨h.1, fun w hw => ⟨(h.2.1 w hw).1, fun p hp => ?_⟩⟩
    simpa using (h.2.1 w hw).2 p hp
  | cons a pre ih =>
    intro V e post h
    simp only [List.cons_append, LogOK] at h
    have := ih (V ++ [a.1]) e post h.2.2.2.2
    simpa [visited] using this

theorem TwoTerminalDAG.reachable {α : Type} {s : FAO_DAG α} {nodes : List Nat}
    (h : TwoTerminalDAG s nodes) (forward : Bool) : Reachable forward s nodes := by
  cases forward
  · exact h.2.2
  · exact h.2.1

/-- The scheduler on a graph that satisfies the hypotheses of the scheduling
argument: it returns, having visited every node exactly once in an order that
respects the dependencies; the heap is the result of applying `node_fn` along the
visit order. -/
theorem traverse_graph_spec {α : Type} (node_fn : Nat → Heap α → Heap α) (forward : Bool)
    (s : FAO_DAG α) (nodes : List Nat)
    (hs : Sched (fun u => children forward (s.heap u)) (fun u => parents forward (s.heap u))
      nodes (start_of forward s))
    (hfn : PreservesTopology node_fn)
    (hem : s.eval_map = map_clear) (hq : s.ready_queue = [])
    (fuel : Nat) (hfuel : nodes.length < fuel) :
    ∃ s' log, traverse_graph node_fn forward fuel s = some (s', log) ∧
      (visited log).Nodup ∧ (∀ v, v ∈ visited log ↔ v ∈ nodes) ∧
      start_of forward s :: pushed log = visited log ∧
      LogOK (fun u => children forward (s.heap u)) (fun u => parents forward (s.heap u)) [] log ∧
      s'.heap = (visited log).foldl (fun h u => node_fn u h) s.heap ∧
      s'.ready_queue = [] ∧ s'.eval_map = map_clear ∧
      s'.start_node = s.start_node ∧ s'.end_node = s.end_node := by
  have hI0 : Inv (fun u => parents forward (s.heap u)) nodes (start_of forward s) [] []
      [start_of forward s] (map_get s.eval_map) :=
    Inv.init hs _ (fun v => by rw [hem]; rfl)
  obtain ⟨s', log, e1, e2, e3, e4, e5, e6, e7⟩ :=
    traverse_loop_spec node_fn forward hs hfn fuel [] []
      ({ s with ready_queue := s.ready_queue ++ [start_of forward s] })
      (fun v => ⟨rfl, rfl⟩) (by simpa [hq] using hI0) (by simpa using hfuel)
  simp only [List.nil_append] at e2
  refine ⟨{ s' with eval_map := map_clear }, log, ?_, ?_, ?_, ?_, e7, e6, e3, rfl, e4, e5⟩
  · unfold traverse_graph
    unfold start_of at e1
    simp only [e1]
  · simpa using e2.nodup
  · intro v
    constructor
    · intro hv
      exact e2.mem v (by simpa using hv)
    · intro hv
      by_contra hnot
      obtain ⟨m, hm, hmV, hmin⟩ := hs.minimal (visited log) ⟨v, hv, hnot⟩
      exact hmV (by simpa using (e2.ready m hm).mpr hmin)
  · simpa using e2.fifo

theorem visited_append (a b : List (Nat × List Nat)) :
    visited (a ++ b) = visited a ++ visited b := by
  simp [visited]

theorem wellFormed_of_rank {α : Type} {G : Heap α} {nodes : List Nat} (rank : Nat → Nat)
    (h1 : nodes.Nodup)
    (h2 : ∀ u ∈ nodes, ∀ v ∈ (G u).output_nodes, v ∈ nodes)
    (h3 : ∀ v ∈ nodes, ∀ u ∈ (G v).input_nodes, u ∈ nodes)
    (h4 : ∀ u ∈ nodes, ∀ v ∈ nodes, (G u).output_nodes.count v = (G v).input_nodes.count u)
    (h5 : ∀ u ∈ nodes, ∀ v ∈ (G u).output_nodes, rank u < rank v) :
    WellFormed G nodes := by
  refine ⟨h1, h2, h3, h4, ?_⟩
  have key : ∀ a b, Relation.TransGen (succ_edge G) a b → a ∈ nodes →
      b ∈ nodes ∧ rank a < rank b := by
    intro a b h
    induction h with
    | single hab => exact fun ha => ⟨h2 a ha _ hab, h5 a ha _ hab⟩
    | tail _ hbc ih =>
      intro ha
      obtain ⟨hb, hlt⟩ := ih ha
      exact ⟨h2 _ hb _ hbc, lt_trans hlt (h5 _ hb _ hbc)⟩
  intro u hu hc
  exact lt_irrefl _ (key u u hc hu).2

theorem skip_fn_preservesTopology : PreservesTopology skip_fn :=
  fun _ _ _ => ⟨rfl, rfl⟩

theorem fanout_wellFormed : WellFormed fanout_dag.heap [0, 1, 2] :=
  wellFormed_of_rank (fun n => n) (by decide) (by decide) (by decide) (by decide) (by decide)

theorem fanout_reachable : Reachable true fanout_dag [0, 1, 2] := by
  refine ⟨by decide, ?_⟩
  intro v hv
  simp only [List.mem_cons, List.mem_singleton, List.not_mem_nil, or_false] at hv
  rcases hv with rfl | rfl | rfl
  · exact Relation.ReflTransGen.refl
  · exact Relation.ReflTransGen.single (by decide : (1 : Nat) ∈ [1, 2])
  · exact Relation.ReflTransGen.single (by decide : (2 : Nat) ∈ [1, 2])

/-- The scheduler run on the fan-out graph: the entry is visited first and pushes both
leaves, which are then visited in that order. -/
theorem fanout_log :
    (traverse_graph skip_fn true 4 fanout_dag).map Prod.snd
      = some [(0, [1, 2]), (1, []), (2, [])] := by
  decide

/-- The scheduler run forward on the diamond: D is pushed during the visit of C, the
last of its two predecessors. -/
theorem diamond_log :
    (traverse_graph skip_fn true 5 diamond_dag).map Prod.snd
      = some [(0, [1, 2]), (1, []), (2, [3]), (3, [])] := by
  decide

/-- The scheduler run in reverse on the diamond: A is pushed during the visit of C, the
last of its two successors. -/
theorem diamond_log_reverse :
    (traverse_graph skip_fn false 5 diamond_dag).map Prod.snd
      = some [(3, [1, 2]), (1, []), (2, [0]), (0, [])] := by
  decide

theorem diamond_twoTerminal : TwoTerminalDAG diamond_dag [0, 1, 2, 3] := by
  refine ⟨wellFormed_of_rank (fun n => n) (by decide) (by decide) (by decide) (by decide)
    (by decide), ⟨by decide, ?_⟩, ⟨by decide, ?_⟩⟩
  · intro v hv
    simp only [List.mem_cons, List.mem_singleton, List.not_mem_nil, or_false] at hv
    rcases hv with rfl | rfl | rfl | rfl
    · exact Relation.ReflTransGen.refl
    · exact Relation.ReflTransGen.single (by decide : (1 : Nat) ∈ [1, 2])
    · exact Relation.ReflTransGen.single (by decide : (2 : Nat) ∈ [1, 2])
    · exact Relation.ReflTransGen.tail
        (Relation.ReflTransGen.single (by decide : (1 : Nat) ∈ [1, 2]))
        (by decide : (3 : Nat) ∈ [3])
  · intro v hv
    simp only [List.mem_cons, List.mem_singleton, List.not_mem_nil, or_false] at hv
    rcases hv with rfl | rfl | rfl | rfl
    · exact Relation.ReflTransGen.tail
        (Relation.ReflTransGen.single (by decide : (1 : Nat) ∈ [1, 2]))
        (by decide : (3 : Nat) ∈ [3])
    · exact Relation.ReflTransGen.single (by decide : (3 : Nat) ∈ [3])
    · exact Relation.ReflTransGen.single (by decide : (3 : Nat) ∈ [3])
    · exact Relation.ReflTransGen.refl

/-! ### Slice copies -/

theorem vector_subvec_memcpy_length {α : Type} (dst : List α) (d : Nat) (src : List α)
    (s len : Nat) : (vector_subvec_memcpy dst d src s len).length = dst.length := by
  simp [vector_subvec_memcpy]

theorem vector_subvec_memcpy_getElem? {α : Type} (dst : List α) (d : Nat) (src : List α)
    (s len j : Nat) :
    (vector_subvec_memcpy dst d src s len)[j]? =
      (dst[j]?).map (fun x =>
        if d ≤ j ∧ j < d + len then (src[s + (j - d)]?).getD x else x) := by
  simp [vector_subvec_memcpy]

theorem subvec_getElem? {α : Type} (l : List α) (off len j : Nat) :
    (subvec l off len)[j]? = if j < len then l[off + j]? else none := by
  unfold subvec
  rw [List.getElem?_take, List.getElem?_drop]

theorem subvec_memcpy_self {α : Type} (dst : List α) (d : Nat) (src : List α) (s len : Nat)
    (hd : d + len ≤ dst.length) (hs : s + len ≤ src.length) :
    subvec (vector_subvec_memcpy dst d src s len) d len = subvec src s len := by
  apply List.ext_getElem?
  intro j
  rw [subvec_getElem?, subvec_getElem?]
  by_cases hj : j < len
  · simp only [hj, if_true]
    rw [vector_subvec_memcpy_getElem?]
    have h1 : d + j < dst.length := by omega
    have h2 : s + j < src.length := by omega
    have h3 : d + j - d = j := by omega
    rw [List.getElem?_eq_getElem h1]
    simp [hj, h3, List.getElem?_eq_getElem h2]
  · simp [hj]

theorem subvec_memcpy_disjoint {α : Type} (dst : List α) (d : Nat) (src : List α)
    (s len d' len' : Nat) (h : d' + len' ≤ d ∨ d + len ≤ d' ∨ len' = 0 ∨ len = 0) :
    subvec (vector_subvec_memcpy dst d src s len) d' len' = subvec dst d' len' := by
  apply List.ext_getElem?
  intro j
  rw [subvec_getElem?, subvec_getElem?]
  by_cases hj : j < len'
  · simp only [hj, if_true]
    rw [vector_subvec_memcpy_getElem?]
    have hno : ¬ (d ≤ d' + j ∧ d' + j < d + len) := by omega
    simp only [hno, if_false]
    cases dst[d' + j]? <;> rfl
  · simp [hj]

/-! ### Forward evaluation -/

theorem map_get_touch (m : PtrMap) (k j : Nat) : map_get (map_touch m k) j = map_get m j := by
  by_cases h : j = k
  · subst h; simp [map_get, map_touch]
  · simp [map_get, map_touch, h]

theorem SameStatic.refl {α : Type} (h : Heap α) : SameStatic h h :=
  fun _ => ⟨rfl, rfl, rfl, rfl, fun _ => rfl, fun _ => rfl⟩

theorem SameStatic.trans {α : Type} {h1 h2 h3 : Heap α} (a : SameStatic h1 h2)
    (b : SameStatic h2 h3) : SameStatic h1 h3 := by
  intro v
  obtain ⟨a1, a2, a3, a4, a5, a6⟩ := a v
  obtain ⟨b1, b2, b3, b4, b5, b6⟩ := b v
  exact ⟨b1.trans a1, b2.trans a2, b3.trans a3, b4.trans a4,
    fun k => (b5 k).trans (a5 k), fun k => (b6 k).trans (a6 k)⟩

theorem SameStatic.edge_target {α : Type} {h h' : Heap α} (a : SameStatic h h') (u i : Nat) :
    FAODAG.edge_target h' u i = FAODAG.edge_target h u i := by
  unfold FAODAG.edge_target; rw [(a u).2.1]

theorem SameStatic.edge_len {α : Type} {h h' : Heap α} (a : SameStatic h h')
    (ops : FAOOps α) (u i : Nat) :
    FAODAG.edge_len ops h' u i = FAODAG.edge_len ops h u i := by
  unfold FAODAG.edge_len; rw [(a u).2.2.2.1]

theorem SameStatic.edge_src_offset {α : Type} {h h' : Heap α} (a : SameStatic h h')
    (u i : Nat) : FAODAG.edge_src_offset h' u i = FAODAG.edge_src_offset h u i := by
  unfold FAODAG.edge_src_offset; rw [a.edge_target, (a u).2.2.2.2.2]

theorem SameStatic.edge_dst_offset {α : Type} {h h' : Heap α} (a : SameStatic h h')
    (u i : Nat) : FAODAG.edge_dst_offset h' u i = FAODAG.edge_dst_offset h u i := by
  unfold FAODAG.edge_dst_offset; rw [a.edge_target, (a _).2.2.2.2.1]

theorem forward_copy_spec {α : Type} (ops : FAOOps α) (u : Nat) (h : Heap α) (i : Nat) :
    SameStatic h (forward_copy ops u h i) ∧
    (∀ v, (forward_copy ops u h i v).output_data = (h v).output_data) ∧
    (∀ v, (forward_copy ops u h i v).input_data =
      if v = edge_target h u i then
        vector_subvec_memcpy (h v).input_data (edge_dst_offset h u i) (h u).output_data
          (edge_src_offset h u i) (edge_len ops h u i)
      else (h v).input_data) := by
  unfold SameStatic forward_copy edge_dst_offset edge_src_offset edge_len edge_target
  generalize (h u).output_nodes.getD i 0 = t
  refine ⟨?_, ?_, ?_⟩
  · intro v
    by_cases hvt : v = t <;> by_cases hvu : v = u <;> by_cases htu : t = u <;>
      simp [heap_set, hvt, hvu, htu, map_get_touch]
    all_goals (subst hvu; simp_all [map_get_touch])
  · intro v
    by_cases hvt : v = t <;> by_cases hvu : v = u <;> by_cases htu : t = u <;>
      simp [heap_set, hvt, hvu, htu]
    all_goals (subst hvu; simp_all)
  · intro v
    by_cases hvt : v = t <;> by_cases hvu : v = u <;> by_cases htu : t = u <;>
      simp [heap_set, hvt, hvu, htu, map_get_touch]
    all_goals simp_all [map_get_touch, eq_comm]

theorem foldl_range_induction {β : Type} (f : β → Nat → β) (P : Nat → β → Prop) (n : Nat)
    (b : β) (h0 : P 0 b) (hstep : ∀ k a, k < n → P k a → P (k + 1) (f a k)) :
    P n ((List.range n).foldl f b) := by
  induction n with
  | zero => simpa using h0
  | succ n ih =>
    rw [List.range_succ, List.foldl_append]
    simp only [List.foldl_cons, List.foldl_nil]
    exact hstep n _ (Nat.lt_succ_self n)
      (ih (fun k a hk hP => hstep k a (Nat.lt_succ_of_lt hk) hP))

theorem edge_target_mem {α : Type} (h : Heap α) (u i : Nat)
    (hi : i < (h u).output_nodes.length) : edge_target h u i ∈ (h u).output_nodes := by
  unfold edge_target
  rw [List.getD_eq_getElem _ _ hi]
  exact List.getElem_mem hi

/-- The effect of the `node_eval` of `forward_eval` on a heap. -/
theorem forward_node_eval_spec {α : Type} (ops : FAOOps α) (x : Nat) (h : Heap α) :
    SameStatic h (forward_node_eval ops x h) ∧
    (∀ v, (forward_node_eval ops x h v).output_data =
      if v = x then ops.forward_eval x (h x).input_data (h x).output_data
      else (h v).output_data) ∧
    (∀ v, v ∉ (h x).output_nodes →
      (forward_node_eval ops x h v).input_data = (h v).input_data) ∧
    (∀ v, (forward_node_eval ops x h v).input_data.length = (h v).input_data.length) := by
  unfold forward_node_eval
  dsimp only
  have hs : ∀ n : FAO α, heap_set h x n x = n := by intro n; simp [heap_set]
  rw [hs]
  dsimp only
  apply foldl_range_induction (forward_copy ops x)
    (fun _ a => SameStatic h a ∧
      (∀ v, (a v).output_data =
        if v = x then ops.forward_eval x (h x).input_data (h x).output_data
        else (h v).output_data) ∧
      (∀ v, v ∉ (h x).output_nodes → (a v).input_data = (h v).input_data) ∧
      (∀ v, (a v).input_data.length = (h v).input_data.length))
  · refine ⟨?_, ?_, ?_, ?_⟩
    · intro v
      by_cases hv : v = x
      · subst hv; simp [heap_set]
      · simp [heap_set, hv]
    · intro v
      by_cases hv : v = x
      · subst hv; simp [heap_set]
      · simp [heap_set, hv]
    · intro v _
      by_cases hv : v = x
      · subst hv; simp [heap_set]
      · simp [heap_set, hv]
    · intro v
      by_cases hv : v = x
      · subst hv; simp [heap_set]
      · simp [heap_set, hv]
  · intro k a hk ⟨hst, hout, hin, hlen⟩
    obtain ⟨c1, c2, c3⟩ := forward_copy_spec ops x a k
    refine ⟨hst.trans c1, ?_, ?_, ?_⟩
    · intro v; rw [c2, hout]
    · intro v hv
      rw [c3]
      have hk' : k < (a x).output_nodes.length := by rw [(hst x).2.1]; exact hk
      have hmem := edge_target_mem a x k hk'
      rw [(hst x).2.1] at hmem
      have : v ≠ edge_target a x k := fun e => hv (e ▸ hmem)
      simp [this, hin v hv]
    · intro v
      rw [c3]
      split
      · rw [vector_subvec_memcpy_length, hlen]
      · exact hlen v

theorem forward_copy_edges {α : Type} (ops : FAOOps α) (h0 a : Heap α) (nodes : List Nat)
    (hst : SameStatic h0 a) (hlen : SameLengths h0 a)
    (hb : SlicesInBounds ops h0 nodes) (hd : IncomingDisjoint ops h0 nodes)
    (x : Nat) (hx : x ∈ nodes) (k : Nat) (hk : k < (h0 x).output_nodes.length) :
    SameStatic h0 (forward_copy ops x a k) ∧ SameLengths h0 (forward_copy ops x a k) ∧
    (∀ v, (forward_copy ops x a k v).output_data = (a v).output_data) ∧
    (∀ v, v ≠ edge_target h0 x k → (forward_copy ops x a k v).input_data = (a v).input_data) ∧
    EdgeOK ops h0 (forward_copy ops x a k) x k ∧
    (∀ u ∈ nodes, ∀ i, i < (h0 u).output_nodes.length → (u, i) ≠ (x, k) →
      EdgeOK ops h0 a u i → EdgeOK ops h0 (forward_copy ops x a k) u i) := by
  obtain ⟨c1, c2, c3⟩ := forward_copy_spec ops x a k
  rw [hst.edge_target, hst.edge_dst_offset, hst.edge_src_offset, hst.edge_len] at c3
  have hin : ∀ v, v ≠ edge_target h0 x k →
      (forward_copy ops x a k v).input_data = (a v).input_data := by
    intro v hv; rw [c3]; simp [hv]
  refine ⟨hst.trans c1, ?_, c2, hin, ?_, ?_⟩
  · intro v
    refine ⟨?_, by rw [c2]; exact (hlen v).2⟩
    rw [c3]
    split
    · rw [vector_subvec_memcpy_length]; exact (hlen v).1
    · exact (hlen v).1
  · unfold EdgeOK
    rw [c3, c2]
    simp only [if_true]
    obtain ⟨b1, b2⟩ := hb x hx k hk
    apply subvec_memcpy_self
    · rw [(hlen _).1]; exact b2
    · rw [(hlen _).2]; exact b1
  · intro u hu i hi hne hok
    unfold EdgeOK at hok ⊢
    rw [c2]
    by_cases ht : edge_target h0 u i = edge_target h0 x k
    · rw [c3]
      simp only [ht, if_true]
      rw [← ht, subvec_memcpy_disjoint, hok]
      have := hd u hu i hi x hx k hk hne ht
      omega
    · rw [hin _ ht]; exact hok

theorem heap_set_same {α : Type} (h : Heap α) (x : Nat) (n : FAO α) :
    heap_set h x n x = n := by
  simp [heap_set]

theorem heap_set_other {α : Type} (h : Heap α) (x : Nat) (n : FAO α) (v : Nat)
    (hv : v ≠ x) : heap_set h x n v = h v := by
  simp [heap_set, hv]

theorem forward_node_eval_unfold {α : Type} (ops : FAOOps α) (x : Nat) (h : Heap α) :
    ∃ h1 : Heap α, (∀ v, (h1 v).input_data = (h v).input_data) ∧
      (∀ v, v ≠ x → (h1 v).output_data = (h v).output_data) ∧
      (h1 x).output_data = ops.forward_eval x (h x).input_data (h x).output_data ∧
      SameStatic h h1 ∧
      forward_node_eval ops x h
        = (List.range (h x).output_nodes.length).foldl (forward_copy ops x) h1 := by
  unfold forward_node_eval
  dsimp only
  rw [heap_set_same]
  dsimp only
  refine ⟨_, ?_, ?_, ?_, ?_, rfl⟩
  · intro v
    by_cases hv : v = x
    · subst hv; rw [heap_set_same]
    · rw [heap_set_other _ _ _ _ hv]
  · intro v hv
    rw [heap_set_other _ _ _ _ hv]
  · rw [heap_set_same]
  · intro v
    by_cases hv : v = x
    · subst hv; rw [heap_set_same]; exact ⟨rfl, rfl, rfl, rfl, fun _ => rfl, fun _ => rfl⟩
    · rw [heap_set_other _ _ _ _ hv]; exact ⟨rfl, rfl, rfl, rfl, fun _ => rfl, fun _ => rfl⟩

theorem forward_node_eval_inv {α : Type} (ops : FAOOps α) (F : Nat → List α → List α)
    (h0 : Heap α) (nodes : List Nat)
    (hpure : ∀ u ∈ nodes, ∀ inp out, ops.forward_eval u inp out = F u inp)
    (hFlen : ∀ u ∈ nodes, ∀ inp, inp.length = (h0 u).input_data.length →
      (F u inp).length = (h0 u).output_data.length)
    (hb : SlicesInBounds ops h0 nodes) (hd : IncomingDisjoint ops h0 nodes)
    (P : List Nat) (hP : ∀ u ∈ P, u ∈ nodes) (h : Heap α) (hI : EvalInv ops F h0 P h)
    (x : Nat) (hx : x ∈ nodes) (hxP : x ∉ P)
    (hfresh : ∀ t ∈ (h0 x).output_nodes, t ∉ P ++ [x]) :
    EvalInv ops F h0 (P ++ [x]) (forward_node_eval ops x h) := by
  obtain ⟨hst, hlen, hnode, hedge⟩ := hI
  obtain ⟨h1, h1in, h1out, h1x, h1st', heq⟩ := forward_node_eval_unfold ops x h
  rw [heq, (hst x).2.1]
  rw [hpure x hx] at h1x
  have h1st : SameStatic h0 h1 := hst.trans h1st'
  have h1len : SameLengths h0 h1 := by
    intro v
    refine ⟨by rw [h1in]; exact (hlen v).1, ?_⟩
    by_cases hv : v = x
    · subst hv; rw [h1x, hFlen v hx _ (hlen v).1]
    · rw [h1out v hv]; exact (hlen v).2
  have hres := foldl_range_induction (forward_copy ops x)
    (fun k a => SameStatic h0 a ∧ SameLengths h0 a ∧
      (∀ u ∈ P ++ [x], (a u).output_data = F u (a u).input_data) ∧
      (∀ u ∈ P, ∀ i, i < (h0 u).output_nodes.length → EdgeOK ops h0 a u i) ∧
      (∀ i, i < k → EdgeOK ops h0 a x i))
    (h0 x).output_nodes.length h1 ?_ ?_
  · obtain ⟨r1, r2, r3, r4, r5⟩ := hres
    refine ⟨r1, r2, r3, ?_⟩
    intro u hu i hi
    rcases List.mem_append.mp hu with hu | hu
    · exact r4 u hu i hi
    · rw [List.mem_singleton] at hu
      subst hu
      exact r5 i hi
  · refine ⟨h1st, h1len, ?_, ?_, ?_⟩
    · intro u hu
      rcases List.mem_append.mp hu with hu | hu
      · have hux : u ≠ x := fun e => hxP (e ▸ hu)
        rw [h1out u hux, h1in, hnode u hu]
      · rw [List.mem_singleton] at hu
        subst hu
        rw [h1x, h1in]
    · intro u hu i hi
      have hux : u ≠ x := fun e => hxP (e ▸ hu)
      have := hedge u hu i hi
      unfold EdgeOK at this ⊢
      rw [h1in, h1out u hux]
      exact this
    · intro i hi
      exact absurd hi (Nat.not_lt_zero i)
  · intro k a hk ⟨q1, q2, q3, q4, q5⟩
    obtain ⟨s1, s2, s3, s4, s5, s6⟩ :=
      forward_copy_edges ops h0 a nodes q1 q2 hb hd x hx k hk
    have htgt : edge_target h0 x k ∉ P ++ [x] := hfresh _ (edge_target_mem h0 x k hk)
    refine ⟨s1, s2, ?_, ?_, ?_⟩
    · intro u hu
      have hne : u ≠ edge_target h0 x k := fun e => htgt (e ▸ hu)
      rw [s3, s4 u hne]
      exact q3 u hu
    · intro u hu i hi
      have hux : u ≠ x := fun e => hxP (e ▸ hu)
      exact s6 u (hP u hu) i hi (fun e => hux (congrArg Prod.fst e)) (q4 u hu i hi)
    · intro i hi
      by_cases hik : i = k
      · subst hik; exact s5
      · have hi' : i < k := by omega
        exact s6 x hx i (by omega) (fun e => hik (congrArg Prod.snd e)) (q5 i hi')

theorem forward_fold_inv {α : Type} (ops : FAOOps α) (F : Nat → List α → List α)
    (h0 : Heap α) (nodes : List Nat)
    (hpure : ∀ u ∈ nodes, ∀ inp out, ops.forward_eval u inp out = F u inp)
    (hFlen : ∀ u ∈ nodes, ∀ inp, inp.length = (h0 u).input_data.length →
      (F u inp).length = (h0 u).output_data.length)
    (hb : SlicesInBounds ops h0 nodes) (hd : IncomingDisjoint ops h0 nodes) :
    ∀ (log : List (Nat × List Nat)) (P : List Nat) (h : Heap α),
      (∀ u ∈ P, u ∈ nodes) → (∀ u ∈ visited log, u ∈ nodes) →
      LogOK (fun u => (h0 u).output_nodes) (fun u => (h0 u).input_nodes) P log →
      EvalInv ops F h0 P h →
      EvalInv ops F h0 (P ++ visited log)
        ((visited log).foldl (fun h u => forward_node_eval ops u h) h) := by
  intro log
  induction log with
  | nil =>
    intro P h _ _ _ hI
    simpa [visited] using hI
  | cons e log ih =>
    intro P h hP hlog hok hI
    obtain ⟨_, _, hxP, hfresh, hrest⟩ := hok
    have hx : e.1 ∈ nodes := hlog e.1 (by simp [visited])
    have hI1 := forward_node_eval_inv ops F h0 nodes hpure hFlen hb hd P hP h hI e.1 hx hxP hfresh
    have hP1 : ∀ u ∈ P ++ [e.1], u ∈ nodes := by
      intro u hu
      rcases List.mem_append.mp hu with hu | hu
      · exact hP u hu
      · rw [List.mem_singleton] at hu; exact hu ▸ hx
    have hlog1 : ∀ u ∈ visited log, u ∈ nodes := by
      intro u hu
      exact hlog u (by simp only [visited, List.map_cons, List.mem_cons]; right; exact hu)
    have := ih (P ++ [e.1]) (forward_node_eval ops e.1 h) hP1 hlog1 hrest hI1
    simpa [visited] using this

theorem forward_node_eval_preservesTopology {α : Type} (ops : FAOOps α) :
    PreservesTopology (forward_node_eval ops) := by
  intro u h v
  obtain ⟨hst, -⟩ := forward_node_eval_spec ops u h
  exact ⟨(hst v).1, (hst v).2.1⟩

/-! ### Adjoint evaluation, by transposition -/

theorem transpose_heap_set {α : Type} (h : Heap α) (p : Nat) (n : FAO α) :
    transpose_heap (heap_set h p n) = heap_set (transpose_heap h) p n.transpose := by
  funext q
  unfold transpose_heap heap_set
  split <;> rfl

theorem adjoint_copy_eq {α : Type} (ops : FAOOps α) (u : Nat) (h : Heap α) (i : Nat) :
    adjoint_copy ops u h i
      = transpose_heap (forward_copy ops.transpose u (transpose_heap h) i) := by
  funext v
  unfold adjoint_copy forward_copy transpose_heap FAOOps.transpose FAO.transpose
  dsimp only
  generalize (h u).input_nodes.getD i 0 = t
  by_cases hvt : v = t <;> by_cases hvu : v = u <;> by_cases htu : t = u <;>
    simp [heap_set, hvt, hvu, htu]
  all_goals simp_all [eq_comm]

theorem foldl_transpose {α : Type} (f : Heap α → Nat → Heap α) (l : List Nat) :
    ∀ a : Heap α, l.foldl (fun h i => transpose_heap (f (transpose_heap h) i)) a
      = transpose_heap (l.foldl f (transpose_heap a)) := by
  induction l with
  | nil => intro a; rfl
  | cons x l ih =>
    intro a
    simp only [List.foldl_cons]
    rw [ih]
    rfl

theorem adjoint_node_eval_eq {α : Type} (ops : FAOOps α) (u : Nat) (h : Heap α) :
    adjoint_node_eval ops u h
      = transpose_heap (forward_node_eval ops.transpose u (transpose_heap h)) := by
  unfold adjoint_node_eval forward_node_eval
  dsimp only
  have : adjoint_copy ops u
      = fun h i => transpose_heap (forward_copy ops.transpose u (transpose_heap h) i) := by
    funext h i
    exact adjoint_copy_eq ops u h i
  rw [this, foldl_transpose, transpose_heap_set, heap_set_same, heap_set_same]
  rfl

theorem foldl_adjoint_node_eval {α : Type} (ops : FAOOps α) (vs : List Nat) :
    ∀ h : Heap α, vs.foldl (fun h u => adjoint_node_eval ops u h) h
      = transpose_heap
          (vs.foldl (fun h u => forward_node_eval ops.transpose u h) (transpose_heap h)) := by
  induction vs with
  | nil => intro h; rfl
  | cons x vs ih =>
    intro h
    simp only [List.foldl_cons]
    rw [ih, adjoint_node_eval_eq]
    rfl

theorem adjoint_node_eval_preservesTopology {α : Type} (ops : FAOOps α) :
    PreservesTopology (adjoint_node_eval ops) := by
  intro u h v
  rw [adjoint_node_eval_eq]
  obtain ⟨hst, -⟩ := forward_node_eval_spec ops.transpose u (transpose_heap h)
  exact ⟨(hst v).2.1, (hst v).1⟩

/-- Forward evaluation of the diamond on the input 7: A duplicates, D adds. -/
theorem diamond_forward_value :
    (forward_eval diamond_ops 5 (copy_input false diamond_dag [7] true).2).map
      (fun s => (s.heap 3).output_data) = some [14] := by
  decide

/-- Adjoint evaluation of the diamond on the seed 7. -/
theorem diamond_adjoint_value :
    (adjoint_eval diamond_ops 5 (copy_input false diamond_dag [7] false).2).map
      (fun s => (s.heap 0).input_data) = some [14] := by
  decide

theorem diamond_slicesInBounds :
    SlicesInBounds diamond_ops diamond_dag.heap [0, 1, 2, 3] := by
  unfold SlicesInBounds
  decide

theorem diamond_incomingDisjoint :
    IncomingDisjoint diamond_ops diamond_dag.heap [0, 1, 2, 3] := by
  unfold IncomingDisjoint
  decide

theorem diamond_adjointSlicesInBounds :
    AdjointSlicesInBounds diamond_ops diamond_dag.heap [0, 1, 2, 3] := by
  unfold AdjointSlicesInBounds
  decide

theorem diamond_outgoingDisjoint :
    OutgoingDisjoint diamond_ops diamond_dag.heap [0, 1, 2, 3] := by
  unfold OutgoingDisjoint
  decide

/-! ### Boundary copies -/

theorem vector_memcpy_eq {α : Type} (dst src : List α) (h : src.length = dst.length) :
    vector_memcpy dst src = src := by
  apply List.ext_getElem?
  intro j
  unfold vector_memcpy
  rw [List.getElem?_mapIdx]
  by_cases hj : j < dst.length
  · have hj' : j < src.length := by omega
    rw [List.getElem?_eq_getElem hj, List.getElem?_eq_getElem hj']
    simp
  · have hj' : src.length ≤ j := by omega
    rw [List.getElem?_eq_none (Nat.le_of_not_lt hj), List.getElem?_eq_none hj']
    rfl

theorem vec_read_write {α : Type} (h : Heap α) (r : VecPtr) (v : List α) :
    vec_read (vec_write h r v) r = v := by
  cases r <;> simp [vec_read, vec_write, heap_set]

/-- Boundary copies on the diamond in a build with the assertions active: a sequence
of the wrong length is refused and the state is kept, one of the right length is
written to, respectively read from, the boundary buffer. -/
theorem boundary_copy_examples :
    (copy_input false diamond_dag [1, 2] true).1 = .error .size_mismatch ∧
    ((copy_input false diamond_dag [1, 2] true).2.heap 0).input_data = [0] ∧
    (copy_input false diamond_dag [7] true).1 = .ok () ∧
    ((copy_input false diamond_dag [7] true).2.heap 0).input_data = [7] ∧
    (copy_output false diamond_dag [1, 2] true).1 = .error .size_mismatch ∧
    (copy_output false diamond_dag [5] true).1 = .ok () ∧
    (copy_output false diamond_dag [5] true).2.1 = [0] :=
  ⟨rfl, rfl, rfl, rfl, rfl, rfl, rfl⟩

/-- Boundary copies of sequences of the right length on the diamond in a build with
`NDEBUG` defined. -/
theorem boundary_copy_examples_ndebug :
    (copy_input true diamond_dag [7] true).1 = .ok () ∧
    ((copy_input true diamond_dag [7] true).2.heap 0).input_data = [7] ∧
    (copy_output true diamond_dag [5] true).1 = .ok () ∧
    (copy_output true diamond_dag [5] true).2.1 = [0] :=
  ⟨rfl, rfl, rfl, rfl⟩

/-! ### Determinism of the traversal, idempotence of forward evaluation -/

theorem Sim.parents {α : Type} {s t : FAO_DAG α} (h : Sim s t) (forward : Bool) (v : Nat) :
    FAODAG.parents forward (s.heap v) = FAODAG.parents forward (t.heap v) := by
  unfold FAODAG.parents; rw [(h.2.2 v).1, (h.2.2 v).2]

theorem Sim.children {α : Type} {s t : FAO_DAG α} (h : Sim s t) (forward : Bool) (v : Nat) :
    FAODAG.children forward (s.heap v) = FAODAG.children forward (t.heap v) := by
  unfold FAODAG.children; rw [(h.2.2 v).1, (h.2.2 v).2]

theorem traverse_children_congr {α : Type} (forward : Bool) (l : List Nat) :
    ∀ s t : FAO_DAG α, Sim s t →
      Sim (traverse_children forward l s).1 (traverse_children forward l t).1 ∧
      (traverse_children forward l s).2 = (traverse_children forward l t).2 := by
  induction l with
  | nil => intro s t h; exact ⟨h, rfl⟩
  | cons v l ih =>
    intro s t h
    simp only [traverse_children]
    rw [traverse_child_eq, traverse_child_eq]
    have hc : (map_get s.eval_map v + 1 = (parents forward (s.heap v)).length) ↔
        (map_get t.eval_map v + 1 = (parents forward (t.heap v)).length) := by
      rw [h.2.1 v, h.parents forward v]
    have hsim : Sim
        ({ s with
            eval_map := map_incr s.eval_map v
            ready_queue := s.ready_queue ++
              (if map_get s.eval_map v + 1 = (parents forward (s.heap v)).length
                then [v] else []) } : FAO_DAG α)
        ({ t with
            eval_map := map_incr t.eval_map v
            ready_queue := t.ready_queue ++
              (if map_get t.eval_map v + 1 = (parents forward (t.heap v)).length
                then [v] else []) } : FAO_DAG α) := by
      refine ⟨?_, ?_, h.2.2⟩
      · simp only [h.1, hc]
      · intro k
        simp only [map_get_incr, h.2.1 k]
    obtain ⟨i1, i2⟩ := ih _ _ hsim
    refine ⟨i1, ?_⟩
    rw [i2]
    simp only [hc]

theorem traverse_loop_log_congr {α : Type} (nf nf' : Nat → Heap α → Heap α) (forward : Bool)
    (hnf : PreservesTopology nf) (hnf' : PreservesTopology nf') :
    ∀ (fuel : Nat) (s t : FAO_DAG α), Sim s t →
      (traverse_loop nf forward fuel s).map Prod.snd
        = (traverse_loop nf' forward fuel t).map Prod.snd := by
  intro fuel
  induction fuel with
  | zero => intro s t _; rfl
  | succ fuel ih =>
    intro s t h
    unfold traverse_loop
    rw [← h.1]
    cases hq : s.ready_queue with
    | nil => rfl
    | cons x rest =>
      dsimp only
      have hsim : Sim
          ({ start_node := s.start_node, end_node := s.end_node, ready_queue := rest,
             eval_map := map_incr s.eval_map x, heap := nf x s.heap } : FAO_DAG α)
          ({ start_node := t.start_node, end_node := t.end_node, ready_queue := rest,
             eval_map := map_incr t.eval_map x, heap := nf' x t.heap } : FAO_DAG α) := by
        refine ⟨rfl, ?_, ?_⟩
        · intro k; simp only [map_get_incr, h.2.1 k]
        · intro v
          dsimp only
          rw [(hnf x s.heap v).1, (hnf x s.heap v).2, (hnf' x t.heap v).1, (hnf' x t.heap v).2]
          exact h.2.2 v
      have hch : (if forward = true then (nf x s.heap x).output_nodes
            else (nf x s.heap x).input_nodes)
          = (if forward = true then (nf' x t.heap x).output_nodes
            else (nf' x t.heap x).input_nodes) := by
        rw [(hnf x s.heap x).1, (hnf x s.heap x).2, (hnf' x t.heap x).1, (hnf' x t.heap x).2,
          (h.2.2 x).1, (h.2.2 x).2]
      obtain ⟨c1, c2⟩ := traverse_children_congr forward
        (if forward = true then (nf x s.heap x).output_nodes else (nf x s.heap x).input_nodes)
        _ _ hsim
      have hrec := ih _ _ c1
      unfold traverse_visit
      dsimp only
      rw [← hch, ← c2]
      generalize traverse_loop nf forward fuel _ = r1 at hrec ⊢
      generalize traverse_loop nf' forward fuel _ = r2 at hrec ⊢
      cases r1 <;> cases r2 <;> simp_all

theorem traverse_graph_log_congr {α : Type} (nf nf' : Nat → Heap α → Heap α) (forward : Bool)
    (hnf : PreservesTopology nf) (hnf' : PreservesTopology nf')
    (fuel : Nat) (s t : FAO_DAG α) (h : Sim s t)
    (hst : s.start_node = t.start_node) (hen : s.end_node = t.end_node) :
    (traverse_graph nf forward fuel s).map Prod.snd
      = (traverse_graph nf' forward fuel t).map Prod.snd := by
  unfold traverse_graph
  dsimp only
  have hsim : Sim
      ({ s with ready_queue := s.ready_queue ++
          [if forward = true then s.start_node else s.end_node] } : FAO_DAG α)
      ({ t with ready_queue := t.ready_queue ++
          [if forward = true then t.start_node else t.end_node] } : FAO_DAG α) := by
    refine ⟨?_, h.2.1, h.2.2⟩
    simp only [h.1, hst, hen]
  have := traverse_loop_log_congr nf nf' forward hnf hnf' fuel _ _ hsim
  generalize traverse_loop nf forward fuel _ = r1 at this ⊢
  generalize traverse_loop nf' forward fuel _ = r2 at this ⊢
  cases r1 <;> cases r2 <;> simp_all

theorem SameStatic.symm {α : Type} {h1 h2 : Heap α} (a : SameStatic h1 h2) :
    SameStatic h2 h1 := by
  intro v
  obtain ⟨a1, a2, a3, a4, a5, a6⟩ := a v
  exact ⟨a1.symm, a2.symm, a3.symm, a4.symm, fun k => (a5 k).symm, fun k => (a6 k).symm⟩

theorem foldl_range_induction2 {β γ : Type} (f : β → Nat → β) (g : γ → Nat → γ)
    (P : Nat → β → γ → Prop) (n : Nat) (a : β) (b : γ) (h0 : P 0 a b)
    (hstep : ∀ k a b, k < n → P k a b → P (k + 1) (f a k) (g b k)) :
    P n ((List.range n).foldl f a) ((List.range n).foldl g b) := by
  induction n with
  | zero => simpa using h0
  | succ n ih =>
    rw [List.range_succ, List.foldl_append, List.foldl_append]
    simp only [List.foldl_cons, List.foldl_nil]
    exact hstep n _ _ (Nat.lt_succ_self n)
      (ih (fun k a b hk hP => hstep k a b (Nat.lt_succ_of_lt hk) hP))

theorem forward_fold_frame {α : Type} (ops : FAOOps α) (h0 : Heap α) :
    ∀ (log : List (Nat × List Nat)) (V : List Nat) (h : Heap α), SameStatic h0 h →
      LogOK (fun u => (h0 u).output_nodes) (fun u => (h0 u).input_nodes) V log →
      SameStatic h0 ((visited log).foldl (fun h u => forward_node_eval ops u h) h) ∧
      (∀ v, (((visited log).foldl (fun h u => forward_node_eval ops u h) h) v).input_data.length
        = (h v).input_data.length) ∧
      (∀ v ∈ V,
        (((visited log).foldl (fun h u => forward_node_eval ops u h) h) v).input_data
          = (h v).input_data ∧
        (((visited log).foldl (fun h u => forward_node_eval ops u h) h) v).output_data
          = (h v).output_data) := by
  intro log
  induction log with
  | nil =>
    intro V h hst _
    exact ⟨hst, fun _ => rfl, fun _ _ => ⟨rfl, rfl⟩⟩
  | cons e log ih =>
    intro V h hst hok
    obtain ⟨_, _, hxV, hfresh, hrest⟩ := hok
    obtain ⟨n1, n2, n3, n4⟩ := forward_node_eval_spec ops e.1 h
    obtain ⟨i1, i2, i3⟩ := ih (V ++ [e.1]) (forward_node_eval ops e.1 h) (hst.trans n1) hrest
    simp only [visited, List.map_cons, List.foldl_cons] at i1 i2 i3 ⊢
    refine ⟨i1, fun v => (i2 v).trans (n4 v), ?_⟩
    intro v hv
    have hvx : v ≠ e.1 := fun e' => hxV (e' ▸ hv)
    have hvout : v ∉ (h e.1).output_nodes := by
      rw [(hst e.1).2.1]
      intro hmem
      exact hfresh v hmem (List.mem_append_left _ hv)
    obtain ⟨j1, j2⟩ := i3 v (List.mem_append_left _ hv)
    refine ⟨j1.trans (n3 v hvout), j2.trans ?_⟩
    rw [n2]; simp [hvx]

theorem vector_subvec_memcpy_rel {α : Type} (dA dB src H : List α) (d s len j : Nat)
    (hlen : dB.length = dA.length) (h : dB[j]? = dA[j]? ∨ dB[j]? = H[j]?) :
    (vector_subvec_memcpy dB d src s len)[j]? = (vector_subvec_memcpy dA d src s len)[j]? ∨
    (vector_subvec_memcpy dB d src s len)[j]? = H[j]? := by
  rw [vector_subvec_memcpy_getElem?, vector_subvec_memcpy_getElem?]
  by_cases hr : d ≤ j ∧ j < d + len
  · simp only [hr, and_self, if_true]
    cases hsrc : src[s + (j - d)]? with
    | none =>
      simp only [Option.getD_none]
      rcases h with h | h
      · left; rw [h]
      · right; rw [← h]; cases dB[j]? <;> rfl
    | some z =>
      left
      simp only [Option.getD_some]
      by_cases hj : j < dA.length
      · rw [List.getElem?_eq_getElem hj, List.getElem?_eq_getElem (hlen ▸ hj)]
        rfl
      · rw [List.getElem?_eq_none (Nat.le_of_not_lt hj),
          List.getElem?_eq_none (hlen ▸ Nat.le_of_not_lt hj)]
  · simp only [hr, if_false]
    rcases h with h | h
    · left; rw [h]
    · right; rw [← h]; cases dB[j]? <;> rfl

theorem forward_node_eval_lockstep {α : Type} (ops : FAOOps α) (x : Nat) (A B H : Heap α)
    (hst : SameStatic A B)
    (hlen : ∀ v, (B v).input_data.length = (A v).input_data.length)
    (hout : ops.forward_eval x (B x).input_data (B x).output_data
      = ops.forward_eval x (A x).input_data (A x).output_data)
    (hpt : ∀ (v j : Nat), (B v).input_data[j]? = (A v).input_data[j]? ∨
      (B v).input_data[j]? = (H v).input_data[j]?) :
    ∀ (v j : Nat), (forward_node_eval ops x B v).input_data[j]?
        = (forward_node_eval ops x A v).input_data[j]? ∨
      (forward_node_eval ops x B v).input_data[j]? = (H v).input_data[j]? := by
  obtain ⟨A1, a1, _, a3, a4, ha⟩ := forward_node_eval_unfold ops x A
  obtain ⟨B1, b1, _, b3, b4, hb⟩ := forward_node_eval_unfold ops x B
  rw [ha, hb, (hst x).2.1]
  have hres := foldl_range_induction2 (forward_copy ops x) (forward_copy ops x)
    (fun _ a b => SameStatic A a ∧ SameStatic B b ∧ (b x).output_data = (a x).output_data ∧
      (∀ v, (b v).input_data.length = (a v).input_data.length) ∧
      (∀ (v j : Nat), (b v).input_data[j]? = (a v).input_data[j]? ∨
        (b v).input_data[j]? = (H v).input_data[j]?))
    (A x).output_nodes.length A1 B1 ?_ ?_
  · exact hres.2.2.2.2
  · refine ⟨a4, b4, by rw [a3, b3, hout], ?_, ?_⟩
    · intro v; rw [a1, b1]; exact hlen v
    · intro v j; rw [a1, b1]; exact hpt v j
  · intro k a b _ ⟨q1, q2, q3, q4, q5⟩
    obtain ⟨c1, c2, c3⟩ := forward_copy_spec ops x a k
    obtain ⟨d1, d2, d3⟩ := forward_copy_spec ops x b k
    have hab : SameStatic a b := (q1.symm.trans hst).trans q2
    rw [hab.edge_target, hab.edge_dst_offset, hab.edge_src_offset, hab.edge_len, q3] at d3
    refine ⟨q1.trans c1, q2.trans d1, by rw [c2, d2, q3], ?_, ?_⟩
    · intro v
      rw [c3, d3]
      split
      · rw [vector_subvec_memcpy_length, vector_subvec_memcpy_length]; exact q4 v
      · exact q4 v
    · intro v j
      rw [c3, d3]
      split
      · exact vector_subvec_memcpy_rel _ _ _ _ _ _ _ j (q4 v) (q5 v j)
      · exact q5 v j

theorem forward_fold_lockstep {α : Type} (ops : FAOOps α) (F : Nat → List α → List α)
    (h0 : Heap α) (nodes : List Nat)
    (hpure : ∀ u ∈ nodes, ∀ inp out, ops.forward_eval u inp out = F u inp) :
    ∀ (log : List (Nat × List Nat)) (V : List Nat) (A B H : Heap α),
      (∀ u ∈ visited log, u ∈ nodes) → SameStatic h0 A → SameStatic A B →
      LogOK (fun u => (h0 u).output_nodes) (fun u => (h0 u).input_nodes) V log →
      H = (visited log).foldl (fun h u => forward_node_eval ops u h) A →
      (∀ v, (B v).output_data = (H v).output_data) →
      (∀ v, (B v).input_data.length = (A v).input_data.length) →
      (∀ (v j : Nat), (B v).input_data[j]? = (A v).input_data[j]? ∨
        (B v).input_data[j]? = (H v).input_data[j]?) →
      ∀ v, (((visited log).foldl (fun h u => forward_node_eval ops u h) B) v).output_data
          = (H v).output_data ∧
        (((visited log).foldl (fun h u => forward_node_eval ops u h) B) v).input_data
          = (H v).input_data := by
  intro log
  induction log with
  | nil =>
    intro V A B H _ _ _ _ hH hout _ hpt v
    simp only [visited, List.map_nil, List.foldl_nil] at hH ⊢
    refine ⟨hout v, ?_⟩
    apply List.ext_getElem?
    intro j
    rcases hpt v j with h | h
    · rw [h, hH]
    · exact h
  | cons e log ih =>
    intro V A B H hmem hA hAB hok hH hout hlen hpt
    obtain ⟨_, _, hxV, hfresh, hrest⟩ := hok
    have hx : e.1 ∈ nodes := hmem e.1 (by simp [visited])
    simp only [visited, List.map_cons, List.foldl_cons] at hH ⊢
    obtain ⟨n1, n2, n3, n4⟩ := forward_node_eval_spec ops e.1 A
    obtain ⟨m1, m2, m3, m4⟩ := forward_node_eval_spec ops e.1 B
    obtain ⟨f1, f2, f3⟩ := forward_fold_frame ops h0 log (V ++ [e.1])
      (forward_node_eval ops e.1 A) (hA.trans n1) hrest
    simp only [visited] at f1 f2 f3
    rw [← hH] at f1 f2 f3
    have hxself : e.1 ∉ (A e.1).output_nodes := by
      rw [(hA e.1).2.1]
      intro hm
      exact hfresh e.1 hm (by simp)
    obtain ⟨fx1, fx2⟩ := f3 e.1 (by simp)
    rw [n3 e.1 hxself] at fx1
    rw [n2] at fx2
    simp only [if_true] at fx2
    have hinx : (B e.1).input_data = (A e.1).input_data := by
      apply List.ext_getElem?
      intro j
      rcases hpt e.1 j with h | h
      · exact h
      · rw [h, fx1]
    have hfw : ops.forward_eval e.1 (B e.1).input_data (B e.1).output_data
        = ops.forward_eval e.1 (A e.1).input_data (A e.1).output_data := by
      rw [hpure e.1 hx, hpure e.1 hx, hinx]
    apply ih (V ++ [e.1]) (forward_node_eval ops e.1 A) (forward_node_eval ops e.1 B) H
      (fun u hu => hmem u (by
        simp only [visited, List.map_cons, List.mem_cons]; right; exact hu))
      (hA.trans n1) ((n1.symm.trans hAB).trans m1) hrest hH
    · intro v
      rw [m2]
      by_cases hv : v = e.1
      · subst hv
        simp only [if_true]
        rw [hfw, fx2]
      · simp only [hv, if_false]
        exact hout v
    · intro v
      rw [m4, n4]; exact hlen v
    · exact forward_node_eval_lockstep ops e.1 A B H hAB hlen hfw hpt

/-! ### Forward and adjoint evaluation on valid graphs -/

theorem forward_fold_input_frame {α : Type} (ops : FAOOps α) (h0 : Heap α) (v : Nat) :
    ∀ (vs : List Nat) (h : Heap α), SameStatic h0 h →
      (∀ u ∈ vs, v ∉ (h0 u).output_nodes) →
      ((vs.foldl (fun h u => forward_node_eval ops u h) h) v).input_data
        = (h v).input_data := by
  intro vs
  induction vs with
  | nil => intro h _ _; rfl
  | cons x vs ih =>
    intro h hst hv
    obtain ⟨n1, _, n3, _⟩ := forward_node_eval_spec ops x h
    simp only [List.foldl_cons]
    rw [ih (forward_node_eval ops x h) (hst.trans n1)
      (fun u hu => hv u (List.mem_cons_of_mem _ hu))]
    apply n3
    rw [(hst x).2.1]
    exact hv x (List.mem_cons_self _ _)

/-- What `forward_eval` does on a valid two-terminal DAG with pure operations that
fill the output buffers, in-bounds edge slices and disjoint incoming slices. -/
theorem forward_eval_spec {α : Type} (ops : FAOOps α) (F : Nat → List α → List α)
    (s : FAO_DAG α) (nodes : List Nat) (hdag : TwoTerminalDAG s nodes)
    (hpure : ∀ u ∈ nodes, ∀ inp out, ops.forward_eval u inp out = F u inp)
    (hFlen : ∀ u ∈ nodes, ∀ inp, inp.length = (s.heap u).input_data.length →
      (F u inp).length = (s.heap u).output_data.length)
    (hb : SlicesInBounds ops s.heap nodes) (hd : IncomingDisjoint ops s.heap nodes)
    (hem : s.eval_map = map_clear) (hq : s.ready_queue = [])
    (fuel : Nat) (hfuel : nodes.length < fuel) :
    ∃ s', forward_eval ops fuel s = some s' ∧
      s'.ready_queue = [] ∧ s'.eval_map = map_clear ∧
      s'.start_node = s.start_node ∧ s'.end_node = s.end_node ∧
      SameStatic s.heap s'.heap ∧ SameLengths s.heap s'.heap ∧
      (∀ v, (∀ u ∈ nodes, v ∉ (s.heap u).output_nodes) →
        (s'.heap v).input_data = (s.heap v).input_data) ∧
      (∀ u ∈ nodes, (s'.heap u).output_data = F u (s'.heap u).input_data) ∧
      (∀ u ∈ nodes, ∀ i, i < (s.heap u).output_nodes.length →
        EdgeOK ops s.heap s'.heap u i) := by
  have hs := sched_of_wellFormed true s nodes hdag.1 hdag.2.1
  obtain ⟨s', log, h1, h2, h3, h4, h5, h6, h7, h8, h9, h10⟩ :=
    traverse_graph_spec (forward_node_eval ops) true s nodes hs
      (forward_node_eval_preservesTopology ops) hem hq fuel hfuel
  have hI0 : EvalInv ops F s.heap [] s.heap :=
    ⟨SameStatic.refl _, fun _ => ⟨rfl, rfl⟩, fun _ hu => absurd hu (List.not_mem_nil _),
      fun _ hu => absurd hu (List.not_mem_nil _)⟩
  have hI := forward_fold_inv ops F s.heap nodes hpure hFlen hb hd log [] s.heap
    (fun _ hu => absurd hu (List.not_mem_nil _)) (fun u hu => (h3 u).mp hu) h5 hI0
  rw [← h6, List.nil_append] at hI
  obtain ⟨hst, hlen, hnode, hedge⟩ := hI
  refine ⟨s', by simp [forward_eval, h1], h7, h8, h9, h10, hst, hlen, ?_,
    fun u hu => hnode u ((h3 u).mpr hu), fun u hu => hedge u ((h3 u).mpr hu)⟩
  intro v hv
  rw [h6]
  exact forward_fold_input_frame ops s.heap v (visited log) s.heap (SameStatic.refl _)
    (fun u hu => hv u ((h3 u).mp hu))

/-- What `adjoint_eval` does on a valid two-terminal DAG with pure adjoint operations
that fill the input buffers, in-bounds edge slices and disjoint outgoing slices. -/
theorem adjoint_eval_spec {α : Type} (ops : FAOOps α) (Fs : Nat → List α → List α)
    (s : FAO_DAG α) (nodes : List Nat) (hdag : TwoTerminalDAG s nodes)
    (hpure : ∀ u ∈ nodes, ∀ out inp, ops.adjoint_eval u out inp = Fs u out)
    (hFlen : ∀ u ∈ nodes, ∀ out, out.length = (s.heap u).output_data.length →
      (Fs u out).length = (s.heap u).input_data.length)
    (hb : AdjointSlicesInBounds ops s.heap nodes) (hd : OutgoingDisjoint ops s.heap nodes)
    (hem : s.eval_map = map_clear) (hq : s.ready_queue = [])
    (fuel : Nat) (hfuel : nodes.length < fuel) :
    ∃ s', adjoint_eval ops fuel s = some s' ∧
      s'.ready_queue = [] ∧ s'.eval_map = map_clear ∧
      s'.start_node = s.start_node ∧ s'.end_node = s.end_node ∧
      SameStatic s.heap s'.heap ∧ SameLengths s.heap s'.heap ∧
      (∀ v, (∀ u ∈ nodes, v ∉ (s.heap u).input_nodes) →
        (s'.heap v).output_data = (s.heap v).output_data) ∧
      (∀ u ∈ nodes, (s'.heap u).input_data = Fs u (s'.heap u).output_data) ∧
      (∀ u ∈ nodes, ∀ i, i < (s.heap u).input_nodes.length →
        subvec (s'.heap (pred_target s.heap u i)).output_data
            (pred_dst_offset s.heap u i) (pred_len ops s.heap u i)
          = subvec (s'.heap u).input_data
            (pred_src_offset s.heap u i) (pred_len ops s.heap u i)) := by
  have hs := sched_of_wellFormed false s nodes hdag.1 hdag.2.2
  obtain ⟨s', log, h1, h2, h3, h4, h5, h6, h7, h8, h9, h10⟩ :=
    traverse_graph_spec (adjoint_node_eval ops) false s nodes hs
      (adjoint_node_eval_preservesTopology ops) hem hq fuel hfuel
  have hI0 : EvalInv ops.transpose Fs (transpose_heap s.heap) [] (transpose_heap s.heap) :=
    ⟨SameStatic.refl _, fun _ => ⟨rfl, rfl⟩, fun _ hu => absurd hu (List.not_mem_nil _),
      fun _ hu => absurd hu (List.not_mem_nil _)⟩
  have hI := forward_fold_inv ops.transpose Fs (transpose_heap s.heap) nodes hpure hFlen hb hd
    log [] (transpose_heap s.heap)
    (fun _ hu => absurd hu (List.not_mem_nil _)) (fun u hu => (h3 u).mp hu) h5 hI0
  have hfr := fun v => forward_fold_input_frame ops.transpose (transpose_heap s.heap) v
    (visited log) (transpose_heap s.heap) (SameStatic.refl _)
  rw [foldl_adjoint_node_eval] at h6
  rw [List.nil_append] at hI
  generalize (visited log).foldl (fun h u => forward_node_eval ops.transpose u h)
    (transpose_heap s.heap) = hT at h6 hI hfr
  obtain ⟨hst, hlen, hnode, hedge⟩ := hI
  refine ⟨s', by simp [adjoint_eval, h1], h7, h8, h9, h10, ?_, ?_, ?_, ?_, ?_⟩
  · intro v
    rw [h6]
    obtain ⟨a1, a2, a3, a4, a5, a6⟩ := hst v
    exact ⟨a2, a1, a4, a3, a6, a5⟩
  · intro v
    rw [h6]
    exact ⟨(hlen v).2, (hlen v).1⟩
  · intro v hv
    rw [h6]
    exact hfr v (fun u hu => hv u ((h3 u).mp hu))
  · intro u hu
    rw [h6]
    exact hnode u ((h3 u).mpr hu)
  · intro u hu i hi
    rw [h6]
    exact hedge u ((h3 u).mpr hu) i hi

/-! ### Linear chains -/

theorem mem_chain_nodes (a : Nat → Nat) (n u : Nat) :
    u ∈ chain_nodes a n ↔ ∃ i, i < n ∧ a i = u := by
  simp [chain_nodes]

theorem IsChain.out {α : Type} {ops : FAOOps α} {s : FAO_DAG α} {a : Nat → Nat} {n : Nat}
    (hc : IsChain ops s a n) (i : Nat) (hi : i < n) :
    (s.heap (a i)).output_nodes = if i + 1 < n then [a (i + 1)] else [] := by
  by_cases h : i + 1 < n
  · simp only [h, if_true]; exact (hc.link i h).1
  · simp only [h, if_false]
    have : i = n - 1 := by omega
    rw [this]; exact hc.exit_out

theorem IsChain.inp {α : Type} {ops : FAOOps α} {s : FAO_DAG α} {a : Nat → Nat} {n : Nat}
    (hc : IsChain ops s a n) (i : Nat) (hi : i < n) :
    (s.heap (a i)).input_nodes = if 0 < i then [a (i - 1)] else [] := by
  by_cases h : 0 < i
  · simp only [h, if_true]
    have := (hc.link (i - 1) (by omega)).2.1
    have e : i - 1 + 1 = i := by omega
    rw [e] at this
    exact this
  · simp only [h, if_false]
    have : i = 0 := by omega
    rw [this]; exact hc.entry_in

theorem IsChain.wellFormed {α : Type} {ops : FAOOps α} {s : FAO_DAG α} {a : Nat → Nat}
    {n : Nat} (hc : IsChain ops s a n) : WellFormed s.heap (chain_nodes a n) := by
  refine ⟨?_, ?_, ?_, ?_, ?_⟩
  · unfold chain_nodes
    rw [List.nodup_map_iff_inj_on (List.nodup_range n)]
    intro i hi j hj hij
    exact hc.inj i j (List.mem_range.mp hi) (List.mem_range.mp hj) hij
  · intro u hu v hv
    obtain ⟨i, hi, rfl⟩ := (mem_chain_nodes a n u).mp hu
    rw [hc.out i hi] at hv
    by_cases h : i + 1 < n
    · simp only [h, if_true, List.mem_singleton] at hv
      exact (mem_chain_nodes a n v).mpr ⟨i + 1, h, hv.symm⟩
    · simp [h] at hv
  · intro v hv u hu
    obtain ⟨i, hi, rfl⟩ := (mem_chain_nodes a n v).mp hv
    rw [hc.inp i hi] at hu
    by_cases h : 0 < i
    · simp only [h, if_true, List.mem_singleton] at hu
      exact (mem_chain_nodes a n u).mpr ⟨i - 1, by omega, hu.symm⟩
    · simp [h] at hu
  · intro u hu v hv
    obtain ⟨i, hi, rfl⟩ := (mem_chain_nodes a n u).mp hu
    obtain ⟨j, hj, rfl⟩ := (mem_chain_nodes a n v).mp hv
    rw [hc.out i hi, hc.inp j hj]
    by_cases h1 : i + 1 < n <;> by_cases h2 : 0 < j
    · simp only [h1, h2, if_true, List.count_singleton]
      by_cases e : j = i + 1
      · subst e; simp
      · have e1 : ¬ a (i + 1) = a j := fun h => e (hc.inj _ _ h1 hj h).symm
        have e2 : ¬ a (j - 1) = a i := fun h => e (by
          have := hc.inj _ _ (by omega) hi h; omega)
        simp [e1, e2]
    · have hj0 : j = 0 := by omega
      subst hj0
      have e1 : ¬ a (i + 1) = a 0 := fun h => by
        have := hc.inj _ _ h1 hj h; omega
      simp [h1, List.count_singleton, e1]
    · have e2 : ¬ a (j - 1) = a i := fun h => by
        have := hc.inj _ _ (by omega) hi h; omega
      simp [h1, h2, List.count_singleton, e2]
    · simp [h1, h2]
  · have key : ∀ u v, Relation.TransGen (succ_edge s.heap) u v →
        ∀ i, i < n → u = a i → ∃ j, i < j ∧ j < n ∧ v = a j := by
      intro u v h
      induction h with
      | single huv =>
        intro i hi hu
        subst hu
        unfold succ_edge at huv
        rw [hc.out i hi] at huv
        by_cases h : i + 1 < n
        · simp only [h, if_true, List.mem_singleton] at huv
          exact ⟨i + 1, by omega, h, huv⟩
        · simp [h] at huv
      | tail _ hbc ih =>
        intro i hi hu
        obtain ⟨j, hij, hj, hb⟩ := ih i hi hu
        subst hb
        unfold succ_edge at hbc
        rw [hc.out j hj] at hbc
        by_cases h : j + 1 < n
        · simp only [h, if_true, List.mem_singleton] at hbc
          exact ⟨j + 1, by omega, h, hbc⟩
        · simp [h] at hbc
    intro u hu hcyc
    obtain ⟨i, hi, rfl⟩ := (mem_chain_nodes a n u).mp hu
    obtain ⟨j, hij, hj, hb⟩ := key _ _ hcyc i hi rfl
    have := hc.inj i j hi hj hb
    omega

theorem IsChain.twoTerminal {α : Type} {ops : FAOOps α} {s : FAO_DAG α} {a : Nat → Nat}
    {n : Nat} (hc : IsChain ops s a n) : TwoTerminalDAG s (chain_nodes a n) := by
  have hpos := hc.pos
  refine ⟨hc.wellFormed, ?_, ?_⟩
  · unfold Reachable
    simp only [if_true]
    refine ⟨(mem_chain_nodes a n _).mpr ⟨0, hpos, hc.entry.symm⟩, ?_⟩
    intro v hv
    obtain ⟨i, hi, rfl⟩ := (mem_chain_nodes a n v).mp hv
    rw [hc.entry]
    clear hv
    induction i with
    | zero => exact Relation.ReflTransGen.refl
    | succ i ih =>
      refine Relation.ReflTransGen.tail (ih (by omega)) ?_
      unfold succ_edge
      rw [(hc.link i hi).1]
      simp
  · unfold Reachable
    simp only [Bool.false_eq_true, if_false]
    refine ⟨(mem_chain_nodes a n _).mpr ⟨n - 1, by omega, hc.exit.symm⟩, ?_⟩
    intro v hv
    obtain ⟨i, hi, rfl⟩ := (mem_chain_nodes a n v).mp hv
    rw [hc.exit]
    have key : ∀ k i, i + k = n - 1 → Reach s.heap (a i) (a (n - 1)) := by
      intro k
      induction k with
      | zero =>
        intro i h
        have : i = n - 1 := by omega
        rw [this]
        exact Relation.ReflTransGen.refl
      | succ k ih =>
        intro i h
        refine Relation.ReflTransGen.head ?_ (ih (i + 1) (by omega))
        unfold succ_edge
        rw [(hc.link i (by omega)).1]
        simp
    exact key (n - 1 - i) i (by omega)

theorem IsChain.edge {α : Type} {ops : FAOOps α} {s : FAO_DAG α} {a : Nat → Nat} {n : Nat}
    (hc : IsChain ops s a n) (i : Nat) (hi : i + 1 < n) :
    edge_target s.heap (a i) 0 = a (i + 1) ∧ edge_src_offset s.heap (a i) 0 = 0 ∧
    edge_dst_offset s.heap (a i) 0 = 0 ∧
    edge_len ops s.heap (a i) 0 = (s.heap (a i)).output_data.length ∧
    (s.heap (a (i + 1))).input_data.length = (s.heap (a i)).output_data.length := by
  obtain ⟨l1, l2, l3, l4, l5, l6, l7⟩ := hc.link i hi
  have ht : edge_target s.heap (a i) 0 = a (i + 1) := by
    unfold edge_target; rw [l1]; rfl
  refine ⟨ht, ?_, ?_, l5, l7⟩
  · unfold edge_src_offset; rw [ht]; exact l3
  · unfold edge_dst_offset; rw [ht]; exact l4

theorem IsChain.pred_edge {α : Type} {ops : FAOOps α} {s : FAO_DAG α} {a : Nat → Nat}
    {n : Nat} (hc : IsChain ops s a n) (i : Nat) (hi : i + 1 < n) :
    pred_target s.heap (a (i + 1)) 0 = a i ∧ pred_src_offset s.heap (a (i + 1)) 0 = 0 ∧
    pred_dst_offset s.heap (a (i + 1)) 0 = 0 ∧
    pred_len ops s.heap (a (i + 1)) 0 = (s.heap (a (i + 1))).input_data.length ∧
    (s.heap (a (i + 1))).input_data.length = (s.heap (a i)).output_data.length := by
  obtain ⟨l1, l2, l3, l4, l5, l6, l7⟩ := hc.link i hi
  have ht : pred_target s.heap (a (i + 1)) 0 = a i := by
    unfold pred_target; rw [l2]; rfl
  refine ⟨ht, ?_, ?_, l6, l7⟩
  · unfold pred_src_offset; rw [ht]; exact l4
  · unfold pred_dst_offset; rw [ht]; exact l3

theorem IsChain.out_index {α : Type} {ops : FAOOps α} {s : FAO_DAG α} {a : Nat → Nat}
    {n : Nat} (hc : IsChain ops s a n) (i : Nat) (hi : i < n) (j : Nat)
    (hj : j < (s.heap (a i)).output_nodes.length) : j = 0 ∧ i + 1 < n := by
  rw [hc.out i hi] at hj
  by_cases h : i + 1 < n
  · simp only [h, if_true, List.length_singleton] at hj
    exact ⟨by omega, h⟩
  · simp [h] at hj

theorem IsChain.inp_index {α : Type} {ops : FAOOps α} {s : FAO_DAG α} {a : Nat → Nat}
    {n : Nat} (hc : IsChain ops s a n) (i : Nat) (hi : i < n) (j : Nat)
    (hj : j < (s.heap (a i)).input_nodes.length) : j = 0 ∧ 0 < i := by
  rw [hc.inp i hi] at hj
  by_cases h : 0 < i
  · simp only [h, if_true, List.length_singleton] at hj
    exact ⟨by omega, h⟩
  · simp [h] at hj

theorem IsChain.slicesInBounds {α : Type} {ops : FAOOps α} {s : FAO_DAG α} {a : Nat → Nat}
    {n : Nat} (hc : IsChain ops s a n) : SlicesInBounds ops s.heap (chain_nodes a n) := by
  intro u hu j hj
  obtain ⟨i, hi, rfl⟩ := (mem_chain_nodes a n u).mp hu
  obtain ⟨rfl, h⟩ := hc.out_index i hi j hj
  obtain ⟨e1, e2, e3, e4, e5⟩ := hc.edge i h
  rw [e1, e2, e3, e4, e5]
  omega

theorem IsChain.incomingDisjoint {α : Type} {ops : FAOOps α} {s : FAO_DAG α}
    {a : Nat → Nat} {n : Nat} (hc : IsChain ops s a n) :
    IncomingDisjoint ops s.heap (chain_nodes a n) := by
  intro u hu j hj u' hu' j' hj' hne ht
  exfalso
  obtain ⟨i, hi, rfl⟩ := (mem_chain_nodes a n u).mp hu
  obtain ⟨i', hi', rfl⟩ := (mem_chain_nodes a n u').mp hu'
  obtain ⟨rfl, h⟩ := hc.out_index i hi j hj
  obtain ⟨rfl, h'⟩ := hc.out_index i' hi' j' hj'
  rw [(hc.edge i h).1, (hc.edge i' h').1] at ht
  have := hc.inj _ _ h h' ht
  have e : i = i' := by omega
  subst e
  exact hne rfl

theorem IsChain.adjointSlicesInBounds {α : Type} {ops : FAOOps α} {s : FAO_DAG α}
    {a : Nat → Nat} {n : Nat} (hc : IsChain ops s a n) :
    AdjointSlicesInBounds ops s.heap (chain_nodes a n) := by
  intro u hu j hj
  obtain ⟨i, hi, rfl⟩ := (mem_chain_nodes a n u).mp hu
  obtain ⟨rfl, h⟩ := hc.inp_index i hi j hj
  obtain ⟨k, rfl⟩ : ∃ k, i = k + 1 := ⟨i - 1, by omega⟩
  obtain ⟨e1, e2, e3, e4, e5⟩ := hc.pred_edge k hi
  rw [e1, e2, e3, e4, e5]
  omega

theorem IsChain.outgoingDisjoint {α : Type} {ops : FAOOps α} {s : FAO_DAG α}
    {a : Nat → Nat} {n : Nat} (hc : IsChain ops s a n) :
    OutgoingDisjoint ops s.heap (chain_nodes a n) := by
  intro u hu j hj u' hu' j' hj' hne ht
  exfalso
  obtain ⟨i, hi, rfl⟩ := (mem_chain_nodes a n u).mp hu
  obtain ⟨i', hi', rfl⟩ := (mem_chain_nodes a n u').mp hu'
  obtain ⟨rfl, h⟩ := hc.inp_index i hi j hj
  obtain ⟨rfl, h'⟩ := hc.inp_index i' hi' j' hj'
  obtain ⟨k, rfl⟩ : ∃ k, i = k + 1 := ⟨i - 1, by omega⟩
  obtain ⟨k', rfl⟩ : ∃ k, i' = k + 1 := ⟨i' - 1, by omega⟩
  rw [(hc.pred_edge k hi).1, (hc.pred_edge k' hi').1] at ht
  have := hc.inj _ _ (by omega) (by omega) ht
  subst this
  exact hne rfl

theorem subvec_full {α : Type} (l : List α) : subvec l 0 l.length = l := by
  simp [subvec]

/-- The forward pass on a linear chain: the exit node's output buffer ends up holding
the composition of the node operations applied to the entry node's input buffer. -/
theorem chain_forward_spec {α : Type} (ops : FAOOps α) (F : Nat → List α → List α)
    (s : FAO_DAG α) (a : Nat → Nat) (n : Nat) (hc : IsChain ops s a n)
    (hpure : ∀ i, i < n → ∀ inp out, ops.forward_eval (a i) inp out = F (a i) inp)
    (hFlen : ∀ i, i < n → ∀ inp, inp.length = (s.heap (a i)).input_data.length →
      (F (a i) inp).length = (s.heap (a i)).output_data.length)
    (hem : s.eval_map = map_clear) (hq : s.ready_queue = [])
    (fuel : Nat) (hfuel : n < fuel) :
    ∃ s', forward_eval ops fuel s = some s' ∧
      s'.ready_queue = [] ∧ s'.eval_map = map_clear ∧
      s'.start_node = s.start_node ∧ s'.end_node = s.end_node ∧
      SameStatic s.heap s'.heap ∧ SameLengths s.heap s'.heap ∧
      (s'.heap (a (n - 1))).output_data
        = (List.range n).foldl (fun acc i => F (a i) acc) (s.heap (a 0)).input_data := by
  have hlenn : (chain_nodes a n).length = n := by simp [chain_nodes]
  obtain ⟨s', h1, h2, h3, h4, h5, hst, hlen, hframe, hnode, hedge⟩ :=
    forward_eval_spec ops F s (chain_nodes a n) hc.twoTerminal
      (fun u hu => by
        obtain ⟨i, hi, rfl⟩ := (mem_chain_nodes a n u).mp hu
        exact hpure i hi)
      (fun u hu => by
        obtain ⟨i, hi, rfl⟩ := (mem_chain_nodes a n u).mp hu
        exact hFlen i hi)
      hc.slicesInBounds hc.incomingDisjoint hem hq fuel (by rw [hlenn]; exact hfuel)
  refine ⟨s', h1, h2, h3, h4, h5, hst, hlen, ?_⟩
  have hin0 : (s'.heap (a 0)).input_data = (s.heap (a 0)).input_data := by
    apply hframe
    intro u hu hmem
    obtain ⟨i, hi, rfl⟩ := (mem_chain_nodes a n u).mp hu
    rw [hc.out i hi] at hmem
    by_cases h : i + 1 < n
    · simp only [h, if_true, List.mem_singleton] at hmem
      have := hc.inj 0 (i + 1) hc.pos h hmem
      omega
    · simp [h] at hmem
  have hstep : ∀ i, i + 1 < n →
      (s'.heap (a (i + 1))).input_data = (s'.heap (a i)).output_data := by
    intro i hi
    have hu : a i ∈ chain_nodes a n := (mem_chain_nodes a n _).mpr ⟨i, by omega, rfl⟩
    have hdeg : 0 < (s.heap (a i)).output_nodes.length := by
      rw [hc.out i (by omega)]; simp [hi]
    have := hedge (a i) hu 0 hdeg
    unfold EdgeOK at this
    obtain ⟨e1, e2, e3, e4, e5⟩ := hc.edge i hi
    rw [e1, e2, e3, e4] at this
    have l1 : (s.heap (a i)).output_data.length = (s'.heap (a i)).output_data.length :=
      ((hlen (a i)).2).symm
    have l2 : (s.heap (a i)).output_data.length = (s'.heap (a (i + 1))).input_data.length := by
      rw [(hlen (a (i + 1))).1, e5]
    have t1 := this
    rw [l1, subvec_full] at t1
    rw [← t1, ← l1, l2, subvec_full]
  have key : ∀ i, i < n → (s'.heap (a i)).output_data
      = (List.range (i + 1)).foldl (fun acc j => F (a j) acc) (s.heap (a 0)).input_data := by
    intro i
    induction i with
    | zero =>
      intro hi
      rw [hnode (a 0) ((mem_chain_nodes a n _).mpr ⟨0, hi, rfl⟩), hin0]
      rfl
    | succ i ih =>
      intro hi
      rw [hnode (a (i + 1)) ((mem_chain_nodes a n _).mpr ⟨i + 1, hi, rfl⟩), hstep i hi,
        ih (by omega), List.range_succ (i + 1), List.foldl_append]
      rfl
  have := key (n - 1) (by have := hc.pos; omega)
  have e : n - 1 + 1 = n := by have := hc.pos; omega
  rw [e] at this
  exact this

/-- The adjoint pass on a linear chain: the entry node's input buffer ends up holding
the composition of the adjoint operations, last node first, applied to the exit
node's output buffer. -/
theorem chain_adjoint_spec {α : Type} (ops : FAOOps α) (Fs : Nat → List α → List α)
    (s : FAO_DAG α) (a : Nat → Nat) (n : Nat) (hc : IsChain ops s a n)
    (hpure : ∀ i, i < n → ∀ out inp, ops.adjoint_eval (a i) out inp = Fs (a i) out)
    (hFlen : ∀ i, i < n → ∀ out, out.length = (s.heap (a i)).output_data.length →
      (Fs (a i) out).length = (s.heap (a i)).input_data.length)
    (hem : s.eval_map = map_clear) (hq : s.ready_queue = [])
    (fuel : Nat) (hfuel : n < fuel) :
    ∃ s', adjoint_eval ops fuel s = some s' ∧
      s'.ready_queue = [] ∧ s'.eval_map = map_clear ∧
      s'.start_node = s.start_node ∧ s'.end_node = s.end_node ∧
      SameStatic s.heap s'.heap ∧ SameLengths s.heap s'.heap ∧
      (s'.heap (a 0)).input_data
        = (List.range n).foldr (fun i acc => Fs (a i) acc)
            (s.heap (a (n - 1))).output_data := by
  have hpos := hc.pos
  have hlenn : (chain_nodes a n).length = n := by simp [chain_nodes]
  obtain ⟨s', h1, h2, h3, h4, h5, hst, hlen, hframe, hnode, hedge⟩ :=
    adjoint_eval_spec ops Fs s (chain_nodes a n) hc.twoTerminal
      (fun u hu => by
        obtain ⟨i, hi, rfl⟩ := (mem_chain_nodes a n u).mp hu
        exact hpure i hi)
      (fun u hu => by
        obtain ⟨i, hi, rfl⟩ := (mem_chain_nodes a n u).mp hu
        exact hFlen i hi)
      hc.adjointSlicesInBounds hc.outgoingDisjoint hem hq fuel (by rw [hlenn]; exact hfuel)
  refine ⟨s', h1, h2, h3, h4, h5, hst, hlen, ?_⟩
  have hout : (s'.heap (a (n - 1))).output_data = (s.heap (a (n - 1))).output_data := by
    apply hframe
    intro u hu hmem
    obtain ⟨i, hi, rfl⟩ := (mem_chain_nodes a n u).mp hu
    rw [hc.inp i hi] at hmem
    by_cases h : 0 < i
    · simp only [h, if_true, List.mem_singleton] at hmem
      have := hc.inj (n - 1) (i - 1) (by omega) (by omega) hmem
      omega
    · simp [h] at hmem
  have hstep : ∀ i, i + 1 < n →
      (s'.heap (a i)).output_data = (s'.heap (a (i + 1))).input_data := by
    intro i hi
    have hu : a (i + 1) ∈ chain_nodes a n := (mem_chain_nodes a n _).mpr ⟨i + 1, hi, rfl⟩
    have hdeg : 0 < (s.heap (a (i + 1))).input_nodes.length := by
      rw [hc.inp (i + 1) hi]; simp
    have := hedge (a (i + 1)) hu 0 hdeg
    obtain ⟨e1, e2, e3, e4, e5⟩ := hc.pred_edge i hi
    rw [e1, e2, e3, e4] at this
    have l1 : (s.heap (a (i + 1))).input_data.length
        = (s'.heap (a (i + 1))).input_data.length := ((hlen (a (i + 1))).1).symm
    have l2 : (s.heap (a (i + 1))).input_data.length
        = (s'.heap (a i)).output_data.length := by
      rw [(hlen (a i)).2, e5]
    have t1 := this
    rw [l1, subvec_full] at t1
    rw [← t1, ← l1, l2, subvec_full]
  have key : ∀ k i, i + k = n - 1 → (s'.heap (a i)).input_data
      = (List.range' i (k + 1)).foldr (fun j acc => Fs (a j) acc)
          (s.heap (a (n - 1))).output_data := by
    intro k
    induction k with
    | zero =>
      intro i hi
      have e : i = n - 1 := by omega
      subst e
      rw [hnode (a (n - 1)) ((mem_chain_nodes a n _).mpr ⟨n - 1, by omega, rfl⟩), hout]
      rfl
    | succ k ih =>
      intro i hi
      rw [hnode (a i) ((mem_chain_nodes a n _).mpr ⟨i, by omega, rfl⟩), hstep i (by omega),
        ih (i + 1) (by omega)]
      rfl
  have := key (n - 1) 0 (by omega)
  have e : n - 1 + 1 = n := by omega
  rw [e, ← List.range_eq_range'] at this
  exact this

theorem chain3_isChain : IsChain (scale_ops (fun _ => (2 : Int))) chain3_dag (fun i => i) 3 := by
  refine ⟨by decide, fun _ _ _ _ h => h, rfl, rfl, rfl, rfl, ?_⟩
  intro i hi
  have : i = 0 ∨ i = 1 := by omega
  rcases this with rfl | rfl
  · exact ⟨rfl, rfl, rfl, rfl, rfl, rfl, rfl⟩
  · exact ⟨rfl, rfl, rfl, rfl, rfl, rfl, rfl⟩

theorem IsChain.congr {α : Type} {ops : FAOOps α} {s t : FAO_DAG α} {a : Nat → Nat}
    {n : Nat} (hc : IsChain ops s a n) (hst : SameStatic s.heap t.heap)
    (hlen : SameLengths s.heap t.heap) (h1 : t.start_node = s.start_node)
    (h2 : t.end_node = s.end_node) : IsChain ops t a n := by
  refine ⟨hc.pos, hc.inj, h1.trans hc.entry, h2.trans hc.exit, ?_, ?_, ?_⟩
  · rw [(hst _).1]; exact hc.entry_in
  · rw [(hst _).2.1]; exact hc.exit_out
  · intro i hi
    obtain ⟨l1, l2, l3, l4, l5, l6, l7⟩ := hc.link i hi
    refine ⟨?_, ?_, ?_, ?_, ?_, ?_, ?_⟩
    · rw [(hst _).2.1]; exact l1
    · rw [(hst _).1]; exact l2
    · rw [(hst _).2.2.2.2.2]; exact l3
    · rw [(hst _).2.2.2.2.1]; exact l4
    · rw [(hst _).2.2.2.1, (hlen _).2]; exact l5
    · rw [(hst _).2.2.1, (hlen _).1]; exact l6
    · rw [(hlen _).1, (hlen _).2]; exact l7

theorem vec_write_static {α : Type} (h : Heap α) (r : VecPtr) (v : List α)
    (hv : v.length = (vec_read h r).length) :
    SameStatic h (vec_write h r v) ∧ SameLengths h (vec_write h r v) := by
  cases r with
  | input_data p =>
    simp only [vec_read] at hv
    constructor
    · intro q
      by_cases hq : q = p
      · subst hq; simp [vec_write, heap_set]
      · simp [vec_write, heap_set, hq]
    · intro q
      by_cases hq : q = p
      · subst hq; simp [vec_write, heap_set, hv]
      · simp [vec_write, heap_set, hq]
  | output_data p =>
    simp only [vec_read] at hv
    constructor
    · intro q
      by_cases hq : q = p
      · subst hq; simp [vec_write, heap_set]
      · simp [vec_write, heap_set, hq]
    · intro q
      by_cases hq : q = p
      · subst hq; simp [vec_write, heap_set, hv]
      · simp [vec_write, heap_set, hq]

theorem copy_input_ok {α : Type} (ndebug : Bool) (s : FAO_DAG α) (x : List α)
    (forward : Bool)
    (hx : x.length = (vec_read s.heap
      (if forward then get_forward_input s else get_adjoint_input s)).length) :
    (copy_input ndebug s x forward).1 = .ok () ∧
    (copy_input ndebug s x forward).2.ready_queue = s.ready_queue ∧
    (copy_input ndebug s x forward).2.eval_map = s.eval_map ∧
    (copy_input ndebug s x forward).2.start_node = s.start_node ∧
    (copy_input ndebug s x forward).2.end_node = s.end_node ∧
    SameStatic s.heap (copy_input ndebug s x forward).2.heap ∧
    SameLengths s.heap (copy_input ndebug s x forward).2.heap ∧
    vec_read (copy_input ndebug s x forward).2.heap
      (if forward then get_forward_input s else get_adjoint_input s) = x := by
  unfold copy_input
  simp only [hx, ne_eq, not_true_eq_false, and_false, if_false]
  rw [vector_memcpy_eq _ _ hx]
  obtain ⟨w1, w2⟩ := vec_write_static s.heap
    (if forward then get_forward_input s else get_adjoint_input s) x hx
  exact ⟨trivial, trivial, trivial, trivial, trivial, w1, w2, vec_read_write _ _ _⟩

theorem copy_output_ok {α : Type} (ndebug : Bool) (s : FAO_DAG α) (out : List α)
    (forward : Bool)
    (hout : out.length = (vec_read s.heap
      (if forward then get_forward_output s else get_adjoint_output s)).length) :
    copy_output ndebug s out forward = (.ok (), vec_read s.heap
      (if forward then get_forward_output s else get_adjoint_output s), s) := by
  unfold copy_output
  simp only [hout, ne_eq, not_true_eq_false, and_false, if_false]
  rw [vector_memcpy_eq _ _ hout.symm]

theorem foldl_scale {α : Type} [CommMonoid α] (c : Nat → α) (l : List Nat) :
    ∀ x : List α, l.foldl (fun acc i => acc.map (fun v => c i * v)) x
      = x.map (fun v => v * (l.map c).prod) := by
  induction l with
  | nil => intro x; simp
  | cons i l ih =>
    intro x
    simp only [List.foldl_cons, List.map_cons, List.prod_cons]
    rw [ih, List.map_map]
    apply List.map_congr_left
    intro v _
    simp only [Function.comp]
    rw [mul_comm (c i) v, mul_assoc]

theorem foldr_scale {α : Type} [CommMonoid α] (c : Nat → α) (l : List Nat) (x : List α) :
    l.foldr (fun i acc => acc.map (fun v => c i * v)) x
      = x.map (fun v => v * (l.map c).prod) := by
  induction l with
  | nil => simp
  | cons i l ih =>
    simp only [List.foldr_cons, List.map_cons, List.prod_cons]
    rw [ih, List.map_map]
    apply List.map_congr_left
    intro v _
    simp only [Function.comp]
    rw [mul_left_comm]

/-- Forward evaluation of three chained doubling nodes on the input 1. -/
theorem chain3_forward_value :
    (forward_eval (scale_ops (fun _ => (2 : Int))) 4 (copy_input false chain3_dag [1] true).2).map
      (fun s => (copy_output false s [0] true).2.1) = some [8] := by
  decide

/-! ### The scheduler on arbitrary finite graphs -/

theorem traverse_children_sublist {α : Type} (forward : Bool) (l : List Nat) :
    ∀ s : FAO_DAG α, (traverse_children forward l s).2.Sublist l := by
  induction l with
  | nil => intro s; simp [traverse_children]
  | cons v l ih =>
    intro s
    simp only [traverse_children]
    split
    · exact (ih _).cons₂ v
    · exact (ih _).cons v

theorem traverse_visit_sublist {α : Type} (node_fn : Nat → Heap α → Heap α) (forward : Bool)
    (s : FAO_DAG α) (x : Nat) (rest : List Nat) (hfn : PreservesTopology node_fn) :
    (traverse_visit node_fn forward s x rest).2.Sublist (children forward (s.heap x)) := by
  have h := traverse_children_sublist forward
    (if forward = true then (node_fn x s.heap x).output_nodes
      else (node_fn x s.heap x).input_nodes)
    ({ start_node := s.start_node, end_node := s.end_node, ready_queue := rest,
       eval_map := map_incr s.eval_map x, heap := node_fn x s.heap } : FAO_DAG α)
  have hl : (if forward = true then (node_fn x s.heap x).output_nodes
      else (node_fn x s.heap x).input_nodes) = children forward (s.heap x) := by
    unfold children; rw [(hfn x s.heap x).1, (hfn x s.heap x).2]
  unfold traverse_visit
  dsimp only
  rw [hl] at h ⊢
  exact h

/-- The loop of the scheduler keeps any property of the visited nodes, the pushed
nodes, the queue and the counters that one visit keeps, and returns when that
property bounds the number of nodes visited or waiting. -/
theorem traverse_loop_invariant {α : Type} (node_fn : Nat → Heap α → Heap α) (forward : Bool)
    (hfn : PreservesTopology node_fn) {ch pa : Nat → List Nat}
    (J : List Nat → List Nat → List Nat → (Nat → Nat) → Prop) (B : Nat)
    (hB : ∀ V Pd q c, J V Pd q c → (V ++ q).length ≤ B)
    (hstep : ∀ (V Pd : List Nat) (x : Nat) (rest P : List Nat) (c c1 : Nat → Nat),
      J V Pd (x :: rest) c → P.Nodup → P.Sublist (ch x) →
      (∀ w, w ∈ P ↔ c w + (if w = x then 1 else 0) < (pa w).length ∧
        (pa w).length ≤ c w + (if w = x then 1 else 0) + (ch x).count w) →
      (∀ w, c1 w = c w + (if w = x then 1 else 0) + (ch x).count w) →
      J (V ++ [x]) (Pd ++ P) (rest ++ P) c1) :
    ∀ (fuel : Nat) (V Pd : List Nat) (s : FAO_DAG α),
      (∀ v, children forward (s.heap v) = ch v ∧ parents forward (s.heap v) = pa v) →
      J V Pd s.ready_queue (map_get s.eval_map) →
      B < fuel + V.length →
      ∃ s' log, traverse_loop node_fn forward fuel s = some (s', log) ∧
        J (V ++ visited log) (Pd ++ pushed log) [] (map_get s'.eval_map) ∧
        s'.ready_queue = [] ∧ s'.start_node = s.start_node ∧ s'.end_node = s.end_node ∧
        s'.heap = (visited log).foldl (fun h u => node_fn u h) s.heap ∧
        (∀ e ∈ log, e.2.Sublist (ch e.1)) := by
  intro fuel
  induction fuel with
  | zero =>
    intro V Pd s _ hJ hlt
    have := hB _ _ _ _ hJ
    simp at this hlt
    omega
  | succ fuel ih =>
    intro V Pd s htopo hJ hlt
    cases hq : s.ready_queue with
    | nil =>
      refine ⟨s, [], ?_, ?_, hq, rfl, rfl, rfl, ?_⟩
      · simp [traverse_loop, hq]
      · rw [hq] at hJ
        simpa [visited, pushed] using hJ
      · intro e he; simp at he
    | cons x rest =>
      rw [hq] at hJ
      obtain ⟨h1, h2, h3, h4, h5, h6, h7⟩ := traverse_visit_spec node_fn forward s x rest hfn
      have h8 := traverse_visit_sublist node_fn forward s x rest hfn
      simp only [(htopo _).1, (htopo _).2] at h5 h7 h8
      have hJ1 := hstep V Pd x rest _ _ _ hJ h6 h8 h7 h5
      have htopo1 : ∀ v, children forward ((traverse_visit node_fn forward s x rest).1.heap v)
          = ch v ∧ parents forward ((traverse_visit node_fn forward s x rest).1.heap v) = pa v := by
        intro v
        rw [h1]
        unfold children parents
        rw [(hfn x s.heap v).1, (hfn x s.heap v).2]
        exact htopo v
      rw [← h4] at hJ1
      obtain ⟨s', log, e1, e2, e3, e4, e5, e6, e7⟩ :=
        ih (V ++ [x]) (Pd ++ (traverse_visit node_fn forward s x rest).2)
          (traverse_visit node_fn forward s x rest).1 htopo1 hJ1 (by simp; omega)
      refine ⟨s', (x, (traverse_visit node_fn forward s x rest).2) :: log, ?_, ?_, e3,
        by rw [e4, h2], by rw [e5, h3], ?_, ?_⟩
      · simp [traverse_loop, hq, e1]
      · simpa [visited, pushed] using e2
      · rw [e6, h1]; simp [visited]
      · intro e he
        rcases List.mem_cons.mp he with rfl | he
        · exact h8
        · exact e7 e he

theorem genInv_length_le {pa : Nat → List Nat} {nodes : List Nat} {start : Nat}
    {V Pd q : List Nat} {c : Nat → Nat} (hI : GenInv pa nodes start V Pd q c) :
    (V ++ q).length ≤ nodes.length + 1 := by
  rw [← hI.fifo, List.length_cons]
  have := (List.subperm_of_subset hI.nodup hI.mem).length_le
  omega

theorem genInv_step {ch pa : Nat → List Nat} {nodes : List Nat} {start : Nat}
    (hstart : start ∈ nodes) (hclosed : ∀ u ∈ nodes, ∀ v ∈ ch u, v ∈ nodes)
    {V Pd rest P : List Nat} {x : Nat} {c c1 : Nat → Nat}
    (hI : GenInv pa nodes start V Pd (x :: rest) c)
    (hP : P.Nodup)
    (hmem : ∀ w, w ∈ P ↔ c w + (if w = x then 1 else 0) < (pa w).length ∧
      (pa w).length ≤ c w + (if w = x then 1 else 0) + (ch x).count w)
    (hc1 : ∀ w, c1 w = c w + (if w = x then 1 else 0) + (ch x).count w) :
    GenInv pa nodes start (V ++ [x]) (Pd ++ P) (rest ++ P) c1 := by
  have hxmem : x ∈ start :: Pd := by rw [hI.fifo]; simp
  have hxn : x ∈ nodes := by
    rcases List.mem_cons.mp hxmem with rfl | h
    · exact hstart
    · exact hI.mem x h
  have hfirst : V = [] → x = start := by
    intro hV
    have := hI.fifo
    rw [hV] at this
    simp only [List.nil_append, List.cons.injEq] at this
    exact this.1.symm
  have hs1 : 1 ≤ c start + (if start = x then 1 else 0) := by
    by_cases hV : V = []
    · rw [if_pos (hfirst hV).symm]; omega
    · have := hI.started hV; omega
  refine ⟨?_, ?_, ?_, ?_, ?_, ?_⟩
  · have := hI.fifo
    calc start :: (Pd ++ P) = (start :: Pd) ++ P := by simp
      _ = (V ++ x :: rest) ++ P := by rw [this]
      _ = V ++ [x] ++ (rest ++ P) := by simp
  · rw [List.nodup_append]
    refine ⟨hI.nodup, hP, ?_⟩
    intro w hw hwP
    have h1 := hI.reached w hw
    have h2 := (hmem w).mp hwP
    omega
  · intro w hw
    rcases List.mem_append.mp hw with h | h
    · exact hI.mem w h
    · have h2 := (hmem w).mp h
      have : 0 < (ch x).count w := by omega
      exact hclosed x hxn w (List.count_pos_iff.mp this)
  · intro w hw
    rw [hc1]
    rcases List.mem_append.mp hw with h | h
    · have := hI.reached w h; omega
    · exact ((hmem w).mp h).2
  · intro _
    rw [hc1]; omega
  · intro hw
    rcases List.mem_append.mp hw with h | h
    · exact hI.twice h
    · have h2 := (hmem start).mp h
      omega

theorem FiniteGraph.start_of_mem {α : Type} {s : FAO_DAG α} {nodes : List Nat}
    (h : FiniteGraph s nodes) (forward : Bool) : start_of forward s ∈ nodes := by
  cases forward
  · exact h.end_mem
  · exact h.start_mem

theorem FiniteGraph.closed {α : Type} {s : FAO_DAG α} {nodes : List Nat}
    (h : FiniteGraph s nodes) (forward : Bool) :
    ∀ u ∈ nodes, ∀ v ∈ children forward (s.heap u), v ∈ nodes := by
  cases forward
  · exact h.closed_in
  · exact h.closed_out

/-- The scheduler on an arbitrary finite graph, cyclic or not, whatever the counters
hold at the call: it returns after at most one visit per node and one more for the
start node; the nodes are visited in the order in which they were pushed, and a node
is pushed by the loop at most once. -/
theorem traverse_graph_general {α : Type} (node_fn : Nat → Heap α → Heap α) (forward : Bool)
    (s : FAO_DAG α) (nodes : List Nat)
    (hstart : start_of forward s ∈ nodes)
    (hclosed : ∀ u ∈ nodes, ∀ v ∈ children forward (s.heap u), v ∈ nodes)
    (hfn : PreservesTopology node_fn) (hq : s.ready_queue = [])
    (fuel : Nat) (hfuel : nodes.length + 1 < fuel) :
    ∃ s' log, traverse_graph node_fn forward fuel s = some (s', log) ∧
      start_of forward s :: pushed log = visited log ∧
      (pushed log).Nodup ∧ (∀ v ∈ pushed log, v ∈ nodes) ∧
      (start_of forward s ∈ pushed log →
        2 ≤ (parents forward (s.heap (start_of forward s))).length) ∧
      (∀ e ∈ log, e.2.Sublist (children forward (s.heap e.1))) ∧
      s'.heap = (visited log).foldl (fun h u => node_fn u h) s.heap ∧
      s'.ready_queue = [] ∧ s'.eval_map = map_clear ∧
      s'.start_node = s.start_node ∧ s'.end_node = s.end_node := by
  have hI0 : GenInv (fun u => parents forward (s.heap u)) nodes (start_of forward s) [] []
      [start_of forward s] (map_get s.eval_map) :=
    ⟨rfl, List.nodup_nil, fun _ h => absurd h (List.not_mem_nil _),
      fun _ h => absurd h (List.not_mem_nil _), fun h => absurd rfl h,
      fun h => absurd h (List.not_mem_nil _)⟩
  obtain ⟨s', log, e1, e2, e3, e4, e5, e6, e7⟩ :=
    traverse_loop_invariant node_fn forward hfn
      (fun V Pd q c => GenInv (fun u => parents forward (s.heap u)) nodes
        (start_of forward s) V Pd q c) (nodes.length + 1)
      (fun _ _ _ _ h => genInv_length_le h)
      (fun _ _ _ _ _ _ _ hJ hP _ hmem hc1 => genInv_step hstart hclosed hJ hP hmem hc1)
      fuel [] []
      ({ s with ready_queue := s.ready_queue ++ [start_of forward s] })
      (fun v => ⟨rfl, rfl⟩) (by simpa [hq] using hI0) (by simpa using hfuel)
  simp only [List.nil_append] at e2
  refine ⟨{ s' with eval_map := map_clear }, log, ?_, ?_, e2.nodup, e2.mem, e2.twice, e7, e6,
    e3, rfl, e4, e5⟩
  · unfold traverse_graph
    unfold start_of at e1
    simp only [e1]
  · simpa using e2.fifo

theorem two_cycle_finite : FiniteGraph two_cycle_dag [0, 1] :=
  ⟨by decide, by decide, by decide, by decide, by decide⟩

/-- The scheduler run forward on the cycle 0 -> 1 -> 0 from the node 0: the start node
is pushed unconditionally, node 1 reaches its threshold 1, and the counter of node 0
is 2 when it is compared with the threshold 1. Both nodes are visited. -/
theorem two_cycle_log :
    (traverse_graph skip_fn true 4 two_cycle_dag).map Prod.snd = some [(0, [1]), (1, [])] := by
  decide

theorem foldl_preservesTopology {α : Type} {node_fn : Nat → Heap α → Heap α}
    (hfn : PreservesTopology node_fn) (vs : List Nat) :
    ∀ (h : Heap α) (v : Nat),
      ((vs.foldl (fun h u => node_fn u h) h) v).input_nodes = (h v).input_nodes ∧
      ((vs.foldl (fun h u => node_fn u h) h) v).output_nodes = (h v).output_nodes := by
  induction vs with
  | nil => intro h v; exact ⟨rfl, rfl⟩
  | cons x vs ih =>
    intro h v
    simp only [List.foldl_cons]
    obtain ⟨a1, a2⟩ := ih (node_fn x h) v
    obtain ⟨b1, b2⟩ := hfn x h v
    exact ⟨a1.trans b1, a2.trans b2⟩

theorem finiteGraph_congr {α : Type} {s t : FAO_DAG α} {nodes : List Nat}
    (h : FiniteGraph s nodes) (hst : t.start_node = s.start_node)
    (hen : t.end_node = s.end_node)
    (htopo : ∀ v, (t.heap v).input_nodes = (s.heap v).input_nodes ∧
      (t.heap v).output_nodes = (s.heap v).output_nodes) :
    FiniteGraph t nodes := by
  refine ⟨h.nodup, hst ▸ h.start_mem, hen ▸ h.end_mem, ?_, ?_⟩
  · intro u hu v hv
    rw [(htopo u).2] at hv
    exact h.closed_out u hu v hv
  · intro v hv u hu
    rw [(htopo v).1] at hu
    exact h.closed_in v hv u hu

/-- Any number of traversals of a finite graph return, and leave the scheduler as it
was at construction: no counter, nothing queued, the same graph. -/
theorem run_traversals_spec {α : Type} (nodes : List Nat) (fuel : Nat)
    (hfuel : nodes.length + 1 < fuel) :
    ∀ (prev : List ((Nat → Heap α → Heap α) × Bool)) (s : FAO_DAG α),
      FiniteGraph s nodes → (∀ p ∈ prev, PreservesTopology p.1) →
      s.eval_map = map_clear → s.ready_queue = [] →
      ∃ t, run_traversals fuel prev s = some t ∧
        t.eval_map = map_clear ∧ t.ready_queue = [] ∧
        t.start_node = s.start_node ∧ t.end_node = s.end_node ∧
        ∀ v, (t.heap v).input_nodes = (s.heap v).input_nodes ∧
          (t.heap v).output_nodes = (s.heap v).output_nodes := by
  intro prev
  induction prev with
  | nil =>
    intro s _ _ hem hq
    exact ⟨s, rfl, hem, hq, rfl, rfl, fun _ => ⟨rfl, rfl⟩⟩
  | cons p prev ih =>
    intro s hfin hprev _ hq
    have hp : PreservesTopology p.1 := hprev p (List.mem_cons_self _ _)
    obtain ⟨s1, log, e1, -, -, -, -, -, e7, e8, e9, e10, e11⟩ :=
      traverse_graph_general p.1 p.2 s nodes (hfin.start_of_mem p.2) (hfin.closed p.2) hp hq
        fuel hfuel
    have htopo : ∀ v, (s1.heap v).input_nodes = (s.heap v).input_nodes ∧
        (s1.heap v).output_nodes = (s.heap v).output_nodes := by
      intro v
      rw [e7]
      exact foldl_preservesTopology hp (visited log) s.heap v
    obtain ⟨t, f1, f2, f3, f4, f5, f6⟩ := ih s1 (finiteGraph_congr hfin e10 e11 htopo)
      (fun q hq' => hprev q (List.mem_cons_of_mem _ hq')) e9 e8
    refine ⟨t, ?_, f2, f3, f4.trans e10, f5.trans e11, fun v => ?_⟩
    · simp only [run_traversals, e1]
      exact f1
    · exact ⟨(f6 v).1.trans (htopo v).1, (f6 v).2.trans (htopo v).2⟩

theorem pushed_append (a b : List (Nat × List Nat)) :
    pushed (a ++ b) = pushed a ++ pushed b := by
  simp [pushed]

theorem loop_finite : FiniteGraph loop_dag [0, 1] :=
  ⟨by decide, by decide, by decide, by decide, by decide⟩

/-- The scheduler run forward on the graph with the self-loop: the start node 0 has
threshold 2, which its counter reaches during its own visit (one increment for the
visit, one for the self-loop), so it is pushed and visited a second time: three
visits on two nodes. -/
theorem loop_log :
    (traverse_graph skip_fn true 4 loop_dag).map Prod.snd
      = some [(0, [0, 1]), (0, []), (1, [])] := by
  decide

theorem fanout_finite : FiniteGraph fanout_dag [0, 1, 2] :=
  ⟨by decide, by decide, by decide, by decide, by decide⟩

/-! ### Graphs on which the scheduler stalls -/

theorem sum_map_le_of_subset (f : Nat → Nat) {L M : List Nat} (hnd : L.Nodup)
    (hsub : L ⊆ M) : (L.map f).sum ≤ (M.map f).sum := by
  obtain ⟨l', hp, hs⟩ := List.subperm_of_subset hnd hsub
  rw [← (hp.map f).sum_eq]
  exact (hs.map f).sum_le_sum (fun _ _ => Nat.zero_le _)

theorem sum_map_indicator (a : Nat) (M : List Nat) :
    (M.map (fun u => if a = u then 1 else 0)).sum = M.count a := by
  induction M with
  | nil => simp
  | cons m M ih =>
    rw [List.map_cons, List.sum_cons, ih, List.count_cons]
    by_cases h : a = m
    · subst h; simp; omega
    · have : ¬ (m == a) = true := by simpa using Ne.symm h
      simp [h, this]

theorem sum_count_le_length {M : List Nat} (hM : M.Nodup) (l : List Nat) :
    (M.map (fun u => l.count u)).sum ≤ l.length := by
  induction l with
  | nil => simp
  | cons a l ih =>
    have h1 : (fun u => (a :: l).count u)
        = fun u => l.count u + (if a = u then 1 else 0) := by
      funext u
      rw [List.count_cons]
      by_cases h : a = u
      · subst h; simp
      · have : ¬ (a == u) = true := by simpa using h
        simp [h, this]
    rw [h1, List.sum_map_add, sum_map_indicator, List.length_cons]
    have := List.nodup_iff_count_le_one.mp hM a
    omega

theorem stallInv_length_le {ch pa : Nat → List Nat} {nodes : List Nat} {start : Nat}
    {S : Nat → Prop} {V Pd q : List Nat} {c : Nat → Nat}
    (hI : StallInv ch pa nodes start S V Pd q c) : (V ++ q).length ≤ nodes.length + 1 :=
  genInv_length_le hI.gen

theorem stallInv_step {ch pa : Nat → List Nat} {nodes : List Nat} {start : Nat}
    {S : Nat → Prop}
    (hstart : start ∈ nodes) (hclosed : ∀ u ∈ nodes, ∀ v ∈ ch u, v ∈ nodes)
    (hcyc : ¬ Relation.TransGen (fun a b => b ∈ ch a) start start)
    (hS : Stuck ch pa nodes S) (hSs : ¬ S start)
    {V Pd rest P : List Nat} {x : Nat} {c c1 : Nat → Nat}
    (hI : StallInv ch pa nodes start S V Pd (x :: rest) c)
    (hP : P.Nodup)
    (hmem : ∀ w, w ∈ P ↔ c w + (if w = x then 1 else 0) < (pa w).length ∧
      (pa w).length ≤ c w + (if w = x then 1 else 0) + (ch x).count w)
    (hc1 : ∀ w, c1 w = c w + (if w = x then 1 else 0) + (ch x).count w) :
    StallInv ch pa nodes start S (V ++ [x]) (Pd ++ P) (rest ++ P) c1 := by
  have hfifo := hI.gen.fifo
  have hsp : start ∉ Pd := fun h => hcyc (hI.reach start h)
  have hnd : (start :: Pd).Nodup := List.nodup_cons.mpr ⟨hsp, hI.gen.nodup⟩
  have hsub : ∀ u ∈ V ++ [x], u ∈ start :: Pd := by
    intro u hu
    rw [hfifo]
    rcases List.mem_append.mp hu with h | h
    · exact List.mem_append_left _ h
    · rw [List.mem_singleton] at h
      subst h
      simp
  have hVx : (V ++ [x]).Nodup := by
    have h2 : (V ++ x :: rest).Nodup := hfifo ▸ hnd
    have : V ++ x :: rest = (V ++ [x]) ++ rest := by simp
    rw [this] at h2
    exact (List.nodup_append.mp h2).1
  have hgood : ∀ u ∈ start :: Pd, u ∈ nodes ∧ ¬ S u := by
    intro u hu
    rcases List.mem_cons.mp hu with rfl | h
    · exact ⟨hstart, hSs⟩
    · exact ⟨hI.gen.mem u h, hI.avoid u h⟩
  have hxr : x = start ∨ Relation.TransGen (fun a b => b ∈ ch a) start x := by
    rcases List.mem_cons.mp (hsub x (by simp)) with h | h
    · exact Or.inl h
    · exact Or.inr (hI.reach x h)
  have hcnt : ∀ v, c1 v = (V ++ [x]).count v
      + ((V ++ [x]).map (fun u => (ch u).count v)).sum := by
    intro v
    rw [hc1, hI.cnt v, List.count_append, List.map_append, List.sum_append]
    simp only [List.map_cons, List.map_nil, List.sum_cons, List.sum_nil, Nat.add_zero]
    rw [List.count_singleton]
    by_cases h : v = x
    · subst h; simp; omega
    · have : ¬ (x == v) = true := by simpa using Ne.symm h
      simp [h, this]; omega
  refine ⟨genInv_step hstart hclosed hI.gen hP hmem hc1, ?_, hcnt, ?_⟩
  · intro w hw
    rcases List.mem_append.mp hw with h | h
    · exact hI.reach w h
    · have h2 := (hmem w).mp h
      have hpos : 0 < (ch x).count w := by omega
      have hedge : w ∈ ch x := List.count_pos_iff.mp hpos
      rcases hxr with rfl | hr
      · exact Relation.TransGen.single hedge
      · exact Relation.TransGen.tail hr hedge
  · intro w hw
    rcases List.mem_append.mp hw with h | h
    · exact hI.avoid w h
    · intro hSw
      have h2 := (hmem w).mp h
      rcases hS w hSw with h0 | hL
      · omega
      · have hlt := hL (V ++ [x]) hVx (fun u hu => hgood u (hsub u hu))
        have hw0 : (V ++ [x]).count w = 0 := by
          rw [List.count_eq_zero]
          intro hmemw
          exact (hgood w (hsub w hmemw)).2 hSw
        have := hcnt w
        rw [hc1] at this
        omega

/-- The scheduler on a finite graph whose start node lies on no cycle: it returns,
every node is visited at most once, and no member of a stuck set is visited. -/
theorem traverse_graph_stuck {α : Type} (node_fn : Nat → Heap α → Heap α) (forward : Bool)
    (s : FAO_DAG α) (nodes : List Nat)
    (hstart : start_of forward s ∈ nodes)
    (hclosed : ∀ u ∈ nodes, ∀ v ∈ children forward (s.heap u), v ∈ nodes)
    (hcyc : ¬ Relation.TransGen (fun a b => b ∈ children forward (s.heap a))
      (start_of forward s) (start_of forward s))
    (S : Nat → Prop)
    (hS : Stuck (fun u => children forward (s.heap u)) (fun u => parents forward (s.heap u))
      nodes S)
    (hSs : ¬ S (start_of forward s))
    (hfn : PreservesTopology node_fn)
    (hem : s.eval_map = map_clear) (hq : s.ready_queue = [])
    (fuel : Nat) (hfuel : nodes.length + 1 < fuel) :
    ∃ s' log, traverse_graph node_fn forward fuel s = some (s', log) ∧
      s'.ready_queue = [] ∧ (visited log).Nodup ∧
      ∀ v ∈ visited log, v ∈ nodes ∧ ¬ S v := by
  have hI0 : StallInv (fun u => children forward (s.heap u))
      (fun u => parents forward (s.heap u)) nodes (start_of forward s) S [] []
      [start_of forward s] (map_get s.eval_map) := by
    refine ⟨⟨rfl, List.nodup_nil, fun _ h => absurd h (List.not_mem_nil _),
      fun _ h => absurd h (List.not_mem_nil _), fun h => absurd rfl h,
      fun h => absurd h (List.not_mem_nil _)⟩, fun _ h => absurd h (List.not_mem_nil _), ?_,
      fun _ h => absurd h (List.not_mem_nil _)⟩
    intro v
    rw [hem]
    rfl
  obtain ⟨s', log, e1, e2, e3, -, -, -, -⟩ :=
    traverse_loop_invariant node_fn forward hfn
      (fun V Pd q c => StallInv (fun u => children forward (s.heap u))
        (fun u => parents forward (s.heap u)) nodes (start_of forward s) S V Pd q c)
      (nodes.length + 1)
      (fun _ _ _ _ h => stallInv_length_le h)
      (fun _ _ _ _ _ _ _ hJ hP _ hmem hc1 =>
        stallInv_step hstart hclosed hcyc hS hSs hJ hP hmem hc1)
      fuel [] []
      ({ s with ready_queue := s.ready_queue ++ [start_of forward s] })
      (fun v => ⟨rfl, rfl⟩) (by simpa [hq] using hI0) (by simpa using hfuel)
  simp only [List.nil_append] at e2
  have hfifo : start_of forward s :: pushed log = visited log := by simpa using e2.gen.fifo
  have hsp : start_of forward s ∉ pushed log := fun h => hcyc (e2.reach _ h)
  refine ⟨{ s' with eval_map := map_clear }, log, ?_, e3, ?_, ?_⟩
  · unfold traverse_graph
    unfold start_of at e1
    simp only [e1]
  · rw [← hfifo]
    exact List.nodup_cons.mpr ⟨hsp, e2.gen.nodup⟩
  · intro v hv
    rw [← hfifo] at hv
    rcases List.mem_cons.mp hv with rfl | h
    · exact ⟨hstart, hSs⟩
    · exact ⟨e2.gen.mem v h, e2.avoid v h⟩

/-- A node whose threshold is 0 or larger than the number of edges into it is stuck. -/
theorem stuck_single (ch pa : Nat → List Nat) (nodes : List Nat) (v : Nat)
    (hv : (pa v).length = 0 ∨ (nodes.map (fun u => (ch u).count v)).sum < (pa v).length) :
    Stuck ch pa nodes (fun w => w = v) := by
  intro w hw
  subst hw
  rcases hv with h | h
  · exact Or.inl h
  · refine Or.inr (fun L hL hLn => lt_of_le_of_lt ?_ h)
    exact sum_map_le_of_subset _ hL (fun u hu => (hLn u hu).1)

/-- With mutually consistent lists, the nodes on cycles are stuck: each of them waits
for its predecessor on the cycle. -/
theorem stuck_cycle (ch pa : Nat → List Nat) (nodes : List Nat)
    (hclosed : ∀ u ∈ nodes, ∀ v ∈ ch u, v ∈ nodes)
    (hcons : ∀ u ∈ nodes, ∀ v ∈ nodes, (ch u).count v = (pa v).count u) :
    Stuck ch pa nodes
      (fun w => w ∈ nodes ∧ Relation.TransGen (fun a b => b ∈ ch a) w w) := by
  intro w ⟨hwn, hwc⟩
  obtain ⟨p, hwp, hpw⟩ := Relation.TransGen.tail'_iff.mp hwc
  have hpn : p ∈ nodes := by
    clear hwc hpw
    induction hwp with
    | refl => exact hwn
    | tail _ hbc ih => exact hclosed _ ih _ hbc
  have hpc : Relation.TransGen (fun a b => b ∈ ch a) p p := Relation.TransGen.head' hpw hwp
  refine Or.inr (fun L hL hLn => ?_)
  have hpL : p ∉ L := fun h => (hLn p h).2 ⟨hpn, hpc⟩
  have h1 : L.map (fun u => (ch u).count w) = L.map (fun u => (pa w).count u) :=
    List.map_congr_left (fun u hu => hcons u (hLn u hu).1 w hwn)
  have h2 := sum_count_le_length (List.nodup_cons.mpr ⟨hpL, hL⟩) (pa w)
  rw [List.map_cons, List.sum_cons] at h2
  have h3 : 0 < (pa w).count p := by
    rw [← hcons p hpn w hwn]
    exact List.count_pos_iff.mpr hpw
  rw [h1]
  omega

theorem lasso_finite : FiniteGraph lasso_dag [0, 1, 2] :=
  ⟨by decide, by decide, by decide, by decide, by decide⟩

theorem lasso_start_acyclic :
    ¬ Relation.TransGen (fun a b => b ∈ children true (lasso_dag.heap a))
      (start_of true lasso_dag) (start_of true lasso_dag) := by
  intro h
  obtain ⟨b, -, hb⟩ := Relation.TransGen.tail'_iff.mp h
  rcases b with _ | _ | _ | b <;>
    simp [children, start_of, lasso_dag, lasso_heap, unit_node] at hb

/-- The scheduler run forward on the lasso: node 1 has threshold 2 and receives one
increment only, the queue runs empty after the visit of the entry node. -/
theorem lasso_log :
    (traverse_graph skip_fn true 5 lasso_dag).map Prod.snd = some [(0, [])] := by
  decide

/-! ### The scheduler without the increment of the visited node's own counter -/

theorem traverse_children_agree {α : Type} (forward : Bool) (A : List Nat) (l : List Nat) :
    ∀ s t : FAO_DAG α, AgreeOff A s t → (∀ w ∈ l, w ∉ A) →
      AgreeOff A (traverse_children forward l s).1 (traverse_children forward l t).1 ∧
      (traverse_children forward l t).2 = (traverse_children forward l s).2 := by
  induction l with
  | nil => intro s t h _; exact ⟨h, rfl⟩
  | cons v l ih =>
    intro s t h hl
    obtain ⟨h1, h2, h3, h4, h5⟩ := h
    have hv : map_get t.eval_map v = map_get s.eval_map v :=
      h5 v (hl v (List.mem_cons_self _ _))
    simp only [traverse_children]
    rw [traverse_child_eq, traverse_child_eq]
    have hag : AgreeOff A
        ({ s with
            eval_map := map_incr s.eval_map v
            ready_queue := s.ready_queue ++
              (if map_get s.eval_map v + 1 = (parents forward (s.heap v)).length
                then [v] else []) } : FAO_DAG α)
        ({ t with
            eval_map := map_incr t.eval_map v
            ready_queue := t.ready_queue ++
              (if map_get t.eval_map v + 1 = (parents forward (t.heap v)).length
                then [v] else []) } : FAO_DAG α) := by
      refine ⟨h1, ?_, h3, h4, ?_⟩
      · simp only [h2, hv, h1]
      · intro w hw
        simp only [map_get_incr, h5 w hw]
    obtain ⟨i1, i2⟩ := ih _ _ hag (fun w hw => hl w (List.mem_cons_of_mem _ hw))
    refine ⟨i1, ?_⟩
    rw [i2]
    simp only [hv, h1]

/-- On a run of the scheduler in which the neighbours of a visited node have not been
visited before, the variant without the increment of the visited node's own counter
takes the same steps. -/
theorem traverse_loop_noself_eq {α : Type} (node_fn : Nat → Heap α → Heap α) (forward : Bool)
    (hfn : PreservesTopology node_fn) {ch pa : Nat → List Nat} :
    ∀ (fuel : Nat) (V : List Nat) (s t s' : FAO_DAG α) (log : List (Nat × List Nat)),
      (∀ v, children forward (s.heap v) = ch v) → AgreeOff V s t →
      traverse_loop node_fn forward fuel s = some (s', log) → LogOK ch pa V log →
      ∃ t', traverse_loop_noself node_fn forward fuel t = some (t', log) ∧
        t'.heap = s'.heap ∧ t'.ready_queue = s'.ready_queue ∧
        t'.start_node = s'.start_node ∧ t'.end_node = s'.end_node := by
  intro fuel
  induction fuel with
  | zero =>
    intro V s t s' log _ _ hrun _
    simp [traverse_loop] at hrun
  | succ fuel ih =>
    intro V s t s' log htopo hag hrun hok
    obtain ⟨g1, g2, g3, g4, g5⟩ := hag
    unfold traverse_loop at hrun
    unfold traverse_loop_noself
    rw [g2]
    cases hq : s.ready_queue with
    | nil =>
      rw [hq] at hrun
      simp only [Option.some.injEq, Prod.mk.injEq] at hrun
      obtain ⟨rfl, rfl⟩ := hrun
      exact ⟨t, rfl, g1, g2, g3, g4⟩
    | cons x rest =>
      rw [hq] at hrun
      dsimp only at hrun ⊢
      cases hrec : traverse_loop node_fn forward fuel
          (traverse_visit node_fn forward s x rest).1 with
      | none => rw [hrec] at hrun; simp at hrun
      | some r =>
        rw [hrec] at hrun
        simp only [Option.some.injEq, Prod.mk.injEq] at hrun
        obtain ⟨rfl, rfl⟩ := hrun
        obtain ⟨_, _, _, hfresh, hrest⟩ := hok
        have hl : (if forward = true then (node_fn x s.heap x).output_nodes
            else (node_fn x s.heap x).input_nodes) = ch x := by
          rw [← htopo x]
          unfold children
          rw [(hfn x s.heap x).1, (hfn x s.heap x).2]
        have hag1 : AgreeOff (V ++ [x])
            ({ start_node := s.start_node, end_node := s.end_node, ready_queue := rest,
               eval_map := map_incr s.eval_map x, heap := node_fn x s.heap } : FAO_DAG α)
            ({ start_node := t.start_node, end_node := t.end_node, ready_queue := rest,
               eval_map := t.eval_map, heap := node_fn x t.heap } : FAO_DAG α) := by
          refine ⟨by rw [g1], rfl, g3, g4, ?_⟩
          intro w hw
          have hwV : w ∉ V := fun h => hw (List.mem_append_left _ h)
          have hwx : w ≠ x := fun h => hw (by simp [h])
          simp only [map_get_incr, g5 w hwV, hwx, if_false, Nat.add_zero]
        obtain ⟨c1, c2⟩ := traverse_children_agree forward (V ++ [x]) (ch x) _ _ hag1 hfresh
        have htopo1 : ∀ v, children forward ((traverse_visit node_fn forward s x rest).1.heap v)
            = ch v := by
          intro v
          rw [(traverse_visit_spec node_fn forward s x rest hfn).1, ← htopo v]
          unfold children
          rw [(hfn x s.heap v).1, (hfn x s.heap v).2]
        have hv1 : traverse_visit node_fn forward s x rest
            = traverse_children forward (ch x)
              ({ start_node := s.start_node, end_node := s.end_node, ready_queue := rest,
                 eval_map := map_incr s.eval_map x, heap := node_fn x s.heap } : FAO_DAG α) := by
          unfold traverse_visit
          dsimp only
          rw [hl]
        have hv2 : traverse_visit_noself node_fn forward t x rest
            = traverse_children forward (ch x)
              ({ start_node := t.start_node, end_node := t.end_node, ready_queue := rest,
                 eval_map := t.eval_map, heap := node_fn x t.heap } : FAO_DAG α) := by
          unfold traverse_visit_noself
          dsimp only
          rw [g1, hl]
        rw [← hv1, ← hv2] at c1 c2
        obtain ⟨t', f1, f2, f3, f4, f5⟩ :=
          ih (V ++ [x]) _ _ r.1 r.2 htopo1 c1 hrec hrest
        refine ⟨t', ?_, f2, f3, f4, f5⟩
        rw [f1, c2]

/-- The variant of the scheduler without the increment of the visited node's own
counter, run forward on the diamond: the same log as `diamond_log`. -/
theorem diamond_log_noself :
    (traverse_graph_noself skip_fn true 5 diamond_dag).map Prod.snd
      = some [(0, [1, 2]), (1, []), (2, [3]), (3, [])] := by
  decide

/-! ### Duality of the evaluators -/

theorem transpose_heap_transpose {α : Type} (h : Heap α) :
    transpose_heap (transpose_heap h) = h := rfl

theorem FAO_DAG.transpose_transpose {α : Type} (s : FAO_DAG α) :
    s.transpose.transpose = s := rfl

theorem traverse_child_transpose {α : Type} (forward : Bool) (s : FAO_DAG α) (node : Nat) :
    traverse_child (!forward) s.transpose node
      = ((traverse_child forward s node).1.transpose, (traverse_child forward s node).2) := by
  cases forward
  · unfold traverse_child
    simp only [Bool.not_false, if_true, Bool.false_eq_true, if_false]
    by_cases hc : map_get (map_incr s.eval_map node) node = (s.heap node).output_nodes.length
    · simp [FAO_DAG.transpose, transpose_heap, FAO.transpose, hc]
    · simp [FAO_DAG.transpose, transpose_heap, FAO.transpose, hc]
  · unfold traverse_child
    simp only [Bool.not_true, if_true, Bool.false_eq_true, if_false]
    by_cases hc : map_get (map_incr s.eval_map node) node = (s.heap node).input_nodes.length
    · simp [FAO_DAG.transpose, transpose_heap, FAO.transpose, hc]
    · simp [FAO_DAG.transpose, transpose_heap, FAO.transpose, hc]

theorem traverse_children_transpose {α : Type} (forward : Bool) (l : List Nat) :
    ∀ s : FAO_DAG α, traverse_children (!forward) l s.transpose
      = ((traverse_children forward l s).1.transpose, (traverse_children forward l s).2) := by
  induction l with
  | nil => intro s; rfl
  | cons v l ih =>
    intro s
    simp only [traverse_children]
    rw [traverse_child_transpose, ih]

theorem traverse_visit_transpose {α : Type} (nf : Nat → Heap α → Heap α) (forward : Bool)
    (s : FAO_DAG α) (x : Nat) (rest : List Nat) :
    traverse_visit (fun u h => transpose_heap (nf u (transpose_heap h))) (!forward)
        s.transpose x rest
      = ((traverse_visit nf forward s x rest).1.transpose,
          (traverse_visit nf forward s x rest).2) := by
  unfold traverse_visit
  dsimp only
  have hl : (if (!forward) = true
        then (transpose_heap (nf x (transpose_heap s.transpose.heap)) x).output_nodes
        else (transpose_heap (nf x (transpose_heap s.transpose.heap)) x).input_nodes)
      = (if forward = true then (nf x s.heap x).output_nodes
        else (nf x s.heap x).input_nodes) := by
    cases forward <;> rfl
  rw [hl]
  exact traverse_children_transpose forward _
    ({ start_node := s.start_node, end_node := s.end_node, ready_queue := rest,
       eval_map := map_incr s.eval_map x, heap := nf x s.heap } : FAO_DAG α)

theorem traverse_loop_transpose {α : Type} (nf : Nat → Heap α → Heap α) (forward : Bool) :
    ∀ (fuel : Nat) (s : FAO_DAG α),
      traverse_loop (fun u h => transpose_heap (nf u (transpose_heap h))) (!forward) fuel
          s.transpose
        = (traverse_loop nf forward fuel s).map (fun r => (r.1.transpose, r.2)) := by
  intro fuel
  induction fuel with
  | zero => intro s; rfl
  | succ fuel ih =>
    intro s
    unfold traverse_loop
    have hq : s.transpose.ready_queue = s.ready_queue := rfl
    rw [hq]
    cases s.ready_queue with
    | nil => rfl
    | cons x rest =>
      dsimp only
      rw [traverse_visit_transpose]
      dsimp only
      rw [ih]
      cases traverse_loop nf forward fuel (traverse_visit nf forward s x rest).1 <;> rfl

theorem traverse_graph_transpose {α : Type} (nf : Nat → Heap α → Heap α) (forward : Bool)
    (fuel : Nat) (s : FAO_DAG α) :
    traverse_graph (fun u h => transpose_heap (nf u (transpose_heap h))) (!forward) fuel
        s.transpose
      = (traverse_graph nf forward fuel s).map (fun r => (r.1.transpose, r.2)) := by
  unfold traverse_graph
  dsimp only
  have hs : ({ s.transpose with ready_queue := s.transpose.ready_queue ++
        [if (!forward) = true then s.transpose.start_node else s.transpose.end_node] }
        : FAO_DAG α)
      = ({ s with ready_queue := s.ready_queue ++
        [if forward = true then s.start_node else s.end_node] } : FAO_DAG α).transpose := by
    cases forward <;> rfl
  rw [hs, traverse_loop_transpose]
  cases traverse_loop nf forward fuel _ <;> rfl

/-! ### The frame of forward evaluation -/

theorem map_touch_of_present (m : PtrMap) (k : Nat) (hk : m k ≠ none) : map_touch m k = m := by
  funext j
  unfold map_touch map_get
  by_cases hj : j = k
  · subst hj
    cases hm : m j with
    | none => exact absurd hm hk
    | some x => simp
  · simp [hj]

theorem sameButData_refl {α : Type} (h : Heap α) : SameButData h h :=
  fun _ => ⟨rfl, rfl, rfl, rfl, rfl, rfl, rfl, rfl⟩

theorem sameButData_trans {α : Type} {h1 h2 h3 : Heap α} (a : SameButData h1 h2)
    (b : SameButData h2 h3) : SameButData h1 h3 := by
  intro v
  obtain ⟨a1, a2, a3, a4, a5, a6, a7, a8⟩ := a v
  obtain ⟨b1, b2, b3, b4, b5, b6, b7, b8⟩ := b v
  exact ⟨b1.trans a1, b2.trans a2, b3.trans a3, b4.trans a4, b5.trans a5, b6.trans a6,
    b7.trans a7, b8.trans a8⟩

/-- One copy of the `node_eval` of `forward_eval` changes nothing but the content of
the target's input buffer, when both offset maps it reads hold the entry it reads. -/
theorem forward_copy_frame {α : Type} (ops : FAOOps α) (u : Nat) (h : Heap α) (i : Nat)
    (h1 : (h u).output_offsets (edge_target h u i) ≠ none)
    (h2 : (h (edge_target h u i)).input_offsets u ≠ none) :
    SameButData h (forward_copy ops u h i) := by
  unfold edge_target at h1 h2
  unfold SameButData forward_copy
  generalize (h u).output_nodes.getD i 0 = t at h1 h2
  intro v
  dsimp only
  by_cases hvt : v = t <;> by_cases hvu : v = u <;> by_cases htu : t = u <;>
    simp [heap_set, hvt, hvu, htu, map_touch_of_present _ _ h1, map_touch_of_present _ _ h2,
      vector_subvec_memcpy_length]
  all_goals (subst_vars; simp_all [map_touch_of_present, vector_subvec_memcpy_length])

/-- The `node_eval` of `forward_eval` changes buffer contents only, when the offset
maps hold the entries of the successor edges of the node and the operation of the
node fills the output buffer it is given. -/
theorem forward_node_eval_frame {α : Type} (ops : FAOOps α) (x : Nat) (h : Heap α)
    (hout : ∀ t ∈ (h x).output_nodes,
      (h x).output_offsets t ≠ none ∧ (h t).input_offsets x ≠ none)
    (hlen : (ops.forward_eval x (h x).input_data (h x).output_data).length
      = (h x).output_data.length) :
    SameButData h (forward_node_eval ops x h) := by
  unfold forward_node_eval
  dsimp only
  rw [heap_set_same]
  dsimp only
  apply foldl_range_induction (forward_copy ops x) (fun _ a => SameButData h a)
  · intro v
    by_cases hv : v = x
    · subst hv
      rw [heap_set_same]
      exact ⟨rfl, rfl, rfl, rfl, rfl, rfl, rfl, hlen⟩
    · rw [heap_set_other _ _ _ _ hv]
      exact ⟨rfl, rfl, rfl, rfl, rfl, rfl, rfl, rfl⟩
  · intro k a hk ha
    have hk' : k < (a x).output_nodes.length := by rw [(ha x).2.1]; exact hk
    have hmem : edge_target a x k ∈ (h x).output_nodes := by
      have := edge_target_mem a x k hk'
      rw [(ha x).2.1] at this
      exact this
    obtain ⟨o1, o2⟩ := hout _ hmem
    refine sameButData_trans ha (forward_copy_frame ops x a k ?_ ?_)
    · rw [(ha x).2.2.2.2.2.1]; exact o1
    · rw [(ha _).2.2.2.2.1]; exact o2

theorem forward_fold_same {α : Type} (ops : FAOOps α) (h0 : Heap α) (nodes : List Nat)
    (hwf : WellFormed h0 nodes) (hoff : OffsetsComplete h0 nodes)
    (hlen : ∀ u ∈ nodes, ∀ inp out, inp.length = (h0 u).input_data.length →
      out.length = (h0 u).output_data.length →
      (ops.forward_eval u inp out).length = out.length) :
    ∀ (vs : List Nat) (h : Heap α), (∀ u ∈ vs, u ∈ nodes) → SameButData h0 h →
      SameButData h0 (vs.foldl (fun h u => forward_node_eval ops u h) h) := by
  intro vs
  induction vs with
  | nil => intro h _ hs; exact hs
  | cons x vs ih =>
    intro h hvs hs
    have hx : x ∈ nodes := hvs x (List.mem_cons_self _ _)
    simp only [List.foldl_cons]
    apply ih _ (fun u hu => hvs u (List.mem_cons_of_mem _ hu))
    refine sameButData_trans hs (forward_node_eval_frame ops x h ?_
      (hlen x hx _ _ (hs x).2.2.2.2.2.2.1 (hs x).2.2.2.2.2.2.2))
    intro t ht
    rw [(hs x).2.1] at ht
    have htn := hwf.closed_out x hx t ht
    have hxt : x ∈ (h0 t).input_nodes := (hwf.edge_iff hx htn).mp ht
    rw [(hs x).2.2.2.2.2.1, (hs t).2.2.2.2.1]
    exact ⟨(hoff x hx).1 t ht, (hoff t htn).2 x hxt⟩

/-- What `forward_eval` leaves unchanged on a valid two-terminal DAG whose offset maps
are complete: everything but the contents of the buffers. -/
theorem forward_eval_frame {α : Type} (ops : FAOOps α) (s : FAO_DAG α) (nodes : List Nat)
    (hdag : TwoTerminalDAG s nodes) (hoff : OffsetsComplete s.heap nodes)
    (hlen : ∀ u ∈ nodes, ∀ inp out, inp.length = (s.heap u).input_data.length →
      out.length = (s.heap u).output_data.length →
      (ops.forward_eval u inp out).length = out.length)
    (hem : s.eval_map = map_clear) (hq : s.ready_queue = [])
    (fuel : Nat) (hfuel : nodes.length < fuel) :
    ∃ s', forward_eval ops fuel s = some s' ∧
      s'.start_node = s.start_node ∧ s'.end_node = s.end_node ∧
      s'.eval_map = s.eval_map ∧ s'.ready_queue = s.ready_queue ∧
      SameButData s.heap s'.heap := by
  have hs := sched_of_wellFormed true s nodes hdag.1 hdag.2.1
  obtain ⟨s', log, h1, -, h3, -, -, h6, h7, h8, h9, h10⟩ :=
    traverse_graph_spec (forward_node_eval ops) true s nodes hs
      (forward_node_eval_preservesTopology ops) hem hq fuel hfuel
  refine ⟨s', by simp [forward_eval, h1], h9, h10, by rw [h8, hem], by rw [h7, hq], ?_⟩
  rw [h6]
  exact forward_fold_same ops s.heap nodes hdag.1 hoff hlen (visited log) s.heap
    (fun u hu => (h3 u).mp hu) (sameButData_refl _)

/-! ### Construction, evaluations, destruction -/

theorem succ_edge_congr {α : Type} {G G' : Heap α}
    (h : ∀ v, (G' v).output_nodes = (G v).output_nodes) : succ_edge G' = succ_edge G := by
  funext a b
  unfold succ_edge
  rw [h a]

theorem twoTerminalDAG_congr {α : Type} {s t : FAO_DAG α} {nodes : List Nat}
    (h : TwoTerminalDAG s nodes) (hst : t.start_node = s.start_node)
    (hen : t.end_node = s.end_node)
    (htopo : ∀ v, (t.heap v).input_nodes = (s.heap v).input_nodes ∧
      (t.heap v).output_nodes = (s.heap v).output_nodes) :
    TwoTerminalDAG t nodes := by
  have he : succ_edge t.heap = succ_edge s.heap := succ_edge_congr (fun v => (htopo v).2)
  obtain ⟨hwf, hf, hr⟩ := h
  refine ⟨⟨hwf.nodup, ?_, ?_, ?_, ?_⟩, ?_, ?_⟩
  · intro u hu v hv
    rw [(htopo u).2] at hv
    exact hwf.closed_out u hu v hv
  · intro v hv u hu
    rw [(htopo v).1] at hu
    exact hwf.closed_in v hv u hu
  · intro u hu v hv
    rw [(htopo u).2, (htopo v).1]
    exact hwf.consistent u hu v hv
  · intro u hu
    rw [he]
    exact hwf.acyclic u hu
  · unfold Reachable Reach at hf ⊢
    simp only [if_true] at hf ⊢
    rw [he, hst]
    exact hf
  · unfold Reachable Reach at hr ⊢
    simp only [Bool.false_eq_true, if_false] at hr ⊢
    rw [he, hen]
    exact hr

theorem TwoTerminalDAG.finite {α : Type} {s : FAO_DAG α} {nodes : List Nat}
    (h : TwoTerminalDAG s nodes) : FiniteGraph s nodes :=
  ⟨h.1.nodup, h.2.1.1, h.2.2.1, h.1.closed_out, h.1.closed_in⟩

/-- The traversals made by a sequence of evaluation calls. -/
theorem run_evals_eq {α : Type} (ops : FAOOps α) (fuel : Nat) (evals : List Bool) :
    ∀ s : FAO_DAG α, run_evals ops fuel evals s
      = run_traversals fuel
          (evals.map (fun dir => if dir then (forward_node_eval ops, true)
            else (adjoint_node_eval ops, false))) s := by
  induction evals with
  | nil => intro s; rfl
  | cons dir evals ih =>
    intro s
    simp only [run_evals, List.map_cons, run_traversals]
    cases dir
    · simp only [Bool.false_eq_true, if_false, adjoint_eval]
      cases traverse_graph (adjoint_node_eval ops) false fuel s with
      | none => rfl
      | some r => exact ih r.1
    · simp only [if_true, forward_eval]
      cases traverse_graph (forward_node_eval ops) true fuel s with
      | none => rfl
      | some r => exact ih r.1

/-- Any number of evaluations on a valid two-terminal DAG return and leave a valid
two-terminal DAG with the scheduler reset. -/
theorem run_evals_spec {α : Type} (ops : FAOOps α) (nodes : List Nat) (fuel : Nat)
    (hfuel : nodes.length + 1 < fuel) (evals : List Bool) (s : FAO_DAG α)
    (hdag : TwoTerminalDAG s nodes)
    (hem : s.eval_map = map_clear) (hq : s.ready_queue = []) :
    ∃ t, run_evals ops fuel evals s = some t ∧ TwoTerminalDAG t nodes ∧
      t.eval_map = map_clear ∧ t.ready_queue = [] ∧
      t.start_node = s.start_node ∧ t.end_node = s.end_node := by
  obtain ⟨t, f1, f2, f3, f4, f5, f6⟩ := run_traversals_spec nodes fuel hfuel
    (evals.map (fun dir => if dir then (forward_node_eval ops, true)
      else (adjoint_node_eval ops, false))) s hdag.finite
    (by
      intro p hp
      obtain ⟨dir, -, rfl⟩ := List.mem_map.mp hp
      cases dir
      · exact adjoint_node_eval_preservesTopology ops
      · exact forward_node_eval_preservesTopology ops)
    hem hq
  exact ⟨t, by rw [run_evals_eq, f1], twoTerminalDAG_congr hdag f4 f5 f6, f2, f3, f4, f5⟩

theorem zero_alloc_preservesTopology :
    PreservesTopology zero_alloc.alloc_data ∧ PreservesTopology zero_alloc.init_offset_maps ∧
    PreservesTopology zero_alloc.free_data := by
  refine ⟨?_, fun _ _ _ => ⟨rfl, rfl⟩, ?_⟩
  · intro u h v
    by_cases hv : v = u
    · subst hv; simp [zero_alloc, heap_set]
    · simp [zero_alloc, heap_set, hv]
  · intro u h v
    by_cases hv : v = u
    · subst hv; simp [zero_alloc, heap_set]
    · simp [zero_alloc, heap_set, hv]

/-- The lifetime of an instance over the diamond: the traversal of the constructor
visits the four nodes once, and so does the traversal of the destructor after a
forward evaluation. -/
theorem diamond_lifetime :
    (construct zero_alloc 6 0 3 diamond_heap).map (fun r => visited r.2) = some [0, 1, 2, 3] ∧
    ((run_evals diamond_ops 6 [true] diamond_dag).bind
        (fun s => destruct zero_alloc 6 s)).map (fun r => visited r.2)
      = some [0, 1, 2, 3] :=
  ⟨by decide, by decide⟩

theorem diamond_offsetsComplete : OffsetsComplete diamond_dag.heap [0, 1, 2, 3] := by
  unfold OffsetsComplete
  decide

/-! ## The properties of the specification -/

/-- C1: on a finite acyclic graph with mutually consistent predecessor/successor
lists in which every node is reachable from the entry node (forward), respectively
the exit node is reachable from every node (reverse), `traverse_graph`, started with
an empty `eval_map` and `ready_queue` and given enough fuel for one iteration per
node, returns and has called `node_fn` exactly once on every node of the graph and
on no other node. The graph is fixed during the traversal: `node_fn` does not change
the neighbour lists. -/
theorem traverse_graph_visits_every_node_once {α : Type}
    (node_fn : Nat → Heap α → Heap α) (forward : Bool) (s : FAO_DAG α) (nodes : List Nat)
    (hwf : WellFormed s.heap nodes) (hreach : Reachable forward s nodes)
    (hfn : PreservesTopology node_fn)
    (hem : s.eval_map = map_clear) (hq : s.ready_queue = [])
    (fuel : Nat) (hfuel : nodes.length < fuel) :
    ∃ s' log, traverse_graph node_fn forward fuel s = some (s', log) ∧
      (∀ v ∈ nodes, (visited log).count v = 1) ∧
      (∀ v, v ∉ nodes → (visited log).count v = 0) := by
  obtain ⟨s', log, h1, h2, h3, -⟩ := traverse_graph_spec node_fn forward s nodes
    (sched_of_wellFormed forward s nodes hwf hreach) hfn hem hq fuel hfuel
  refine ⟨s', log, h1, ?_, ?_⟩
  · intro v hv
    exact List.count_eq_one_of_mem h2 ((h3 v).mpr hv)
  · intro v hv
    rw [List.count_eq_zero]
    exact fun h => hv ((h3 v).mp h)

theorem traverse_graph_visits_every_node_once_witness :
    WellFormed fanout_dag.heap [0, 1, 2] ∧ Reachable true fanout_dag [0, 1, 2] ∧
    ∃ s' log, traverse_graph skip_fn true 4 fanout_dag = some (s', log) ∧
      (∀ v ∈ [0, 1, 2], (visited log).count v = 1) ∧
      (∀ v, v ∉ [0, 1, 2] → (visited log).count v = 0) :=
  ⟨fanout_wellFormed, fanout_reachable,
    traverse_graph_visits_every_node_once skip_fn true fanout_dag [0, 1, 2]
      fanout_wellFormed fanout_reachable skip_fn_preservesTopology rfl rfl 4 (by decide)⟩

/-- C2: on a valid two-terminal DAG the log of `traverse_graph` is a topological
order for the chosen direction: when a node is visited, all nodes of its parent
list (`input_nodes` forward, `output_nodes` reverse) have been visited before. A
node `v` with at least two parent edges is not the start node and is pushed on
`ready_queue` exactly once; the visit during which it is pushed is the visit of one
of its parents, and by then every parent has been visited, so that all its parent
edges have propagated. -/
theorem traverse_graph_topological_order {α : Type}
    (node_fn : Nat → Heap α → Heap α) (forward : Bool) (s : FAO_DAG α) (nodes : List Nat)
    (hdag : TwoTerminalDAG s nodes) (hfn : PreservesTopology node_fn)
    (hem : s.eval_map = map_clear) (hq : s.ready_queue = [])
    (fuel : Nat) (hfuel : nodes.length < fuel) :
    ∃ s' log, traverse_graph node_fn forward fuel s = some (s', log) ∧
      (∀ pre e post, log = pre ++ e :: post →
        ∀ p ∈ parents forward (s.heap e.1), p ∈ visited pre) ∧
      (∀ v ∈ nodes, 2 ≤ (parents forward (s.heap v)).length →
        v ≠ start_of forward s ∧ (pushed log).count v = 1 ∧
        ∀ pre e post, log = pre ++ e :: post → v ∈ e.2 →
          e.1 ∈ parents forward (s.heap v) ∧
          (∀ p ∈ parents forward (s.heap v), p ∈ visited pre ∨ p = e.1) ∧
          (parents forward (s.heap v)).countP (fun p => decide (p ∈ visited pre ∨ p = e.1))
            = (parents forward (s.heap v)).length) := by
  have hs := sched_of_wellFormed forward s nodes hdag.1 (hdag.reachable forward)
  obtain ⟨s', log, h1, h2, h3, h4, h5, -⟩ :=
    traverse_graph_spec node_fn forward s nodes hs hfn hem hq fuel hfuel
  refine ⟨s', log, h1, ?_, ?_⟩
  · intro pre e post hlog p hp
    rw [hlog] at h5
    simpa using (LogOK.split pre [] e post h5).1 p hp
  · intro v hv hk
    have hne : v ≠ start_of forward s := by
      rintro rfl
      have := hs.start_pa
      simp only at this
      rw [this] at hk
      simp at hk
    have hvis : v ∈ visited log := (h3 v).mpr hv
    have hnd : (pushed log).Nodup := by
      rw [← h4] at h2
      exact (List.nodup_cons.mp h2).2
    have hvp : v ∈ pushed log := by
      rw [← h4] at hvis
      rcases List.mem_cons.mp hvis with h | h
      · exact absurd h hne
      · exact h
    refine ⟨hne, List.count_eq_one_of_mem hnd hvp, ?_⟩
    intro pre e post hlog hve
    rw [hlog] at h5
    obtain ⟨hch, hall⟩ := (LogOK.split pre [] e post h5).2 v hve
    have hall' : ∀ p ∈ parents forward (s.heap v), p ∈ visited pre ∨ p = e.1 := by
      intro p hp
      simpa using hall p hp
    have he1 : e.1 ∈ nodes := by
      apply (h3 e.1).mp
      rw [hlog, visited_append]
      simp [visited]
    refine ⟨?_, hall', ?_⟩
    · have hc := hs.consistent e.1 he1 v hv
      simp only at hc hch
      rw [← List.count_pos_iff, ← hc, List.count_pos_iff]
      exact hch
    · rw [List.countP_eq_length]
      intro p hp
      simpa using hall' p hp

theorem traverse_graph_topological_order_witness :
    TwoTerminalDAG diamond_dag [0, 1, 2, 3] ∧
    ∃ s' log, traverse_graph skip_fn true 5 diamond_dag = some (s', log) ∧
      (∀ pre e post, log = pre ++ e :: post →
        ∀ p ∈ parents true (diamond_dag.heap e.1), p ∈ visited pre) ∧
      (∀ v ∈ [0, 1, 2, 3], 2 ≤ (parents true (diamond_dag.heap v)).length →
        v ≠ start_of true diamond_dag ∧ (pushed log).count v = 1 ∧
        ∀ pre e post, log = pre ++ e :: post → v ∈ e.2 →
          e.1 ∈ parents true (diamond_dag.heap v) ∧
          (∀ p ∈ parents true (diamond_dag.heap v), p ∈ visited pre ∨ p = e.1) ∧
          (parents true (diamond_dag.heap v)).countP
              (fun p => decide (p ∈ visited pre ∨ p = e.1))
            = (parents true (diamond_dag.heap v)).length) :=
  ⟨diamond_twoTerminal,
    traverse_graph_topological_order skip_fn true diamond_dag [0, 1, 2, 3]
      diamond_twoTerminal skip_fn_preservesTopology rfl rfl 5 (by decide)⟩

/-- C3: on a valid two-terminal DAG whose edge slices lie within the buffers and
whose incoming-edge slices are pairwise disjoint in every input buffer, with pure
node operations `F` that fill the output buffer, `forward_eval` returns, and in the
state it leaves every node `u` satisfies `output_data = F u input_data`, and for
every successor edge of `u` the slice of the target's input buffer at the target's
offset for `u` equals the slice of the output buffer of `u` at the offset of `u`
for the target: the slice is overwritten with a copy. Input and output buffers of
a node are distinct by the data model. -/
theorem forward_eval_propagates {α : Type} (ops : FAOOps α) (F : Nat → List α → List α)
    (s : FAO_DAG α) (nodes : List Nat) (hdag : TwoTerminalDAG s nodes)
    (hpure : ∀ u ∈ nodes, ∀ inp out, ops.forward_eval u inp out = F u inp)
    (hFlen : ∀ u ∈ nodes, ∀ inp, inp.length = (s.heap u).input_data.length →
      (F u inp).length = (s.heap u).output_data.length)
    (hb : SlicesInBounds ops s.heap nodes) (hd : IncomingDisjoint ops s.heap nodes)
    (hem : s.eval_map = map_clear) (hq : s.ready_queue = [])
    (fuel : Nat) (hfuel : nodes.length < fuel) :
    ∃ s', forward_eval ops fuel s = some s' ∧
      ∀ u ∈ nodes, (s'.heap u).output_data = F u (s'.heap u).input_data ∧
        ∀ i, i < (s'.heap u).output_nodes.length →
          subvec (s'.heap (edge_target s'.heap u i)).input_data
              (edge_dst_offset s'.heap u i) (edge_len ops s'.heap u i)
            = subvec (s'.heap u).output_data
              (edge_src_offset s'.heap u i) (edge_len ops s'.heap u i) := by
  obtain ⟨s', h1, -, -, -, -, hst, -, -, hnode, hedge⟩ :=
    forward_eval_spec ops F s nodes hdag hpure hFlen hb hd hem hq fuel hfuel
  refine ⟨s', h1, fun u hu => ⟨hnode u hu, fun i hi => ?_⟩⟩
  rw [(hst u).2.1] at hi
  have := hedge u hu i hi
  unfold EdgeOK at this
  rw [hst.edge_target, hst.edge_dst_offset, hst.edge_len, hst.edge_src_offset]
  exact this

theorem forward_eval_propagates_witness :
    TwoTerminalDAG diamond_dag [0, 1, 2, 3] ∧
    SlicesInBounds diamond_ops diamond_dag.heap [0, 1, 2, 3] ∧
    IncomingDisjoint diamond_ops diamond_dag.heap [0, 1, 2, 3] ∧
    ∃ s', forward_eval diamond_ops 5 diamond_dag = some s' ∧
      ∀ u ∈ [0, 1, 2, 3],
        (s'.heap u).output_data = diamond_ops.forward_eval u (s'.heap u).input_data [] ∧
        ∀ i, i < (s'.heap u).output_nodes.length →
          subvec (s'.heap (edge_target s'.heap u i)).input_data
              (edge_dst_offset s'.heap u i) (edge_len diamond_ops s'.heap u i)
            = subvec (s'.heap u).output_data
              (edge_src_offset s'.heap u i) (edge_len diamond_ops s'.heap u i) :=
  ⟨diamond_twoTerminal, diamond_slicesInBounds, diamond_incomingDisjoint,
    forward_eval_propagates diamond_ops (fun u inp => diamond_ops.forward_eval u inp [])
      diamond_dag [0, 1, 2, 3] diamond_twoTerminal (fun _ _ _ _ => rfl)
      (by
        intro u hu inp _
        simp only [List.mem_cons, List.mem_singleton, List.not_mem_nil, or_false] at hu
        rcases hu with rfl | rfl | rfl | rfl <;> rfl)
      diamond_slicesInBounds diamond_incomingDisjoint rfl rfl 5 (by decide)⟩

/-- C4: on a valid two-terminal DAG whose edge slices lie within the buffers and
whose outgoing-edge slices are pairwise disjoint in every output buffer, with pure
adjoint operations `Fs` that fill the input buffer, `adjoint_eval` returns, and in
the state it leaves every node `u` satisfies `input_data = Fs u output_data`, and
for every predecessor edge of `u` the slice of the target's output buffer at the
target's offset for `u` equals the slice of the input buffer of `u` at the offset
of `u` for the target. Input and output buffers of a node are distinct by the data
model. -/
theorem adjoint_eval_propagates {α : Type} (ops : FAOOps α) (Fs : Nat → List α → List α)
    (s : FAO_DAG α) (nodes : List Nat) (hdag : TwoTerminalDAG s nodes)
    (hpure : ∀ u ∈ nodes, ∀ out inp, ops.adjoint_eval u out inp = Fs u out)
    (hFlen : ∀ u ∈ nodes, ∀ out, out.length = (s.heap u).output_data.length →
      (Fs u out).length = (s.heap u).input_data.length)
    (hb : AdjointSlicesInBounds ops s.heap nodes) (hd : OutgoingDisjoint ops s.heap nodes)
    (hem : s.eval_map = map_clear) (hq : s.ready_queue = [])
    (fuel : Nat) (hfuel : nodes.length < fuel) :
    ∃ s', adjoint_eval ops fuel s = some s' ∧
      ∀ u ∈ nodes, (s'.heap u).input_data = Fs u (s'.heap u).output_data ∧
        ∀ i, i < (s'.heap u).input_nodes.length →
          subvec (s'.heap (pred_target s'.heap u i)).output_data
              (pred_dst_offset s'.heap u i) (pred_len ops s'.heap u i)
            = subvec (s'.heap u).input_data
              (pred_src_offset s'.heap u i) (pred_len ops s'.heap u i) := by
  obtain ⟨s', h1, -, -, -, -, hst, -, -, hnode, hedge⟩ :=
    adjoint_eval_spec ops Fs s nodes hdag hpure hFlen hb hd hem hq fuel hfuel
  refine ⟨s', h1, fun u hu => ⟨hnode u hu, fun i hi => ?_⟩⟩
  rw [(hst u).1] at hi
  have := hedge u hu i hi
  have e1 : pred_target s'.heap u i = pred_target s.heap u i := by
    unfold pred_target; rw [(hst u).1]
  have e2 : pred_len ops s'.heap u i = pred_len ops s.heap u i := by
    unfold pred_len; rw [(hst u).2.2.1]
  have e3 : pred_src_offset s'.heap u i = pred_src_offset s.heap u i := by
    unfold pred_src_offset; rw [e1, (hst u).2.2.2.2.1]
  have e4 : pred_dst_offset s'.heap u i = pred_dst_offset s.heap u i := by
    unfold pred_dst_offset; rw [e1, (hst _).2.2.2.2.2]
  rw [e1, e2, e3, e4]
  exact this

theorem adjoint_eval_propagates_witness :
    TwoTerminalDAG diamond_dag [0, 1, 2, 3] ∧
    AdjointSlicesInBounds diamond_ops diamond_dag.heap [0, 1, 2, 3] ∧
    OutgoingDisjoint diamond_ops diamond_dag.heap [0, 1, 2, 3] ∧
    ∃ s', adjoint_eval diamond_ops 5 diamond_dag = some s' ∧
      ∀ u ∈ [0, 1, 2, 3],
        (s'.heap u).input_data = diamond_ops.adjoint_eval u (s'.heap u).output_data [] ∧
        ∀ i, i < (s'.heap u).input_nodes.length →
          subvec (s'.heap (pred_target s'.heap u i)).output_data
              (pred_dst_offset s'.heap u i) (pred_len diamond_ops s'.heap u i)
            = subvec (s'.heap u).input_data
              (pred_src_offset s'.heap u i) (pred_len diamond_ops s'.heap u i) :=
  ⟨diamond_twoTerminal, diamond_adjointSlicesInBounds, diamond_outgoingDisjoint,
    adjoint_eval_propagates diamond_ops (fun u out => diamond_ops.adjoint_eval u out [])
      diamond_dag [0, 1, 2, 3] diamond_twoTerminal (fun _ _ _ _ => rfl)
      (by
        intro u hu out _
        simp only [List.mem_cons, List.mem_singleton, List.not_mem_nil, or_false] at hu
        rcases hu with rfl | rfl | rfl | rfl <;> rfl)
      diamond_adjointSlicesInBounds diamond_outgoingDisjoint rfl rfl 5 (by decide)⟩

/-- C5: on a linear chain of `n >= 1` nodes `a 0 -> ... -> a (n-1)` whose edges carry
the whole buffer at offset 0, with pure forward operations `F` and adjoint operations
`Fs` that fill their buffers: `forward_eval` returns with the forward-output buffer
holding `F (a (n-1)) (... (F (a 0) x))` for the content `x` of the forward-input
buffer, and `adjoint_eval` returns with the adjoint-output buffer holding
`Fs (a 0) (... (Fs (a (n-1)) seed))` for the content `seed` of the adjoint-input
buffer. -/
theorem chain_eval_composes {α : Type} (ops : FAOOps α) (F Fs : Nat → List α → List α)
    (s : FAO_DAG α) (a : Nat → Nat) (n : Nat) (hc : IsChain ops s a n)
    (hF : ∀ i, i < n → ∀ inp out, ops.forward_eval (a i) inp out = F (a i) inp)
    (hFlen : ∀ i, i < n → ∀ inp, inp.length = (s.heap (a i)).input_data.length →
      (F (a i) inp).length = (s.heap (a i)).output_data.length)
    (hFs : ∀ i, i < n → ∀ out inp, ops.adjoint_eval (a i) out inp = Fs (a i) out)
    (hFslen : ∀ i, i < n → ∀ out, out.length = (s.heap (a i)).output_data.length →
      (Fs (a i) out).length = (s.heap (a i)).input_data.length)
    (hem : s.eval_map = map_clear) (hq : s.ready_queue = [])
    (fuel : Nat) (hfuel : n < fuel) :
    (∃ s', forward_eval ops fuel s = some s' ∧
      vec_read s'.heap (get_forward_output s')
        = (List.range n).foldl (fun acc i => F (a i) acc)
            (vec_read s.heap (get_forward_input s))) ∧
    (∃ s', adjoint_eval ops fuel s = some s' ∧
      vec_read s'.heap (get_adjoint_output s')
        = (List.range n).foldr (fun i acc => Fs (a i) acc)
            (vec_read s.heap (get_adjoint_input s))) := by
  constructor
  · obtain ⟨s', h1, -, -, -, h5, -, -, h8⟩ :=
      chain_forward_spec ops F s a n hc hF hFlen hem hq fuel hfuel
    refine ⟨s', h1, ?_⟩
    simp only [get_forward_output, get_forward_input, vec_read, h5, hc.exit, hc.entry]
    exact h8
  · obtain ⟨s', h1, -, -, h4, -, -, -, h8⟩ :=
      chain_adjoint_spec ops Fs s a n hc hFs hFslen hem hq fuel hfuel
    refine ⟨s', h1, ?_⟩
    simp only [get_adjoint_output, get_adjoint_input, get_forward_output, get_forward_input,
      vec_read, h4, hc.exit, hc.entry]
    exact h8

theorem chain_eval_composes_witness :
    IsChain (scale_ops (fun _ => (2 : Int))) chain3_dag (fun i => i) 3 ∧
    (∃ s', forward_eval (scale_ops (fun _ => (2 : Int))) 4 chain3_dag = some s' ∧
      vec_read s'.heap (get_forward_output s')
        = (List.range 3).foldl (fun acc _ => acc.map (fun x => 2 * x))
            (vec_read chain3_dag.heap (get_forward_input chain3_dag))) ∧
    (∃ s', adjoint_eval (scale_ops (fun _ => (2 : Int))) 4 chain3_dag = some s' ∧
      vec_read s'.heap (get_adjoint_output s')
        = (List.range 3).foldr (fun _ acc => acc.map (fun x => 2 * x))
            (vec_read chain3_dag.heap (get_adjoint_input chain3_dag))) :=
  ⟨chain3_isChain,
    chain_eval_composes (scale_ops (fun _ => (2 : Int)))
      (fun _ inp => inp.map (fun x => 2 * x)) (fun _ out => out.map (fun x => 2 * x))
      chain3_dag (fun i => i) 3 chain3_isChain
      (fun _ _ _ _ => rfl)
      (by
        intro i hi inp hlen
        have : i = 0 ∨ i = 1 ∨ i = 2 := by omega
        rcases this with rfl | rfl | rfl <;> simpa using hlen)
      (fun _ _ _ _ => rfl)
      (by
        intro i hi out hlen
        have : i = 0 ∨ i = 1 ∨ i = 2 := by omega
        rcases this with rfl | rfl | rfl <;> simpa using hlen)
      rfl rfl 4 (by decide)⟩

/-- C6: over exact arithmetic (any commutative monoid of scalars, such as the
integers, rationals or reals under multiplication), on a linear chain of scaling
nodes with factors `k (a 0), ..., k (a (n-1))` (forward `out = k * in`, adjoint
`in = k * out`, buffers of one common size per node): `copy_input(x, forward)`,
`forward_eval()`, `copy_output(forward)` succeed and yield `x` times the product of
the factors, and then `copy_input(seed, adjoint)`, `adjoint_eval()`,
`copy_output(adjoint)` succeed and yield `seed` times the product of the factors.
This holds whether or not the code is compiled with `NDEBUG` defined. -/
theorem scaling_chain_round_trip {α : Type} [CommMonoid α] (ndebug : Bool) (ops : FAOOps α)
    (k : Nat → α) (s : FAO_DAG α) (a : Nat → Nat) (n : Nat) (hc : IsChain ops s a n)
    (hfwd : ∀ i, i < n → ∀ inp out,
      ops.forward_eval (a i) inp out = inp.map (fun v => k (a i) * v))
    (hadj : ∀ i, i < n → ∀ out inp,
      ops.adjoint_eval (a i) out inp = out.map (fun v => k (a i) * v))
    (hsize : ∀ i, i < n →
      (s.heap (a i)).input_data.length = (s.heap (a i)).output_data.length)
    (hem : s.eval_map = map_clear) (hq : s.ready_queue = [])
    (x seed out0 out1 : List α)
    (hx : x.length = (s.heap s.start_node).input_data.length)
    (hseed : seed.length = (s.heap s.end_node).output_data.length)
    (hout0 : out0.length = (s.heap s.end_node).output_data.length)
    (hout1 : out1.length = (s.heap s.start_node).input_data.length)
    (fuel : Nat) (hfuel : n < fuel) :
    ∃ s2 s5,
      (copy_input ndebug s x true).1 = .ok () ∧
      forward_eval ops fuel (copy_input ndebug s x true).2 = some s2 ∧
      copy_output ndebug s2 out0 true
        = (.ok (), x.map (fun v => v * ((List.range n).map (fun i => k (a i))).prod), s2) ∧
      (copy_input ndebug s2 seed false).1 = .ok () ∧
      adjoint_eval ops fuel (copy_input ndebug s2 seed false).2 = some s5 ∧
      copy_output ndebug s5 out1 false
        = (.ok (), seed.map (fun v => v * ((List.range n).map (fun i => k (a i))).prod),
            s5) := by
  -- copy_input(x, forward)
  obtain ⟨c1, c2, c3, c4, c5, c6, c7, c8⟩ := copy_input_ok ndebug s x true
    (by simpa [get_forward_input, vec_read] using hx)
  simp only [if_true, get_forward_input, vec_read] at c8
  have hc1 : IsChain ops (copy_input ndebug s x true).2 a n := hc.congr c6 c7 c4 c5
  -- forward_eval()
  obtain ⟨s2, f1, f2, f3, f4, f5, f6, f7, f8⟩ := chain_forward_spec ops
    (fun u inp => inp.map (fun v => k u * v)) (copy_input ndebug s x true).2 a n hc1 hfwd
    (by
      intro i hi inp hlen
      rw [List.length_map, hlen, (c7 (a i)).1, (c7 (a i)).2]
      exact hsize i hi)
    (by rw [c3]; exact hem) (by rw [c2]; exact hq) fuel hfuel
  rw [← hc.entry, c8] at f8
  have f8' := (foldl_scale (fun i => k (a i)) (List.range n) x)
  have hout2 : (s2.heap s2.end_node).output_data
      = x.map (fun v => v * ((List.range n).map (fun i => k (a i))).prod) := by
    rw [f5, c5, hc.exit, f8]; exact f8'
  have hc2 : IsChain ops s2 a n := hc1.congr f6 f7 f4 f5
  -- copy_output(forward)
  have o1 := copy_output_ok ndebug s2 out0 true (by
    simp only [if_true, get_forward_output, vec_read]
    rw [hout0, f5, c5, (f7 _).2, (c7 _).2])
  simp only [if_true, get_forward_output, vec_read, hout2] at o1
  -- copy_input(seed, adjoint)
  obtain ⟨d1, d2, d3, d4, d5, d6, d7, d8⟩ := copy_input_ok ndebug s2 seed false (by
    simp only [Bool.false_eq_true, if_false, get_adjoint_input, get_forward_output, vec_read]
    rw [hseed, f5, c5, (f7 _).2, (c7 _).2])
  simp only [Bool.false_eq_true, if_false, get_adjoint_input, get_forward_output,
    vec_read] at d8
  have hc3 : IsChain ops (copy_input ndebug s2 seed false).2 a n := hc2.congr d6 d7 d4 d5
  -- adjoint_eval()
  obtain ⟨s5, g1, g2, g3, g4, g5, g6, g7, g8⟩ := chain_adjoint_spec ops
    (fun u out => out.map (fun v => k u * v)) (copy_input ndebug s2 seed false).2 a n hc3 hadj
    (by
      intro i hi out hlen
      rw [List.length_map, hlen, (d7 (a i)).1, (d7 (a i)).2, (f7 (a i)).1, (f7 (a i)).2,
        (c7 (a i)).1, (c7 (a i)).2]
      exact (hsize i hi).symm)
    (by rw [d3]; exact f3) (by rw [d2]; exact f2) fuel hfuel
  rw [← hc2.exit, d8] at g8
  have g8' := (foldr_scale (fun i => k (a i)) (List.range n) seed)
  have hin5 : (s5.heap s5.start_node).input_data
      = seed.map (fun v => v * ((List.range n).map (fun i => k (a i))).prod) := by
    rw [g4, d4, hc2.entry, g8]; exact g8'
  -- copy_output(adjoint)
  have o2 := copy_output_ok ndebug s5 out1 false (by
    simp only [Bool.false_eq_true, if_false, get_adjoint_output, get_forward_input, vec_read]
    rw [hout1, g4, d4, f4, c4, (g7 _).1, (d7 _).1, (f7 _).1, (c7 _).1])
  simp only [Bool.false_eq_true, if_false, get_adjoint_output, get_forward_input, vec_read,
    hin5] at o2
  exact ⟨s2, s5, c1, f1, o1, d1, g1, o2⟩

theorem scaling_chain_round_trip_witness :
    ∃ s2 s5,
      (copy_input false chain3_dag [1] true).1 = .ok () ∧
      forward_eval (scale_ops (fun _ => (2 : Int))) 4 (copy_input false chain3_dag [1] true).2
        = some s2 ∧
      copy_output false s2 [0] true = (.ok (), [8], s2) ∧
      (copy_input false s2 [8] false).1 = .ok () ∧
      adjoint_eval (scale_ops (fun _ => (2 : Int))) 4 (copy_input false s2 [8] false).2
        = some s5 ∧
      copy_output false s5 [0] false = (.ok (), [64], s5) :=
  scaling_chain_round_trip false (scale_ops (fun _ => (2 : Int))) (fun _ => 2) chain3_dag
    (fun i => i) 3 chain3_isChain (fun _ _ _ _ => rfl) (fun _ _ _ _ => rfl)
    (by
      intro i hi
      have : i = 0 ∨ i = 1 ∨ i = 2 := by omega
      rcases this with rfl | rfl | rfl <;> rfl)
    rfl rfl [1] [8] [0] [0] rfl rfl rfl rfl 4 (by decide)

/-- C7: `forward_eval` is idempotent on the node buffers: on a valid two-terminal DAG
with pure node operations (input and output buffers of a node are distinct by the
data model), for every initial buffer contents, two calls in a row both return, and
the second leaves the input and output buffer of every node exactly as the first
left them. -/
theorem forward_eval_idempotent {α : Type} (ops : FAOOps α) (F : Nat → List α → List α)
    (s : FAO_DAG α) (nodes : List Nat) (hdag : TwoTerminalDAG s nodes)
    (hpure : ∀ u ∈ nodes, ∀ inp out, ops.forward_eval u inp out = F u inp)
    (hem : s.eval_map = map_clear) (hq : s.ready_queue = [])
    (fuel : Nat) (hfuel : nodes.length < fuel) :
    ∃ s1 s2, forward_eval ops fuel s = some s1 ∧ forward_eval ops fuel s1 = some s2 ∧
      ∀ v, (s2.heap v).input_data = (s1.heap v).input_data ∧
        (s2.heap v).output_data = (s1.heap v).output_data := by
  have hs := sched_of_wellFormed true s nodes hdag.1 hdag.2.1
  have hnf := forward_node_eval_preservesTopology ops
  obtain ⟨s1, log1, h1, _, h3, _, h5, h6, h7, h8, h9, h10⟩ :=
    traverse_graph_spec (forward_node_eval ops) true s nodes hs hnf hem hq fuel hfuel
  obtain ⟨f1, f2, -⟩ := forward_fold_frame ops s.heap log1 [] s.heap (SameStatic.refl _) h5
  rw [← h6] at f1 f2
  have hch : (fun u => children true (s1.heap u)) = (fun u => children true (s.heap u)) := by
    funext u; unfold children; rw [(f1 u).1, (f1 u).2.1]
  have hpa : (fun u => parents true (s1.heap u)) = (fun u => parents true (s.heap u)) := by
    funext u; unfold parents; rw [(f1 u).1, (f1 u).2.1]
  have hst : start_of true s1 = start_of true s := by
    unfold start_of; simp only [if_true]; exact h9
  have hs1 : Sched (fun u => children true (s1.heap u)) (fun u => parents true (s1.heap u))
      nodes (start_of true s1) := by
    rw [hch, hpa, hst]; exact hs
  obtain ⟨s2, log2, g1, _, _, _, _, g6, -⟩ :=
    traverse_graph_spec (forward_node_eval ops) true s1 nodes hs1 hnf h8 h7 fuel hfuel
  have hsim : Sim s s1 := by
    refine ⟨by rw [hq, h7], fun k => by rw [hem, h8], fun v => ?_⟩
    exact ⟨(f1 v).1.symm, (f1 v).2.1.symm⟩
  have hlog := traverse_graph_log_congr (forward_node_eval ops) (forward_node_eval ops) true
    hnf hnf fuel s s1 hsim h9.symm h10.symm
  rw [h1, g1] at hlog
  simp only [Option.map_some', Option.some.injEq] at hlog
  subst hlog
  refine ⟨s1, s2, by simp [forward_eval, h1], by simp [forward_eval, g1], ?_⟩
  intro v
  have := forward_fold_lockstep ops F s.heap nodes hpure log1 [] s.heap s1.heap s1.heap
    (fun u hu => (h3 u).mp hu) (SameStatic.refl _) f1 h5 h6 (fun _ => rfl) f2
    (fun _ _ => Or.inr rfl) v
  rw [← g6] at this
  exact ⟨this.2, this.1⟩

theorem forward_eval_idempotent_witness :
    TwoTerminalDAG diamond_dag [0, 1, 2, 3] ∧
    ∃ s1 s2, forward_eval diamond_ops 5 diamond_dag = some s1 ∧
      forward_eval diamond_ops 5 s1 = some s2 ∧
      ∀ v, (s2.heap v).input_data = (s1.heap v).input_data ∧
        (s2.heap v).output_data = (s1.heap v).output_data :=
  ⟨diamond_twoTerminal,
    forward_eval_idempotent diamond_ops (fun u inp => diamond_ops.forward_eval u inp [])
      diamond_dag [0, 1, 2, 3] diamond_twoTerminal (fun _ _ _ _ => rfl) rfl rfl 5
      (by decide)⟩

/-- C9: the adjoint boundary buffers are the forward ones with the roles swapped:
`get_adjoint_input` is `get_forward_output` and `get_adjoint_output` is
`get_forward_input`, so values of the right length written by `copy_input` in one
direction are what `copy_output` reads in the other direction. This holds whether or
not the code is compiled with `NDEBUG` defined. -/
theorem boundary_roles_swapped {α : Type} (ndebug : Bool) (s : FAO_DAG α)
    (values out : List α) (dir : Bool)
    (hlen : values.length
      = (vec_read s.heap (if dir then get_forward_input s else get_adjoint_input s)).length)
    (hout : out.length = values.length) :
    get_adjoint_input s = get_forward_output s ∧
    get_adjoint_output s = get_forward_input s ∧
    (copy_input ndebug s values dir).1 = .ok () ∧
    (copy_output ndebug (copy_input ndebug s values dir).2 out (!dir)).1 = .ok () ∧
    (copy_output ndebug (copy_input ndebug s values dir).2 out (!dir)).2.1 = values := by
  refine ⟨rfl, rfl, ?_⟩
  obtain ⟨c1, -, -, c4, c5, -, -, c8⟩ := copy_input_ok ndebug s values dir hlen
  cases dir
  · simp only [Bool.false_eq_true, if_false, get_adjoint_input, get_forward_output] at c8
    have o := copy_output_ok ndebug (copy_input ndebug s values false).2 out true (by
      simp only [if_true, get_forward_output, c5, c8]; exact hout)
    simp only [if_true, get_forward_output, c5, c8] at o
    exact ⟨c1, by rw [Bool.not_false, o], by rw [Bool.not_false, o]⟩
  · simp only [if_true, get_forward_input] at c8
    have o := copy_output_ok ndebug (copy_input ndebug s values true).2 out false (by
      simp only [Bool.false_eq_true, if_false, get_adjoint_output, get_forward_input, c4, c8]
      exact hout)
    simp only [Bool.false_eq_true, if_false, get_adjoint_output, get_forward_input, c4,
      c8] at o
    exact ⟨c1, by rw [Bool.not_true, o], by rw [Bool.not_true, o]⟩

theorem boundary_roles_swapped_witness :
    (copy_input false diamond_dag [7] false).1 = .ok () ∧
    (copy_output false (copy_input false diamond_dag [7] false).2 [0] true).1 = .ok () ∧
    (copy_output false (copy_input false diamond_dag [7] false).2 [0] true).2.1 = [7] :=
  (boundary_roles_swapped false diamond_dag [7] [0] false rfl rfl).2.2

/-- C11: on every finite graph, well-formed or not, and in either direction, a call
of `traverse_graph` that starts with an empty `eval_map` and an empty `ready_queue`
returns, with `eval_map` empty and `ready_queue` empty. Hence whatever traversals
(any `node_fn` that leaves the neighbour lists alone, any direction: the node
functions of `forward_eval`, of `adjoint_eval`, of the constructor) were run before
on the same instance, they return, and the traversal run after them has the same
log, that is the same sequence of visited nodes, as the traversal run first. -/
theorem traverse_graph_resets_scheduler {α : Type}
    (node_fn : Nat → Heap α → Heap α) (forward : Bool) (s : FAO_DAG α) (nodes : List Nat)
    (hfin : FiniteGraph s nodes) (hfn : PreservesTopology node_fn)
    (hem : s.eval_map = map_clear) (hq : s.ready_queue = [])
    (fuel : Nat) (hfuel : nodes.length + 1 < fuel) :
    (∃ s' log, traverse_graph node_fn forward fuel s = some (s', log) ∧
      s'.eval_map = map_clear ∧ s'.ready_queue = []) ∧
    ∀ prev : List ((Nat → Heap α → Heap α) × Bool), (∀ p ∈ prev, PreservesTopology p.1) →
      ∃ t, run_traversals fuel prev s = some t ∧
        t.eval_map = map_clear ∧ t.ready_queue = [] ∧
        ∃ s' t' log, traverse_graph node_fn forward fuel s = some (s', log) ∧
          traverse_graph node_fn forward fuel t = some (t', log) := by
  obtain ⟨s', log, e1, -, -, -, -, -, -, e8, e9, -, -⟩ :=
    traverse_graph_general node_fn forward s nodes (hfin.start_of_mem forward)
      (hfin.closed forward) hfn hq fuel hfuel
  refine ⟨⟨s', log, e1, e9, e8⟩, fun prev hprev => ?_⟩
  obtain ⟨t, f1, f2, f3, f4, f5, f6⟩ :=
    run_traversals_spec nodes fuel hfuel prev s hfin hprev hem hq
  have hsim : Sim s t :=
    ⟨by rw [hq, f3], fun k => by rw [hem, f2], fun v => ⟨(f6 v).1.symm, (f6 v).2.symm⟩⟩
  have hlog := traverse_graph_log_congr node_fn node_fn forward hfn hfn fuel s t hsim
    f4.symm f5.symm
  rw [e1] at hlog
  cases ht : traverse_graph node_fn forward fuel t with
  | none => rw [ht] at hlog; simp at hlog
  | some r =>
    rw [ht] at hlog
    simp only [Option.map_some', Option.some.injEq] at hlog
    exact ⟨t, f1, f2, f3, s', r.1, log, e1, by rw [hlog]; exact ht⟩

theorem traverse_graph_resets_scheduler_witness :
    FiniteGraph two_cycle_dag [0, 1] ∧
    (∃ s' log, traverse_graph skip_fn true 4 two_cycle_dag = some (s', log) ∧
      s'.eval_map = map_clear ∧ s'.ready_queue = []) ∧
    ∀ prev : List ((Nat → Heap Int → Heap Int) × Bool), (∀ p ∈ prev, PreservesTopology p.1) →
      ∃ t, run_traversals 4 prev two_cycle_dag = some t ∧
        t.eval_map = map_clear ∧ t.ready_queue = [] ∧
        ∃ s' t' log, traverse_graph skip_fn true 4 two_cycle_dag = some (s', log) ∧
          traverse_graph skip_fn true 4 t = some (t', log) :=
  ⟨two_cycle_finite,
    traverse_graph_resets_scheduler skip_fn true two_cycle_dag [0, 1] two_cycle_finite
      skip_fn_preservesTopology rfl rfl 4 (by decide)⟩

/-- C12: on every valid two-terminal DAG, with `alloc_data`, `init_offset_maps` and
`free_data` that leave the neighbour lists alone: the constructor returns, its
traversal calls `node_fn`, that is `alloc_data` and then `init_offset_maps`, exactly
once on every node of the graph and on no other node, and the memory it leaves is
the result of these calls in visit order. After any sequence of `forward_eval` and
`adjoint_eval` calls on the instance, which return and whose definitions contain no
call of the three functions, the destructor returns, its traversal calls `node_fn`,
that is `free_data`, exactly once on every node of the graph and on no other node,
and the memory it leaves is the result of these calls. Per node, one allocation and
one free over the lifetime. -/
theorem lifetime_allocates_and_frees_once {α : Type} (mem : FAOAlloc α) (ops : FAOOps α)
    (nodes : List Nat) (start end_node : Nat) (h : Heap α)
    (hdag : TwoTerminalDAG
      ({ start_node := start, end_node := end_node, ready_queue := [],
         eval_map := map_clear, heap := h } : FAO_DAG α) nodes)
    (halloc : PreservesTopology mem.alloc_data)
    (hinit : PreservesTopology mem.init_offset_maps)
    (hfree : PreservesTopology mem.free_data)
    (fuel : Nat) (hfuel : nodes.length + 1 < fuel) :
    ∃ s1 log1, construct mem fuel start end_node h = some (s1, log1) ∧
      (∀ v ∈ nodes, (visited log1).count v = 1) ∧
      (∀ v, v ∉ nodes → (visited log1).count v = 0) ∧
      s1.heap = (visited log1).foldl
        (fun m u => mem.init_offset_maps u (mem.alloc_data u m)) h ∧
      ∀ evals : List Bool, ∃ s2, run_evals ops fuel evals s1 = some s2 ∧
        ∃ s3 log3, destruct mem fuel s2 = some (s3, log3) ∧
          (∀ v ∈ nodes, (visited log3).count v = 1) ∧
          (∀ v, v ∉ nodes → (visited log3).count v = 0) ∧
          s3.heap = (visited log3).foldl (fun m u => mem.free_data u m) s2.heap := by
  have hfn1 : PreservesTopology
      (fun (node : Nat) (m : Heap α) => mem.init_offset_maps node (mem.alloc_data node m)) := by
    intro u m v
    obtain ⟨a1, a2⟩ := halloc u m v
    obtain ⟨b1, b2⟩ := hinit u (mem.alloc_data u m) v
    exact ⟨b1.trans a1, b2.trans a2⟩
  have hlt : nodes.length < fuel := by omega
  have hcount : ∀ log : List (Nat × List Nat), (visited log).Nodup →
      (∀ v, v ∈ visited log ↔ v ∈ nodes) →
      (∀ v ∈ nodes, (visited log).count v = 1) ∧
      (∀ v, v ∉ nodes → (visited log).count v = 0) := by
    intro log hnd hmem
    refine ⟨fun v hv => List.count_eq_one_of_mem hnd ((hmem v).mpr hv), fun v hv => ?_⟩
    rw [List.count_eq_zero]
    exact fun hin => hv ((hmem v).mp hin)
  obtain ⟨s1, log1, c1, c2, c3, -, -, c6, c7, c8, c9, c10⟩ :=
    traverse_graph_spec _ true _ nodes (sched_of_wellFormed true _ nodes hdag.1 hdag.2.1)
      hfn1 rfl rfl fuel hlt
  have hdag1 : TwoTerminalDAG s1 nodes := by
    refine twoTerminalDAG_congr hdag c9 c10 (fun v => ?_)
    rw [c6]
    exact foldl_preservesTopology hfn1 (visited log1) h v
  refine ⟨s1, log1, c1, (hcount log1 c2 c3).1, (hcount log1 c2 c3).2, c6, fun evals => ?_⟩
  obtain ⟨s2, e1, e2, e3, e4, -, -⟩ :=
    run_evals_spec ops nodes fuel hfuel evals s1 hdag1 c8 c7
  obtain ⟨s3, log3, d1, d2, d3, -, -, d6, -⟩ :=
    traverse_graph_spec (fun (node : Nat) (m : Heap α) => mem.free_data node m) true s2 nodes
      (sched_of_wellFormed true s2 nodes e2.1 e2.2.1) hfree e3 e4 fuel hlt
  exact ⟨s2, e1, s3, log3, d1, (hcount log3 d2 d3).1, (hcount log3 d2 d3).2, d6⟩

theorem lifetime_allocates_and_frees_once_witness :
    TwoTerminalDAG
      ({ start_node := 0, end_node := 3, ready_queue := [], eval_map := map_clear,
         heap := diamond_heap } : FAO_DAG Int) [0, 1, 2, 3] ∧
    ∃ s1 log1, construct zero_alloc 6 0 3 diamond_heap = some (s1, log1) ∧
      (∀ v ∈ [0, 1, 2, 3], (visited log1).count v = 1) ∧
      (∀ v, v ∉ [0, 1, 2, 3] → (visited log1).count v = 0) ∧
      s1.heap = (visited log1).foldl
        (fun m u => zero_alloc.init_offset_maps u (zero_alloc.alloc_data u m)) diamond_heap ∧
      ∀ evals : List Bool, ∃ s2, run_evals diamond_ops 6 evals s1 = some s2 ∧
        ∃ s3 log3, destruct zero_alloc 6 s2 = some (s3, log3) ∧
          (∀ v ∈ [0, 1, 2, 3], (visited log3).count v = 1) ∧
          (∀ v, v ∉ [0, 1, 2, 3] → (visited log3).count v = 0) ∧
          s3.heap = (visited log3).foldl (fun m u => zero_alloc.free_data u m) s2.heap :=
  ⟨diamond_twoTerminal,
    lifetime_allocates_and_frees_once zero_alloc diamond_ops [0, 1, 2, 3] 0 3 diamond_heap
      diamond_twoTerminal zero_alloc_preservesTopology.1 zero_alloc_preservesTopology.2.1
      zero_alloc_preservesTopology.2.2 6 (by decide)⟩

/-- C13: `forward_eval` changes buffer contents only. On every valid two-terminal DAG
whose offset maps hold an entry for every neighbour, with node operations that fill
the output buffer they are given without resizing it, `forward_eval` returns, and
the start and end node, `eval_map`, `ready_queue` and, for every node, the
predecessor and successor lists, the edge sizes, the `input_offsets` and
`output_offsets` maps and the lengths of both buffers are what they were before the
call. -/
theorem forward_eval_changes_buffers_only {α : Type} (ops : FAOOps α) (s : FAO_DAG α)
    (nodes : List Nat) (hdag : TwoTerminalDAG s nodes) (hoff : OffsetsComplete s.heap nodes)
    (hlen : ∀ u ∈ nodes, ∀ inp out, inp.length = (s.heap u).input_data.length →
      out.length = (s.heap u).output_data.length →
      (ops.forward_eval u inp out).length = out.length)
    (hem : s.eval_map = map_clear) (hq : s.ready_queue = [])
    (fuel : Nat) (hfuel : nodes.length < fuel) :
    ∃ s', forward_eval ops fuel s = some s' ∧
      s'.start_node = s.start_node ∧ s'.end_node = s.end_node ∧
      s'.eval_map = s.eval_map ∧ s'.ready_queue = s.ready_queue ∧
      ∀ v, (s'.heap v).input_nodes = (s.heap v).input_nodes ∧
        (s'.heap v).output_nodes = (s.heap v).output_nodes ∧
        (s'.heap v).input_sizes = (s.heap v).input_sizes ∧
        (s'.heap v).output_sizes = (s.heap v).output_sizes ∧
        (s'.heap v).input_offsets = (s.heap v).input_offsets ∧
        (s'.heap v).output_offsets = (s.heap v).output_offsets ∧
        (s'.heap v).input_data.length = (s.heap v).input_data.length ∧
        (s'.heap v).output_data.length = (s.heap v).output_data.length := by
  obtain ⟨s', h1, h2, h3, h4, h5, h6⟩ :=
    forward_eval_frame ops s nodes hdag hoff hlen hem hq fuel hfuel
  exact ⟨s', h1, h2, h3, h4, h5, h6⟩

theorem forward_eval_changes_buffers_only_witness :
    TwoTerminalDAG diamond_dag [0, 1, 2, 3] ∧ OffsetsComplete diamond_dag.heap [0, 1, 2, 3] ∧
    ∃ s', forward_eval diamond_ops 5 diamond_dag = some s' ∧
      s'.start_node = diamond_dag.start_node ∧ s'.end_node = diamond_dag.end_node ∧
      s'.eval_map = diamond_dag.eval_map ∧ s'.ready_queue = diamond_dag.ready_queue ∧
      ∀ v, (s'.heap v).input_nodes = (diamond_dag.heap v).input_nodes ∧
        (s'.heap v).output_nodes = (diamond_dag.heap v).output_nodes ∧
        (s'.heap v).input_sizes = (diamond_dag.heap v).input_sizes ∧
        (s'.heap v).output_sizes = (diamond_dag.heap v).output_sizes ∧
        (s'.heap v).input_offsets = (diamond_dag.heap v).input_offsets ∧
        (s'.heap v).output_offsets = (diamond_dag.heap v).output_offsets ∧
        (s'.heap v).input_data.length = (diamond_dag.heap v).input_data.length ∧
        (s'.heap v).output_data.length = (diamond_dag.heap v).output_data.length :=
  ⟨diamond_twoTerminal, diamond_offsetsComplete,
    forward_eval_changes_buffers_only diamond_ops diamond_dag [0, 1, 2, 3]
      diamond_twoTerminal diamond_offsetsComplete
      (by
        intro u hu inp out _ hout
        simp only [List.mem_cons, List.mem_singleton, List.not_mem_nil, or_false] at hu
        rcases hu with rfl | rfl | rfl | rfl <;> rw [hout] <;> rfl)
      rfl rfl 5 (by decide)⟩

/-- C14, as amended: on every finite graph whose traversal start node lies on no
cycle, `traverse_graph`, called with an empty `eval_map` and `ready_queue`, returns
normally with the ready queue empty, and it never passes to `node_fn` a node other
than the start node whose threshold is 0 or larger than the number of edges into it,
nor, when the predecessor and successor lists are mutually consistent, a node that
lies on a cycle. So a graph that has such a node is left with a node that was never
visited. (A cycle through the start node can be traversed completely.) -/
theorem traverse_graph_stalls {α : Type}
    (node_fn : Nat → Heap α → Heap α) (forward : Bool) (s : FAO_DAG α) (nodes : List Nat)
    (hfin : FiniteGraph s nodes)
    (hcyc : ¬ Relation.TransGen (fun a b => b ∈ children forward (s.heap a))
      (start_of forward s) (start_of forward s))
    (hfn : PreservesTopology node_fn)
    (hem : s.eval_map = map_clear) (hq : s.ready_queue = [])
    (fuel : Nat) (hfuel : nodes.length + 1 < fuel) :
    ∃ s' log, traverse_graph node_fn forward fuel s = some (s', log) ∧
      s'.ready_queue = [] ∧
      (∀ v ∈ nodes, v ≠ start_of forward s →
        ((parents forward (s.heap v)).length = 0 ∨
          (nodes.map (fun u => (children forward (s.heap u)).count v)).sum
            < (parents forward (s.heap v)).length) →
        v ∉ visited log) ∧
      ((∀ u ∈ nodes, ∀ v ∈ nodes,
          (s.heap u).output_nodes.count v = (s.heap v).input_nodes.count u) →
        ∀ v ∈ nodes,
          Relation.TransGen (fun a b => b ∈ children forward (s.heap a)) v v →
          v ∉ visited log) := by
  obtain ⟨s', log, e1, e2, -, -⟩ :=
    traverse_graph_stuck node_fn forward s nodes (hfin.start_of_mem forward)
      (hfin.closed forward) hcyc (fun _ => False) (fun _ h => h.elim) (fun h => h)
      hfn hem hq fuel hfuel
  refine ⟨s', log, e1, e2, ?_, ?_⟩
  · intro v _ hne hbad hvis
    obtain ⟨s2, log2, f1, -, -, f4⟩ :=
      traverse_graph_stuck node_fn forward s nodes (hfin.start_of_mem forward)
        (hfin.closed forward) hcyc (fun w => w = v) (stuck_single _ _ nodes v hbad)
        (fun h => hne h.symm) hfn hem hq fuel hfuel
    rw [e1] at f1
    simp only [Option.some.injEq, Prod.mk.injEq] at f1
    obtain ⟨-, rfl⟩ := f1
    exact (f4 v hvis).2 rfl
  · intro hcons v hv hc hvis
    have hcons' : ∀ u ∈ nodes, ∀ w ∈ nodes,
        (children forward (s.heap u)).count w = (parents forward (s.heap w)).count u := by
      intro u hu w hw
      cases forward
      · exact (hcons w hw u hu).symm
      · exact hcons u hu w hw
    obtain ⟨s2, log2, f1, -, -, f4⟩ :=
      traverse_graph_stuck node_fn forward s nodes (hfin.start_of_mem forward)
        (hfin.closed forward) hcyc _
        (stuck_cycle (fun u => children forward (s.heap u))
          (fun u => parents forward (s.heap u)) nodes (hfin.closed forward) hcons')
        (fun h => hcyc h.2) hfn hem hq fuel hfuel
    rw [e1] at f1
    simp only [Option.some.injEq, Prod.mk.injEq] at f1
    obtain ⟨-, rfl⟩ := f1
    exact (f4 v hvis).2 ⟨hv, hc⟩

theorem traverse_graph_stalls_witness :
    FiniteGraph lasso_dag [0, 1, 2] ∧
    ¬ Relation.TransGen (fun a b => b ∈ children true (lasso_dag.heap a))
      (start_of true lasso_dag) (start_of true lasso_dag) ∧
    ∃ s' log, traverse_graph skip_fn true 5 lasso_dag = some (s', log) ∧
      s'.ready_queue = [] ∧
      (∀ v ∈ [0, 1, 2], v ≠ start_of true lasso_dag →
        ((parents true (lasso_dag.heap v)).length = 0 ∨
          ([0, 1, 2].map (fun u => (children true (lasso_dag.heap u)).count v)).sum
            < (parents true (lasso_dag.heap v)).length) →
        v ∉ visited log) ∧
      ((∀ u ∈ [0, 1, 2], ∀ v ∈ [0, 1, 2],
          (lasso_dag.heap u).output_nodes.count v = (lasso_dag.heap v).input_nodes.count u) →
        ∀ v ∈ [0, 1, 2],
          Relation.TransGen (fun a b => b ∈ children true (lasso_dag.heap a)) v v →
          v ∉ visited log) :=
  ⟨lasso_finite, lasso_start_acyclic,
    traverse_graph_stalls skip_fn true lasso_dag [0, 1, 2] lasso_finite lasso_start_acyclic
      skip_fn_preservesTopology rfl rfl 5 (by decide)⟩

/-- C14, as stated, fails on the cycle 0 -> 1 -> 0 with entry 0 and exit 1: it is a
finite graph with mutually consistent lists in which every node is reachable from
the entry node and the exit node from every node, and it contains a cycle; yet the
forward traversal returns with the ready queue empty having passed every node of the
graph to `node_fn`, so that it does not return having left a node unvisited. -/
theorem cycle_through_start_is_traversed :
    FiniteGraph two_cycle_dag [0, 1] ∧
    (∀ u ∈ [0, 1], ∀ v ∈ [0, 1],
      (two_cycle_dag.heap u).output_nodes.count v
        = (two_cycle_dag.heap v).input_nodes.count u) ∧
    Reachable true two_cycle_dag [0, 1] ∧ Reachable false two_cycle_dag [0, 1] ∧
    Relation.TransGen (succ_edge two_cycle_dag.heap) 0 0 ∧
    (∃ s' log, traverse_graph skip_fn true 4 two_cycle_dag = some (s', log) ∧
        s'.ready_queue = [] ∧ ∀ v ∈ [0, 1], v ∈ visited log) ∧
    ¬ ∃ s' log, traverse_graph skip_fn true 4 two_cycle_dag = some (s', log) ∧
        s'.ready_queue = [] ∧ ∃ v ∈ [0, 1], v ∉ visited log := by
  have e01 : succ_edge two_cycle_dag.heap 0 1 := by
    show (1 : Nat) ∈ (two_cycle_dag.heap 0).output_nodes
    decide
  have e10 : succ_edge two_cycle_dag.heap 1 0 := by
    show (0 : Nat) ∈ (two_cycle_dag.heap 1).output_nodes
    decide
  have hrun : (traverse_graph skip_fn true 4 two_cycle_dag).map
      (fun r => (r.1.ready_queue, visited r.2)) = some ([], [0, 1]) := by
    decide
  refine ⟨two_cycle_finite, by decide, ⟨by decide, ?_⟩, ⟨by decide, ?_⟩,
    Relation.TransGen.tail (Relation.TransGen.single e01) e10, ?_, ?_⟩
  · intro v hv
    simp only [List.mem_cons, List.mem_singleton, List.not_mem_nil, or_false] at hv
    rcases hv with rfl | rfl
    · exact Relation.ReflTransGen.refl
    · exact Relation.ReflTransGen.single e01
  · intro v hv
    simp only [List.mem_cons, List.mem_singleton, List.not_mem_nil, or_false] at hv
    rcases hv with rfl | rfl
    · exact Relation.ReflTransGen.single e01
    · exact Relation.ReflTransGen.refl
  · cases h : traverse_graph skip_fn true 4 two_cycle_dag with
    | none => rw [h] at hrun; simp at hrun
    | some r =>
      rw [h] at hrun
      simp only [Option.map_some', Option.some.injEq, Prod.mk.injEq] at hrun
      exact ⟨r.1, r.2, rfl, hrun.1, by rw [hrun.2]; decide⟩
  · rintro ⟨s', log, h, -, v, hv, hnv⟩
    rw [h] at hrun
    simp only [Option.map_some', Option.some.injEq, Prod.mk.injEq] at hrun
    rw [hrun.2] at hnv
    exact hnv hv

/-- C15: `adjoint_eval` is the exact dual of `forward_eval`. For every state of the
graph, and every bound on the number of iterations, `adjoint_eval` gives what
`forward_eval` gives on the transposed state (entry and exit exchanged; in every node
`input_nodes`/`output_nodes`, `input_sizes`/`output_sizes`,
`input_offsets`/`output_offsets` and `input_data`/`output_data` exchanged; the
forward operation replaced by the adjoint operation), transposed back: the same
state when one returns, no state when one does not. -/
theorem adjoint_eval_is_transposed_forward_eval {α : Type} (ops : FAOOps α) (fuel : Nat)
    (s : FAO_DAG α) :
    adjoint_eval ops fuel s
      = (forward_eval ops.transpose fuel s.transpose).map FAO_DAG.transpose := by
  have hnf : (fun u h => transpose_heap (adjoint_node_eval ops u (transpose_heap h)))
      = forward_node_eval ops.transpose := by
    funext u h
    rw [adjoint_node_eval_eq]
    rfl
  have h := traverse_graph_transpose (adjoint_node_eval ops) false fuel s
  rw [hnf] at h
  unfold adjoint_eval forward_eval
  simp only [Bool.not_false] at h
  rw [h]
  cases traverse_graph (adjoint_node_eval ops) false fuel s <;> rfl

/-- C16: the increment of the visited node's own counter, `eval_map[curr]++`, is
harmless: on every valid two-terminal DAG and in either direction, `traverse_graph`
and its variant without that increment both return, with the same log, that is the
same sequence of calls of `node_fn`, and in the same final state. -/
theorem self_increment_is_harmless {α : Type}
    (node_fn : Nat → Heap α → Heap α) (forward : Bool) (s : FAO_DAG α) (nodes : List Nat)
    (hdag : TwoTerminalDAG s nodes) (hfn : PreservesTopology node_fn)
    (hem : s.eval_map = map_clear) (hq : s.ready_queue = [])
    (fuel : Nat) (hfuel : nodes.length < fuel) :
    ∃ s' log, traverse_graph node_fn forward fuel s = some (s', log) ∧
      traverse_graph_noself node_fn forward fuel s = some (s', log) := by
  have hs := sched_of_wellFormed forward s nodes hdag.1 (hdag.reachable forward)
  obtain ⟨s', log, h1, -, -, -, h5, -⟩ :=
    traverse_graph_spec node_fn forward s nodes hs hfn hem hq fuel hfuel
  refine ⟨s', log, h1, ?_⟩
  unfold traverse_graph at h1
  unfold traverse_graph_noself
  dsimp only at h1 ⊢
  cases hrun : traverse_loop node_fn forward fuel
      ({ s with ready_queue := s.ready_queue ++
          [if forward = true then s.start_node else s.end_node] } : FAO_DAG α) with
  | none => rw [hrun] at h1; simp at h1
  | some r =>
    rw [hrun] at h1
    simp only [Option.some.injEq, Prod.mk.injEq] at h1
    obtain ⟨rfl, rfl⟩ := h1
    obtain ⟨t', f1, f2, f3, f4, f5⟩ :=
      traverse_loop_noself_eq node_fn forward hfn fuel [] _ _ r.1 r.2 (fun _ => rfl)
        ⟨rfl, rfl, rfl, rfl, fun _ _ => rfl⟩ hrun h5
    rw [f1]
    simp only [f2, f3, f4, f5]

theorem self_increment_is_harmless_witness :
    TwoTerminalDAG diamond_dag [0, 1, 2, 3] ∧
    ∃ s' log, traverse_graph skip_fn false 5 diamond_dag = some (s', log) ∧
      traverse_graph_noself skip_fn false 5 diamond_dag = some (s', log) :=
  ⟨diamond_twoTerminal,
    self_increment_is_harmless skip_fn false diamond_dag [0, 1, 2, 3] diamond_twoTerminal
      skip_fn_preservesTopology rfl rfl 5 (by decide)⟩

/-- C17: on every finite graph, well-formed or not, `traverse_graph` called with an
empty `ready_queue` (the constructor leaves it empty and so does every traversal)
returns, and the sequence of nodes passed to `node_fn` is the sequence of nodes
pushed on `ready_queue`: the start node, then the nodes pushed by the loop, in push
order. The nodes pushed during the visit of one node `e.1` are a
subsequence `e.2` of its neighbour list (`output_nodes` forward, `input_nodes`
reverse), in the order of that list, and they are visited one after the other in
that order. -/
theorem traverse_graph_fifo_order {α : Type}
    (node_fn : Nat → Heap α → Heap α) (forward : Bool) (s : FAO_DAG α) (nodes : List Nat)
    (hfin : FiniteGraph s nodes) (hfn : PreservesTopology node_fn)
    (hq : s.ready_queue = []) (fuel : Nat) (hfuel : nodes.length + 1 < fuel) :
    ∃ s' log, traverse_graph node_fn forward fuel s = some (s', log) ∧
      visited log = start_of forward s :: pushed log ∧
      ∀ pre e post, log = pre ++ e :: post →
        e.2.Sublist (children forward (s.heap e.1)) ∧
        visited log = (start_of forward s :: pushed pre) ++ e.2 ++ pushed post := by
  obtain ⟨s', log, e1, e2, -, -, -, e6, -⟩ :=
    traverse_graph_general node_fn forward s nodes (hfin.start_of_mem forward)
      (hfin.closed forward) hfn hq fuel hfuel
  refine ⟨s', log, e1, e2.symm, fun pre e post hlog => ⟨?_, ?_⟩⟩
  · exact e6 e (by rw [hlog]; simp)
  · rw [← e2, hlog, pushed_append]
    simp [pushed]

theorem traverse_graph_fifo_order_witness :
    FiniteGraph fanout_dag [0, 1, 2] ∧
    (∃ s' log, traverse_graph skip_fn true 5 fanout_dag = some (s', log) ∧
      visited log = start_of true fanout_dag :: pushed log ∧
      ∀ pre e post, log = pre ++ e :: post →
        e.2.Sublist (children true (fanout_dag.heap e.1)) ∧
        visited log = (start_of true fanout_dag :: pushed pre) ++ e.2 ++ pushed post) ∧
    (traverse_graph skip_fn true 5 fanout_dag).map (fun r => visited r.2) = some [0, 1, 2] :=
  ⟨fanout_finite,
    traverse_graph_fifo_order skip_fn true fanout_dag [0, 1, 2] fanout_finite
      skip_fn_preservesTopology rfl 5 (by decide),
    by decide⟩

/-- C18: `traverse_graph` terminates on every finite graph, cyclic and otherwise
malformed ones included, in either direction: called with an empty `ready_queue`
(the constructor leaves it empty and so does every traversal; the content of
`eval_map` does not matter), it returns for every bound on the number of iterations
larger than `N + 1`, and it has invoked `node_fn` at most `N + 1` times, where `N`
is the number of nodes of the graph. -/
theorem traverse_graph_terminates {α : Type}
    (node_fn : Nat → Heap α → Heap α) (forward : Bool) (s : FAO_DAG α) (nodes : List Nat)
    (hfin : FiniteGraph s nodes) (hfn : PreservesTopology node_fn)
    (hq : s.ready_queue = []) (fuel : Nat) (hfuel : nodes.length + 1 < fuel) :
    ∃ s' log, traverse_graph node_fn forward fuel s = some (s', log) ∧
      (visited log).length ≤ nodes.length + 1 := by
  obtain ⟨s', log, e1, e2, e3, e4, -⟩ :=
    traverse_graph_general node_fn forward s nodes (hfin.start_of_mem forward)
      (hfin.closed forward) hfn hq fuel hfuel
  refine ⟨s', log, e1, ?_⟩
  rw [← e2, List.length_cons]
  have := (List.subperm_of_subset e3 e4).length_le
  omega

theorem traverse_graph_terminates_witness :
    FiniteGraph loop_dag [0, 1] ∧
    ∃ s' log, traverse_graph skip_fn true 4 loop_dag = some (s', log) ∧
      (visited log).length ≤ [0, 1].length + 1 :=
  ⟨loop_finite,
    traverse_graph_terminates skip_fn true loop_dag [0, 1] loop_finite
      skip_fn_preservesTopology rfl 4 (by decide)⟩

/-- C19: on every finite graph, with no well-formedness assumption, a traversal
called with an empty `ready_queue` (the constructor leaves it empty and so does every
traversal; the content of `eval_map` does not matter) returns and has invoked `node_fn` at most once on every node other than the start
node of the traversal and at most twice on the start node; when it has invoked it
twice on the start node, the threshold of the start node in the traversal direction
is at least 2. -/
theorem traverse_graph_visits_at_most_twice {α : Type}
    (node_fn : Nat → Heap α → Heap α) (forward : Bool) (s : FAO_DAG α) (nodes : List Nat)
    (hfin : FiniteGraph s nodes) (hfn : PreservesTopology node_fn)
    (hq : s.ready_queue = []) (fuel : Nat) (hfuel : nodes.length + 1 < fuel) :
    ∃ s' log, traverse_graph node_fn forward fuel s = some (s', log) ∧
      (∀ v, v ≠ start_of forward s → (visited log).count v ≤ 1) ∧
      (visited log).count (start_of forward s) ≤ 2 ∧
      ((visited log).count (start_of forward s) = 2 →
        2 ≤ (parents forward (s.heap (start_of forward s))).length) := by
  obtain ⟨s', log, e1, e2, e3, -, e5, -⟩ :=
    traverse_graph_general node_fn forward s nodes (hfin.start_of_mem forward)
      (hfin.closed forward) hfn hq fuel hfuel
  have hle : ∀ v, (pushed log).count v ≤ 1 := fun v => List.nodup_iff_count_le_one.mp e3 v
  refine ⟨s', log, e1, ?_, ?_, ?_⟩
  · intro v hv
    rw [← e2, List.count_cons_of_ne hv]
    exact hle v
  · rw [← e2, List.count_cons_self]
    have := hle (start_of forward s)
    omega
  · intro h2
    rw [← e2, List.count_cons_self] at h2
    apply e5
    apply List.count_pos_iff.mp
    omega

theorem traverse_graph_visits_at_most_twice_witness :
    FiniteGraph loop_dag [0, 1] ∧
    ∃ s' log, traverse_graph skip_fn true 4 loop_dag = some (s', log) ∧
      (∀ v, v ≠ start_of true loop_dag → (visited log).count v ≤ 1) ∧
      (visited log).count (start_of true loop_dag) ≤ 2 ∧
      ((visited log).count (start_of true loop_dag) = 2 →
        2 ≤ (parents true (loop_dag.heap (start_of true loop_dag))).length) :=
  ⟨loop_finite,
    traverse_graph_visits_at_most_twice skip_fn true loop_dag [0, 1] loop_finite
      skip_fn_preservesTopology rfl 4 (by decide)⟩

/-- C20: on every valid two-terminal DAG, `forward_eval` returns and leaves the
`input_data` of the entry node, the forward-input buffer, as it was, and
`adjoint_eval` returns and leaves the `output_data` of the exit node, the
adjoint-input seed, as it was. A node operation gives the new content of the buffer
it writes and the two buffers of a node are distinct, by the data model; the graph
may have one node or more. -/
theorem eval_keeps_boundary_input {α : Type} (ops : FAOOps α) (s : FAO_DAG α)
    (nodes : List Nat) (hdag : TwoTerminalDAG s nodes)
    (hem : s.eval_map = map_clear) (hq : s.ready_queue = [])
    (fuel : Nat) (hfuel : nodes.length < fuel) :
    (∃ s', forward_eval ops fuel s = some s' ∧
      (s'.heap s.start_node).input_data = (s.heap s.start_node).input_data) ∧
    (∃ s', adjoint_eval ops fuel s = some s' ∧
      (s'.heap s.end_node).output_data = (s.heap s.end_node).output_data) := by
  constructor
  · have hs := sched_of_wellFormed true s nodes hdag.1 hdag.2.1
    obtain ⟨s', log, h1, -, h3, -, -, h6, -⟩ :=
      traverse_graph_spec (forward_node_eval ops) true s nodes hs
        (forward_node_eval_preservesTopology ops) hem hq fuel hfuel
    refine ⟨s', by simp [forward_eval, h1], ?_⟩
    rw [h6]
    apply forward_fold_input_frame ops s.heap s.start_node (visited log) s.heap
      (SameStatic.refl _)
    intro u hu hmem
    have hun := (h3 u).mp hu
    have := (hdag.1.edge_iff hun hdag.2.1.1).mp hmem
    have hpa := hs.start_pa
    simp only [parents, start_of, if_true] at hpa
    rw [hpa] at this
    simp at this
  · have hs := sched_of_wellFormed false s nodes hdag.1 hdag.2.2
    obtain ⟨s', log, h1, -, h3, -, -, h6, -⟩ :=
      traverse_graph_spec (adjoint_node_eval ops) false s nodes hs
        (adjoint_node_eval_preservesTopology ops) hem hq fuel hfuel
    refine ⟨s', by simp [adjoint_eval, h1], ?_⟩
    rw [h6, foldl_adjoint_node_eval]
    apply forward_fold_input_frame ops.transpose (transpose_heap s.heap) s.end_node
      (visited log) (transpose_heap s.heap) (SameStatic.refl _)
    intro u hu hmem
    have hun := (h3 u).mp hu
    have hmem' : s.end_node ∈ (s.heap u).input_nodes := hmem
    have := (hdag.1.edge_iff hdag.2.2.1 hun).mpr hmem'
    have hpa := hs.start_pa
    simp only [parents, start_of, Bool.false_eq_true, if_false] at hpa
    rw [hpa] at this
    simp at this

theorem eval_keeps_boundary_input_witness :
    TwoTerminalDAG diamond_dag [0, 1, 2, 3] ∧
    (∃ s', forward_eval diamond_ops 5 diamond_dag = some s' ∧
      (s'.heap diamond_dag.start_node).input_data
        = (diamond_dag.heap diamond_dag.start_node).input_data) ∧
    (∃ s', adjoint_eval diamond_ops 5 diamond_dag = some s' ∧
      (s'.heap diamond_dag.end_node).output_data
        = (diamond_dag.heap diamond_dag.end_node).output_data) :=
  ⟨diamond_twoTerminal,
    eval_keeps_boundary_input diamond_ops diamond_dag [0, 1, 2, 3] diamond_twoTerminal
      rfl rfl 5 (by decide)⟩

end FAODAG
